import Mathlib

/-!
# Verification of the `py` python-launcher (Go) against its specification

This file gives a shallow embedding, in Lean 4, of the interpreter
discovery, ranking and resolution engine of the `py` command-line
launcher, translated from the Go sources:

* package `interpreter` (Interpreter, FromFilePath, byVersion ordering,
  Sort, GetAll, getPythonInterpreters),
* package `py` (GetPath, deDupe),
* package `cli` (App.Launch and its helpers).

Go strings are modelled as `List Char` (all relevant data is ASCII, so
byte-level and rune-level views coincide).  The Go standard-library
functions the sources call (`strconv.Atoi`, `strings.Split`,
`filepath.Base`, `filepath.Clean`, `filepath.Join`, `filepath.Abs`,
`sort.Sort`) are embedded by translating their documented stdlib
implementations; `int` is Go's 64-bit int, so integer parsing carries
the int64 range check.  Filesystem and environment access is passed in
explicitly (a directory-listing oracle, an existence predicate, the
relevant environment variables), and `syscall.Exec` is modelled as a
terminal outcome: on success it replaces the process, so no code after
a successful exec runs.
-/

/-- A Go string, viewed as its sequence of characters. -/
abbrev GoStr := List Char

/-- `strings.HasPrefix p s` (argument order: the candidate string first in
Go; here the candidate prefix comes first for readability). -/
def hasPre (p s : GoStr) : Bool := p.isPrefixOf s

/-- `strings.Split s sep` for a one-character separator: Go returns all
substrings between occurrences of `sep`; on the empty string it returns
one empty part. -/
def goSplitChar (sep : Char) : GoStr → List GoStr
  | [] => [[]]
  | c :: rest =>
    match goSplitChar sep rest with
    | [] => [[]]
    | part :: parts => if c = sep then [] :: part :: parts else (c :: part) :: parts

/-- `filepath.SplitList`: empty input gives no entries, otherwise split on
the Unix list separator `:`. -/
def goSplitList (s : GoStr) : List GoStr :=
  if s = [] then [] else goSplitChar ':' s

/-- Decimal value of a digit string (Go's accumulation `n = n*10 + digit`). -/
def digitsToNat (d : List Char) : Nat :=
  d.foldl (fun n c => n * 10 + (c.toNat - '0'.toNat)) 0

/-- Is `d` a non-empty string of ASCII decimal digits? -/
def allDigitsB (d : List Char) : Bool :=
  !d.isEmpty && d.all fun c => '0' ≤ c && c ≤ '9'

/-- `strconv.Atoi` on a 64-bit platform: an optional single leading `+` or
`-`, then one or more decimal digits, value within the `int64` range
(range overflow is an error for `Atoi`'s callers, so it yields `none`). -/
def goAtoi : GoStr → Option Int
  | [] => none
  | c :: rest =>
    if c = '+' then
      if allDigitsB rest && digitsToNat rest ≤ 2 ^ 63 - 1 then some (digitsToNat rest) else none
    else if c = '-' then
      if allDigitsB rest && digitsToNat rest ≤ 2 ^ 63 then some (-(digitsToNat rest : Int)) else none
    else
      if allDigitsB (c :: rest) && digitsToNat (c :: rest) ≤ 2 ^ 63 - 1 then
        some ((digitsToNat (c :: rest) : Int))
      else none

/-- `filepath.Base` on Unix: empty path gives `"."`; otherwise trailing
slashes are removed, then everything up to and including the last slash;
an all-slash path gives `"/"`. -/
def goBase (path : GoStr) : GoStr :=
  if path = [] then ['.']
  else
    let p := (path.reverse.dropWhile (· = '/')).reverse
    if p = [] then ['/']
    else (p.reverse.takeWhile (· ≠ '/')).reverse

/-- The backtracking step of `filepath.Clean`'s `..` handling: starting
from width `w`, pop while `w > dotdot` and the character at `w` is not a
slash (Go: `out.w--; for out.w > dotdot && out.index(out.w) != '/' {
out.w-- }` — here the initial decrement is done by the caller). -/
def shrinkW (out : List Char) (dotdot : Nat) : Nat → Nat
  | 0 => 0
  | w + 1 => if dotdot < w + 1 ∧ out.getD (w + 1) '/' ≠ '/' then shrinkW out dotdot w else w + 1

/-- The main loop of `filepath.Clean` (Unix), transcribed from
`path/filepath`'s lazybuf algorithm.  `out` is the output buffer built so
far, `dotdot` the limit below which `..` may not backtrack.  One unit of
fuel is spent per loop iteration and every iteration consumes at least
one input character, so fuel = input length always suffices. -/
def cleanLoop (rooted : Bool) : Nat → Nat → List Char → List Char → List Char
  | 0, _, out, _ => out
  | _, _, out, [] => out
  | f + 1, dotdot, out, c :: rest =>
    if c = '/' then
      cleanLoop rooted f dotdot out rest
    else if c = '.' ∧ (rest = [] ∨ rest.head? = some '/') then
      cleanLoop rooted f dotdot out rest
    else if c = '.' ∧ rest.head? = some '.' ∧ (rest.tail.head? = none ∨ rest.tail.head? = some '/') then
      if dotdot < out.length then
        cleanLoop rooted f dotdot (out.take (shrinkW out dotdot (out.length - 1))) rest.tail
      else if !rooted then
        let out2 := (if 0 < out.length then out ++ ['/'] else out) ++ ['.', '.']
        cleanLoop rooted f out2.length out2 rest.tail
      else
        cleanLoop rooted f dotdot out rest.tail
    else
      let comp := (c :: rest).takeWhile (· ≠ '/')
      let rest2 := (c :: rest).dropWhile (· ≠ '/')
      let out2 :=
        (if (rooted ∧ out.length ≠ 1) ∨ (!rooted ∧ out.length ≠ 0) then out ++ ['/'] else out) ++ comp
      cleanLoop rooted f dotdot out2 rest2

/-- `filepath.Clean` on Unix. -/
def goClean (path : GoStr) : GoStr :=
  if path = [] then ['.']
  else
    let out :=
      if path.head? = some '/' then cleanLoop true path.length 1 ['/'] path.tail
      else cleanLoop false path.length 0 [] path
    if out = [] then ['.'] else out

/-- `strings.Join` with separator `"/"`. -/
def goJoinSlash : List GoStr → GoStr
  | [] => []
  | [x] => x
  | x :: y :: rest => x ++ '/' :: goJoinSlash (y :: rest)

/-- `filepath.Join`: drop leading empty elements, join the remainder on
`/`, and clean the result; all-empty input gives the empty string. -/
def goJoin (elems : List GoStr) : GoStr :=
  match elems with
  | [] => []
  | e :: rest => if e = [] then goJoin rest else goClean (goJoinSlash (e :: rest))

/-- `filepath.Abs` with the working directory passed explicitly (Go reads
it from `os.Getwd`): an absolute path is cleaned, a relative one is
joined onto the working directory. -/
def goAbs (cwd path : GoStr) : GoStr :=
  if path.head? = some '/' then goClean path else goJoin [cwd, path]

/-- `unicode.IsSpace`, the whitespace class used by `strings.TrimSpace`. -/
def goIsSpace (c : Char) : Bool :=
  c = ' ' ∨ c = '\t' ∨ c = '\n' ∨ c.toNat = 0xB ∨ c.toNat = 0xC ∨ c = '\r' ∨
    c.toNat = 0x85 ∨ c.toNat = 0xA0 ∨ c.toNat = 0x1680 ∨
    (0x2000 ≤ c.toNat ∧ c.toNat ≤ 0x200A) ∨ c.toNat = 0x2028 ∨ c.toNat = 0x2029 ∨
    c.toNat = 0x202F ∨ c.toNat = 0x205F ∨ c.toNat = 0x3000

/-- `strings.TrimSpace`. -/
def goTrimSpace (s : GoStr) : GoStr :=
  ((s.dropWhile goIsSpace).reverse.dropWhile goIsSpace).reverse

namespace Interp

/-- `interpreter.Interpreter`: a python interpreter found on disk
(absolute path plus its major and minor version). -/
structure Interpreter where
  Path : GoStr
  Major : Int
  Minor : Int
deriving DecidableEq, Repr

instance : Inhabited Interpreter := ⟨⟨[], 0, 0⟩⟩

/-- `Interpreter.FromFilePath` (package `interpreter`): take the base
name, require the literal `python` at the front, split the remainder on
`.` into exactly two parts, parse both with `strconv.Atoi`, and resolve
the path to absolute form.  Returns `none` where the Go method returns a
non-nil error. -/
def FromFilePath (cwd path : GoStr) : Option Interpreter :=
  if hasPre "python".toList (goBase path) then
    match goSplitChar '.' ((goBase path).drop ("python".toList.length)) with
    | [major, minor] =>
      match goAtoi major, goAtoi minor with
      | some majorInt, some minorInt => some ⟨goAbs cwd path, majorInt, minorInt⟩
      | _, _ => none
    | _ => none
  else none

/-- `Interpreter.SatisfiesMajor`. -/
def SatisfiesMajor (i : Interpreter) (version : Int) : Bool :=
  i.Major = version

/-- `Interpreter.SatisfiesExact`. -/
def SatisfiesExact (i : Interpreter) (major minor : Int) : Bool :=
  i.Major = major && i.Minor = minor

/-- `byVersion.Less` as a comparison of two interpreter values: reversed
so that the latest interpreter sorts first. -/
def vlt (x y : Interpreter) : Bool :=
  if x.Major > y.Major then true
  else if x.Major = y.Major then x.Minor > y.Minor
  else false

/-- `data.Less(i, j)` of the `byVersion` slice: compare by position. -/
def lessAt (l : List Interpreter) (i j : Nat) : Bool :=
  vlt (l.getD i default) (l.getD j default)

/-- `data.Swap(i, j)`: exchange two positions of the slice. -/
def lswap (l : List Interpreter) (i j : Nat) : List Interpreter :=
  match l.get? i, l.get? j with
  | some a, some b => (l.set i b).set j a
  | _, _ => l

/-!
`interpreter.Sort` delegates to the standard library's `sort.Sort`.  The
repository does not pin a toolchain; we embed `sort.Sort` as implemented
in the Go standard library of the repository's era (up to Go 1.18):
`quickSort` with median-of-three/nine pivoting via `doPivot`, a heapsort
fallback when the depth budget `maxDepth` runs out, and, for segments of
at most 12 elements, a single Shell-sort pass with gap 6 followed by
insertion sort.  Every loop is translated with an explicit fuel
parameter so that all definitions are structurally recursive and
kernel-computable; each fuel value supplied is at least the number of
iterations the Go loop performs.
-/

/-- Inner loop of `insertionSort`: `for j := i; j > a && data.Less(j, j-1); j--`. -/
def insInner (a : Nat) : List Interpreter → Nat → List Interpreter
  | l, 0 => l
  | l, j + 1 =>
    if a < j + 1 ∧ lessAt l (j + 1) j then insInner a (lswap l (j + 1) j) j else l

/-- Outer loop of `insertionSort`: `for i := a + 1; i < b; i++`. -/
def insOuter (a b : Nat) : Nat → List Interpreter → Nat → List Interpreter
  | 0, l, _ => l
  | f + 1, l, i => if i < b then insOuter a b f (insInner a l i) (i + 1) else l

/-- `insertionSort(data, a, b)` from Go's `sort` package. -/
def insertionSortGo (l : List Interpreter) (a b : Nat) : List Interpreter :=
  insOuter a b (b - a) l (a + 1)

/-- The Shell-sort pass with gap 6 that `quickSort` runs on segments of
at most 12 elements: `for i := a + 6; i < b; i++ { if data.Less(i, i-6) {
data.Swap(i, i-6) } }`. -/
def shellLoop (b : Nat) : Nat → List Interpreter → Nat → List Interpreter
  | 0, l, _ => l
  | f + 1, l, i =>
    if i < b then shellLoop b f (if lessAt l i (i - 6) then lswap l i (i - 6) else l) (i + 1)
    else l

/-- The gap-6 pass over `[a, b)`. -/
def shellPassGo (l : List Interpreter) (a b : Nat) : List Interpreter :=
  shellLoop b (b - a) l (a + 6)

/-- `siftDown(data, lo, hi, first)` from Go's `sort` package (the `root`
argument carries the loop variable; one fuel per iteration, and the root
strictly increases below `hi`, so fuel `hi` suffices). -/
def siftDownLoop (first hi : Nat) : Nat → List Interpreter → Nat → List Interpreter
  | 0, l, _ => l
  | f + 1, l, root =>
    if 2 * root + 1 ≥ hi then l
    else if 2 * root + 1 + 1 < hi ∧ lessAt l (first + (2 * root + 1)) (first + (2 * root + 1) + 1) then
      -- Go sets `child++` here; the two branches below inline the two
      -- possible values of `child` (2*root+2 and 2*root+1).
      if ¬ lessAt l (first + root) (first + (2 * root + 2)) then l
      else siftDownLoop first hi f (lswap l (first + root) (first + (2 * root + 2))) (2 * root + 2)
    else
      if ¬ lessAt l (first + root) (first + (2 * root + 1)) then l
      else siftDownLoop first hi f (lswap l (first + root) (first + (2 * root + 1))) (2 * root + 1)

/-- `siftDown` entry point. -/
def siftDownGo (l : List Interpreter) (lo hi first : Nat) : List Interpreter :=
  siftDownLoop first hi hi l lo

/-- Heap-building loop of `heapSort`: `for i := (hi-1)/2; i >= 0; i--`;
the counter argument `k + 1` processes index `k`. -/
def heapBuildLoop (hi first : Nat) : Nat → List Interpreter → List Interpreter
  | 0, l => l
  | k + 1, l => heapBuildLoop hi first k (siftDownGo l k hi first)

/-- Pop loop of `heapSort`: `for i := hi - 1; i >= 0; i-- { data.Swap(first,
first+i); siftDown(data, lo, i, first) }`. -/
def heapPopLoop (first : Nat) : Nat → List Interpreter → List Interpreter
  | 0, l => l
  | k + 1, l => heapPopLoop first k (siftDownGo (lswap l first (first + k)) 0 k first)

/-- `heapSort(data, a, b)` from Go's `sort` package. -/
def heapSortGo (l : List Interpreter) (a b : Nat) : List Interpreter :=
  heapPopLoop a (b - a) (heapBuildLoop (b - a) a ((b - a - 1) / 2 + 1) l)

/-- `medianOfThree(data, m1, m0, m2)`: sorts the three positions so that
`data[m0] <= data[m1] <= data[m2]`. -/
def medianOfThree (l : List Interpreter) (m1 m0 m2 : Nat) : List Interpreter :=
  if lessAt l m1 m0 then
    if lessAt (lswap l m1 m0) m2 m1 then
      if lessAt (lswap (lswap l m1 m0) m2 m1) m1 m0 then
        lswap (lswap (lswap l m1 m0) m2 m1) m1 m0
      else lswap (lswap l m1 m0) m2 m1
    else lswap l m1 m0
  else
    if lessAt l m2 m1 then
      if lessAt (lswap l m2 m1) m1 m0 then lswap (lswap l m2 m1) m1 m0
      else lswap l m2 m1
    else l

/-- `doPivot`'s initial scan: `for ; a < c && data.Less(a, pivot); a++`. -/
def dpALoop (l : List Interpreter) (c pivot : Nat) : Nat → Nat → Nat
  | 0, a => a
  | f + 1, a => if a < c ∧ lessAt l a pivot then dpALoop l c pivot f (a + 1) else a

/-- `doPivot`'s forward scan: `for ; b < c && !data.Less(pivot, b); b++`. -/
def dpBLoop (l : List Interpreter) (c pivot : Nat) : Nat → Nat → Nat
  | 0, b => b
  | f + 1, b => if b < c ∧ ¬ lessAt l pivot b then dpBLoop l c pivot f (b + 1) else b

/-- `doPivot`'s backward scan: `for ; b < c && data.Less(pivot, c-1); c--`. -/
def dpCLoop (l : List Interpreter) (b pivot : Nat) : Nat → Nat → Nat
  | 0, c => c
  | f + 1, c => if b < c ∧ lessAt l pivot (c - 1) then dpCLoop l b pivot f (c - 1) else c

/-- `doPivot`'s main partition loop: advance `b` and retreat `c`, swapping
out-of-place pairs until the scans meet. -/
def dpMain (pivot : Nat) : Nat → List Interpreter → Nat → Nat → List Interpreter × Nat × Nat
  | 0, l, b, c => (l, b, c)
  | f + 1, l, b, c =>
    let b' := dpBLoop l c pivot (c - b) b
    let c' := dpCLoop l b' pivot (c - b') c
    if b' ≥ c' then (l, b', c')
    else dpMain pivot f (lswap l b' (c' - 1)) (b' + 1) (c' - 1)

/-- Backward scan of `doPivot`'s duplicate-protection loop:
`for ; a < b && !data.Less(b-1, pivot); b--`. -/
def dpPBLoop (l : List Interpreter) (a pivot : Nat) : Nat → Nat → Nat
  | 0, b => b
  | f + 1, b => if a < b ∧ ¬ lessAt l (b - 1) pivot then dpPBLoop l a pivot f (b - 1) else b

/-- Forward scan of `doPivot`'s duplicate-protection loop:
`for ; a < b && data.Less(a, pivot); a++`. -/
def dpPALoop (l : List Interpreter) (b pivot : Nat) : Nat → Nat → Nat
  | 0, a => a
  | f + 1, a => if a < b ∧ lessAt l a pivot then dpPALoop l b pivot f (a + 1) else a

/-- `doPivot`'s duplicate-protection loop: move the elements equal to the
pivot to the middle; returns the updated data and the final `b`. -/
def dpProtect (pivot : Nat) : Nat → List Interpreter → Nat → Nat → List Interpreter × Nat
  | 0, l, _, b => (l, b)
  | f + 1, l, a, b =>
    let b' := dpPBLoop l a pivot (b - a) b
    let a' := dpPALoop l b' pivot (b' - a) a
    if a' ≥ b' then (l, b')
    else dpProtect pivot f (lswap l a' (b' - 1)) (a' + 1) (b' - 1)

/-- Pivot selection of `doPivot`: median of three (or nine for long
segments); definitionally the prefix of `doPivotGo` (see `doPivotGo_eq`). -/
def dpSel (l : List Interpreter) (lo hi : Nat) : List Interpreter :=
  let m := (lo + hi) / 2
  let l1 :=
    if hi - lo > 40 then
      let s := (hi - lo) / 8
      let l2 := medianOfThree l lo (lo + s) (lo + 2 * s)
      let l3 := medianOfThree l2 m (m - s) (m + s)
      medianOfThree l3 (hi - 1) (hi - 1 - s) (hi - 1 - 2 * s)
    else l
  medianOfThree l1 lo m (hi - 1)

/-- Duplicate-test stage of `doPivot`, applied to the partition-loop
result; definitionally a segment of `doPivotGo` (see `doPivotGo_eq`). -/
def dpDup (lo hi m : Nat) (t : List Interpreter × Nat × Nat) :
    List Interpreter × Nat × Nat × Bool :=
  let l := t.1
  let b := t.2.1
  let c := t.2.2
  let pivot := lo
  let protect1 : Bool := hi - c < 5
  if ¬ protect1 ∧ hi - c < (hi - lo) / 4 then
    let s1 : Bool := ¬ lessAt l pivot (hi - 1)
    let l := if s1 then lswap l c (hi - 1) else l
    let c := if s1 then c + 1 else c
    let s2 : Bool := ¬ lessAt l (b - 1) pivot
    let b := if s2 then b - 1 else b
    let s3 : Bool := ¬ lessAt l m pivot
    let l := if s3 then lswap l m (b - 1) else l
    let b := if s3 then b - 1 else b
    let dups := (if s1 then 1 else 0) + (if s2 then 1 else 0) + (if s3 then 1 else 0)
    (l, b, c, decide (dups > 1))
  else (l, b, c, protect1)

/-- Protect stage and final pivot placement of `doPivot`; definitionally
the suffix of `doPivotGo` (see `doPivotGo_eq`). -/
def dpFine (lo a : Nat) (t2 : List Interpreter × Nat × Nat × Bool) :
    List Interpreter × Nat × Nat :=
  let l := t2.1
  let b := t2.2.1
  let c := t2.2.2.1
  let protect := t2.2.2.2
  let t3 := if protect then dpProtect lo (b - a) l a b else (l, b)
  let l := t3.1
  let b := t3.2
  let l := if lo ≠ b - 1 then lswap l lo (b - 1) else l
  (l, b - 1, c)

/-- `doPivot(data, lo, hi)` from Go's `sort` package: choose a pivot by
median of three (or nine for long segments), three-way partition
`[lo, hi)`, and return the data together with `(midlo, midhi)`. -/
def doPivotGo (l : List Interpreter) (lo hi : Nat) : List Interpreter × Nat × Nat :=
  let m := (lo + hi) / 2
  let l :=
    if hi - lo > 40 then
      let s := (hi - lo) / 8
      let l := medianOfThree l lo (lo + s) (lo + 2 * s)
      let l := medianOfThree l m (m - s) (m + s)
      medianOfThree l (hi - 1) (hi - 1 - s) (hi - 1 - 2 * s)
    else l
  let l := medianOfThree l lo m (hi - 1)
  let pivot := lo
  let a := dpALoop l (hi - 1) pivot ((hi - 1) - (lo + 1)) (lo + 1)
  let t := dpMain pivot ((hi - 1) - a) l a (hi - 1)
  let l := t.1
  let b := t.2.1
  let c := t.2.2
  let protect1 : Bool := hi - c < 5
  let t2 :=
    if ¬ protect1 ∧ hi - c < (hi - lo) / 4 then
      let s1 : Bool := ¬ lessAt l pivot (hi - 1)
      let l := if s1 then lswap l c (hi - 1) else l
      let c := if s1 then c + 1 else c
      let s2 : Bool := ¬ lessAt l (b - 1) pivot
      let b := if s2 then b - 1 else b
      let s3 : Bool := ¬ lessAt l m pivot
      let l := if s3 then lswap l m (b - 1) else l
      let b := if s3 then b - 1 else b
      let dups := (if s1 then 1 else 0) + (if s2 then 1 else 0) + (if s3 then 1 else 0)
      (l, b, c, decide (dups > 1))
    else (l, b, c, protect1)
  let l := t2.1
  let b := t2.2.1
  let c := t2.2.2.1
  let protect := t2.2.2.2
  let t3 := if protect then dpProtect pivot (b - a) l a b else (l, b)
  let l := t3.1
  let b := t3.2
  let l := if pivot ≠ b - 1 then lswap l pivot (b - 1) else l
  (l, b - 1, c)

/-- `quickSort(data, a, b, maxDepth)` from Go's `sort` package, with the
outer `for b-a > 12` loop expressed as a tail call (the loop continues on
the larger half with the already-decremented depth budget).  Fuel is one
unit per loop iteration or recursive call; since every such step strictly
shrinks `b - a`, fuel equal to the initial segment length suffices. -/
def quickSortGo : Nat → List Interpreter → Nat → Nat → Nat → List Interpreter
  | 0, l, _, _, _ => l
  | f + 1, l, a, b, depth =>
    if b - a > 12 then
      if depth = 0 then heapSortGo l a b
      else
        let t := doPivotGo l a b
        let l' := t.1
        let mlo := t.2.1
        let mhi := t.2.2
        if mlo - a < b - mhi then
          quickSortGo f (quickSortGo f l' a mlo (depth - 1)) mhi b (depth - 1)
        else
          quickSortGo f (quickSortGo f l' mhi b (depth - 1)) a mlo (depth - 1)
    else if b - a > 1 then insertionSortGo (shellPassGo l a b) a b
    else l

/-- `maxDepth(n)` from Go's `sort` package: twice the number of times `n`
can be halved before reaching zero (the threshold at which quicksort
switches to heapsort). -/
def bitLenAux : Nat → Nat → Nat
  | 0, _ => 0
  | f + 1, n => if n = 0 then 0 else bitLenAux f (n / 2) + 1

/-- Number of binary digits of `n`. -/
def bitLen (n : Nat) : Nat := bitLenAux n n

/-- Go's `sort.maxDepth`. -/
def maxDepth (n : Nat) : Nat := 2 * bitLen n

/-- `interpreter.Sort`: `sort.Sort(byVersion(interpreters))` (the name
`Sort` is a Lean keyword, hence `sortGo`). -/
def sortGo (l : List Interpreter) : List Interpreter :=
  quickSortGo l.length l 0 l.length (maxDepth l.length)

/-- The segment `[a, b)` of `l` is sorted in the output order of
`byVersion` (no later element compares `Less` than an earlier one). -/
def SortedSeg (l : List Interpreter) (a b : Nat) : Prop :=
  ∀ i j, a ≤ i → i < j → j < b → vlt (l.getD j default) (l.getD i default) = false

/-- Every element of the segment `[a, b)` of `l` satisfies `P`. -/
def SegAll (l : List Interpreter) (a b : Nat) (P : Interpreter → Prop) : Prop :=
  ∀ k, a ≤ k → k < b → P (l.getD k default)

/-- The max-heap order of `heapSort` on the `hn`-element block starting at
`first`, restricted to pairs whose parent index is at least `r0`: no parent
compares `Less` than either of its in-range children. -/
def HeapFrom (l : List Interpreter) (first hn r0 : Nat) : Prop :=
  ∀ r c, r0 ≤ r → c < hn → (c = 2 * r + 1 ∨ c = 2 * r + 2) →
    vlt (l.getD (first + r) default) (l.getD (first + c) default) = false

/-- `getPythonInterpreters(dir)` (package `interpreter`): list the
directory, try `FromFilePath` on every entry, and keep the candidates
that parse *and* satisfy major version 3.  An unreadable directory is an
error (carrying the directory); a parse failure just skips the entry. -/
def getPythonInterpreters (fs : GoStr → Option (List GoStr)) (cwd dir : GoStr) :
    Except GoStr (List Interpreter) :=
  match fs dir with
  | none => .error dir
  | some contents =>
    .ok (contents.foldl
      (fun acc name =>
        match FromFilePath cwd (goJoin [dir, name]) with
        | some interp => if SatisfiesMajor interp 3 then acc ++ [interp] else acc
        | none => acc)
      [])

/-- `interpreter.GetAll`: scan each path in order, aborting with the
first unreadable directory's error (in which case no candidates are
returned at all). -/
def GetAll (fs : GoStr → Option (List GoStr)) (cwd : GoStr) :
    List GoStr → Except GoStr (List Interpreter)
  | [] => .ok []
  | p :: rest =>
    match getPythonInterpreters fs cwd p with
    | .error e => .error e
    | .ok found =>
      match GetAll fs cwd rest with
      | .error e => .error e
      | .ok more => .ok (found ++ more)

end Interp

/-- `deDupe`, defined identically in package `py` (`pkg/py/path.go`) and
package `cli`: keep the first occurrence of each path, dropping later
repeats (the Go map `keys` only ever answers membership queries, so it is
modelled by the list of previously seen entries). -/
def deDupeAux (seen : List GoStr) : List GoStr → List GoStr
  | [] => []
  | p :: rest => if p ∈ seen then deDupeAux seen rest else p :: deDupeAux (p :: seen) rest

/-- `deDupe(paths)`. -/
def deDupe (paths : List GoStr) : List GoStr := deDupeAux [] paths

namespace PyPkg

/-- `py.GetPath` (`pkg/py/path.go`) with the value of `$PATH` passed
explicitly: split on the list separator, replace empty entries by `"."`
(Unix shell semantics), and de-duplicate. -/
def GetPath (path : GoStr) : List GoStr :=
  deDupe ((goSplitList path).map fun dir => if dir = [] then ['.'] else dir)

end PyPkg

namespace Cli

open Interp

/-- The environment and operating-system services the `cli.App` reads,
passed in explicitly: the `VIRTUAL_ENV` and `PY_PYTHON` environment
variables (empty string when unset), the working directory (`os.Getwd`,
which on any realistic system succeeds), the `exists` predicate
(`os.Stat`), the first line of a file (`os.Open` plus one `Scanner.Scan`;
`none` when the file cannot be opened), the directory-listing oracle
(`os.ReadDir`; `none` when the directory cannot be read), whether
`syscall.Exec` succeeds on a path, and the `App.Path` field (`$PATH`). -/
structure GoEnv where
  virtualEnv : GoStr
  pyPython : GoStr
  cwd : GoStr
  fileExists : GoStr → Bool
  firstLine : GoStr → Option GoStr
  fs : GoStr → Option (List GoStr)
  execOk : GoStr → Bool
  path : GoStr

/-- The distinct error returns of the `cli` package's control flow. -/
inductive GoErr where
  /-- "error fetching python interpreters: could not fetch interpreters
  under `dir`" -/
  | fetchFailed (dir : GoStr)
  /-- "no python interpreters found on $PATH" -/
  | noInterpreters
  /-- "no python`N` interpreters found on $PATH" -/
  | noMajorInterpreters (major : Int)
  /-- "no python`N.M` interpreter found on $PATH" -/
  | noExactInterpreter (major minor : Int)
  /-- "could not open `file`" -/
  | openFile (file : GoStr)
  /-- "shebang major version `v` could not be parsed an integer" -/
  | shebangMajorNotInt (v : GoStr)
  /-- "malformed PY_PYTHON: not X.Y format" -/
  | pyPythonNotXY
  /-- "malformed PY_PYTHON: major component not an integer" -/
  | pyPythonMajorNotInt
  /-- "malformed PY_PYTHON: minor component not an integer" -/
  | pyPythonMinorNotInt
  /-- "error launching `path`" (syscall.Exec returned an error) -/
  | launchFailed (path : GoStr)
  /-- "no python interpreters found after executing control flow" -/
  | exhausted
deriving DecidableEq, Repr

/-- Outcome of a `cli` function that may hand the process over to
python: either the process image was replaced (`syscall.Exec`
succeeded — nothing after it runs, so this is terminal), or the function
returned to its caller with `some` error or `none` (Go `nil`). -/
inductive FlowResult where
  | replaced (path : GoStr) (argv : List GoStr)
  | returned (e : Option GoErr)
deriving DecidableEq, Repr

/-- `cli.launch(path, args)`: build `argv` as the executable's base name
followed by the forwarded arguments and `syscall.Exec`; an exec error is
returned, success never returns. -/
def launchF (env : GoEnv) (path : GoStr) (args : List GoStr) : FlowResult :=
  let argv := goBase path :: args
  if env.execOk path then .replaced path argv else .returned (some (.launchFailed path))

/-- `majorRegex`: `^\d+$`. -/
def majorRegexMatch (s : GoStr) : Bool := allDigitsB s

/-- `exactRegex`: `^\d+\.\d+$`. -/
def exactRegexMatch (s : GoStr) : Bool :=
  match goSplitChar '.' s with
  | [a, b] => allDigitsB a && allDigitsB b
  | _ => false

/-- `App.getPathEntries`: split `App.Path` on the list separator, map
empty entries to `"."`, silently skip entries beginning with `/var/run`
(the unreadable macOS cryptex directory), then de-duplicate. -/
def getPathEntries (path : GoStr) : List GoStr :=
  deDupe ((goSplitList path).foldr
    (fun dir acc =>
      let dir := if dir = [] then ['.'] else dir
      if hasPre "/var/run".toList dir then acc else dir :: acc)
    [])

/-- `App.getVenvPython(cwd)`: prefer `.venv/bin/python`, fall back to
`venv/bin/python`, empty string when neither exists. -/
def getVenvPython (env : GoEnv) (cwd : GoStr) : GoStr :=
  let dotVenv := goJoin [cwd, ".venv".toList, "bin".toList, "python".toList]
  let venv := goJoin [cwd, "venv".toList, "bin".toList, "python".toList]
  if env.fileExists dotVenv then dotVenv
  else if env.fileExists venv then venv
  else []

/-- `App.parsePyPython(version)`: split on `.` into exactly two parts and
`strconv.Atoi` each. -/
def parsePyPython (version : GoStr) : Except GoErr (Int × Int) :=
  match goSplitChar '.' version with
  | [major, minor] =>
    match goAtoi major with
    | none => .error .pyPythonMajorNotInt
    | some majorInt =>
      match goAtoi minor with
      | none => .error .pyPythonMinorNotInt
      | some minorInt => .ok (majorInt, minorInt)
  | _ => .error .pyPythonNotXY

/-- `App.parseShebang(shebang)`: require `#!`, drop it, trim whitespace,
and try the four accepted interpreter paths in order; on a match return
whatever follows, otherwise the empty string. -/
def parseShebang (shebang : GoStr) : GoStr :=
  if hasPre "#!".toList shebang then
    let shebang := goTrimSpace (shebang.drop 2)
    if hasPre "python".toList shebang then shebang.drop 6
    else if hasPre "/usr/bin/python".toList shebang then shebang.drop 15
    else if hasPre "/usr/local/bin/python".toList shebang then shebang.drop 21
    else if hasPre "/usr/bin/env python".toList shebang then shebang.drop 19
    else []
  else []

/-- `App.getAllPythonInterpreters`: scan every `$PATH` entry via
`interpreter.GetAll`, wrapping a scan error. -/
def getAllPythonInterpreters (env : GoEnv) : Except GoErr (List Interpreter) :=
  match Interp.GetAll env.fs env.cwd (getPathEntries env.path) with
  | .error dir => .error (.fetchFailed dir)
  | .ok interpreters => .ok interpreters

/-- `App.LaunchLatest(args)`: all interpreters on `$PATH`, error when
none, otherwise sort and launch the newest. -/
def LaunchLatest (env : GoEnv) (args : List GoStr) : FlowResult :=
  match getAllPythonInterpreters env with
  | .error e => .returned (some e)
  | .ok interpreters =>
    if interpreters.length = 0 then .returned (some .noInterpreters)
    else launchF env ((Interp.sortGo interpreters).headD default).Path args

/-- `App.LaunchMajor(major, args)`: keep the interpreters satisfying the
major constraint, error when none, otherwise sort and launch the newest. -/
def LaunchMajor (env : GoEnv) (major : Int) (args : List GoStr) : FlowResult :=
  match getAllPythonInterpreters env with
  | .error e => .returned (some e)
  | .ok interpreters =>
    if (interpreters.filter fun python => SatisfiesMajor python major).length = 0 then
      .returned (some (.noMajorInterpreters major))
    else
      launchF env
        ((Interp.sortGo (interpreters.filter fun python =>
          SatisfiesMajor python major)).headD default).Path args

/-- `App.LaunchExact(major, minor, args)`: keep the interpreters
satisfying the exact constraint, error when none, otherwise sort and
launch the newest. -/
def LaunchExact (env : GoEnv) (major minor : Int) (args : List GoStr) : FlowResult :=
  match getAllPythonInterpreters env with
  | .error e => .returned (some e)
  | .ok interpreters =>
    if (interpreters.filter fun python => SatisfiesExact python major minor).length = 0 then
      .returned (some (.noExactInterpreter major minor))
    else
      launchF env
        ((Interp.sortGo (interpreters.filter fun python =>
          SatisfiesExact python major minor)).headD default).Path args

/-- `App.handlePotentialShebang(args)` (called when `args[0]` is an
existing file): read the file's first line, parse a shebang out of it,
and dispatch on whether the version is a major (`^\d+$`) or exact
(`^\d+\.\d+$`) specifier; anything else falls through by returning `nil`
(modelled `.returned none`), which signals the caller to continue the
control flow. -/
def handlePotentialShebang (env : GoEnv) (args : List GoStr) : FlowResult :=
  match env.firstLine (args.headD []) with
  | none => .returned (some (.openFile (args.headD [])))
  | some line =>
    if majorRegexMatch (parseShebang line) then
      match goAtoi (parseShebang line) with
      | none => .returned (some (.shebangMajorNotInt (parseShebang line)))
      | some major =>
        -- `if err := a.LaunchMajor(major, args); err != nil { return err }`
        -- followed by `return nil` is the identity on the outcome.
        LaunchMajor env major args
    else if exactRegexMatch (parseShebang line) then
      match parsePyPython (parseShebang line) with
      | .error e => .returned (some e)
      | .ok (major, minor) => LaunchExact env major minor args
    else .returned none

/-- `App.Launch(args)`: the resolution control flow.  Steps, each
returning to the caller on the first match: (1) activated virtual
environment via `$VIRTUAL_ENV`; (2)–(3) `.venv` or `venv` under the
working directory; (4) shebang of a single existing-file argument (only
its errors and launches terminate — otherwise the flow continues);
(5) `$PY_PYTHON` as an exact `X.Y` version; (6) latest on `$PATH`; and a
defensive final error that requires `LaunchLatest` to have returned
`nil`. -/
def Launch (env : GoEnv) (args : List GoStr) : FlowResult :=
  if env.virtualEnv ≠ [] then
    launchF env (goJoin [env.virtualEnv, "bin".toList, "python".toList]) args
  else if getVenvPython env env.cwd ≠ [] then
    launchF env (getVenvPython env env.cwd) args
  else
    match
      (if args.length = 1 ∧ env.fileExists (args.headD []) then
        match handlePotentialShebang env args with
        | .returned none => none
        | r => some r
      else none : Option FlowResult)
    with
    | some r => r
    | none =>
      if env.pyPython ≠ [] then
        match parsePyPython env.pyPython with
        | .error e => .returned (some e)
        | .ok (major, minor) => LaunchExact env major minor args
      else
        match LaunchLatest env args with
        | .returned none => .returned (some .exhausted)
        | r => r

end Cli

/-!
Specification-side predicates.  These transcribe the grammar the
specification describes (plain unsigned digit strings, no sign
characters), to be compared with what the code accepts. -/

/-- A non-empty string of ASCII decimal digits (propositional form). -/
def AllDigits (d : List Char) : Prop :=
  d ≠ [] ∧ ∀ c ∈ d, '0' ≤ c ∧ c ≤ '9'

instance (d : List Char) : Decidable (AllDigits d) := by
  unfold AllDigits; infer_instance

/-- The strings `strconv.Atoi` accepts, with their value: an optional
single sign character before a non-empty digit string, within the
`int64` range. -/
def SignedIntRepr (s : GoStr) (v : Int) : Prop :=
  (∃ d, AllDigits d ∧ (s = d ∨ s = '+' :: d) ∧ digitsToNat d ≤ 2 ^ 63 - 1 ∧
    v = (digitsToNat d : Int)) ∨
  (∃ d, AllDigits d ∧ s = '-' :: d ∧ digitsToNat d ≤ 2 ^ 63 ∧ v = -(digitsToNat d : Int))

/-- The specification's `digits.digits` grammar: exactly one dot, an
unsigned non-empty digit string on each side. -/
def specDigitsDotDigits (s : GoStr) : Bool :=
  match goSplitChar '.' s with
  | [a, b] => allDigitsB a && allDigitsB b
  | _ => false

/-- The specification's valid-interpreter-filename grammar: the literal
`python` followed by `digits.digits`. -/
def specPyName (s : GoStr) : Bool :=
  hasPre "python".toList s && specDigitsDotDigits (s.drop 6)

/-- The strings `parsePyPython` accepts, with their values: a single dot
separating two components each accepted by `strconv.Atoi`. -/
def PyPythonRepr (s : GoStr) (mj mn : Int) : Prop :=
  ∃ s1 s2, s = s1 ++ '.' :: s2 ∧ '.' ∉ s1 ∧ '.' ∉ s2 ∧
    SignedIntRepr s1 mj ∧ SignedIntRepr s2 mn

/-- Concrete fixture: an activated virtual environment (with a
non-normalized trailing slash, for the C2 counterexample). -/
def envVenvSlash : Cli.GoEnv :=
  { virtualEnv := "/venv/".toList
    pyPython := []
    cwd := "/home/me".toList
    fileExists := fun _ => false
    firstLine := fun _ => none
    fs := fun _ => none
    execOk := fun _ => true
    path := [] }

/-- Concrete fixture: no environment signals except `PY_PYTHON=+3.9`,
with `python3.9` and `python3.8` installed under `/usr/bin`. -/
def envPyPlus : Cli.GoEnv :=
  { virtualEnv := []
    pyPython := "+3.9".toList
    cwd := "/home/me".toList
    fileExists := fun _ => false
    firstLine := fun _ => none
    fs := fun d => if d = "/usr/bin".toList then
        some ["python3.9".toList, "python3.8".toList] else none
    execOk := fun _ => true
    path := "/usr/bin".toList }

/-- Fixture for the stability question: interpreter `A`, version 3.9. -/
def stabA : Interp.Interpreter := ⟨"A".toList, 3, 9⟩

/-- Fixture: interpreter `B`, also version 3.9 but a different path. -/
def stabB : Interp.Interpreter := ⟨"B".toList, 3, 9⟩

/-- A 7-candidate list in which `A` (index 3) precedes `B` (index 6).
Go's `sort.Sort` runs its gap-6 Shell pass on it: `data[6] = B` sorts
before `data[0] = (3,5)`, so they are swapped, jumping `B` ahead of the
equal-version `A`; the following insertion sort never reorders equal
elements, so `B` stays in front of `A`. -/
def stabIn : List Interp.Interpreter :=
  [⟨"p0".toList, 3, 5⟩, ⟨"p1".toList, 3, 8⟩, ⟨"p2".toList, 3, 7⟩, stabA,
   ⟨"p4".toList, 3, 6⟩, ⟨"p5".toList, 3, 4⟩, stabB]

/-!
## Characterization lemmas for the string primitives
-/

theorem goSplitChar_ne_nil (sep : Char) (s : GoStr) : goSplitChar sep s ≠ [] := by
  cases s with
  | nil => simp [goSplitChar]
  | cons c rest =>
    simp only [goSplitChar]
    cases h : goSplitChar sep rest with
    | nil => simp
    | cons part parts => by_cases hc : c = sep <;> simp [hc]

theorem goSplitChar_singleton {sep : Char} {s x : GoStr} :
    goSplitChar sep s = [x] ↔ x = s ∧ sep ∉ s := by
  induction s generalizing x with
  | nil => simp [goSplitChar, eq_comm]
  | cons c rest ih =>
    simp only [goSplitChar]
    cases h : goSplitChar sep rest with
    | nil => exact absurd h (goSplitChar_ne_nil sep rest)
    | cons part parts =>
      by_cases hc : c = sep
      · subst hc
        simp [List.mem_cons]
      · simp only [if_neg hc]
        constructor
        · intro heq
          obtain ⟨h1, h2⟩ := List.cons_eq_cons.mp heq
          have hpr : goSplitChar sep rest = [part] := by rw [h, h2]
          obtain ⟨hp, hm⟩ := ih.mp hpr
          subst hp h1
          refine ⟨rfl, ?_⟩
          simp only [List.mem_cons, not_or]
          exact ⟨fun hcs => hc hcs.symm, hm⟩
        · rintro ⟨hx, hm⟩
          subst hx
          simp only [List.mem_cons, not_or] at hm
          have hpr : goSplitChar sep rest = [rest] := ih.mpr ⟨rfl, hm.2⟩
          rw [h] at hpr
          obtain ⟨hp, hps⟩ := List.cons_eq_cons.mp hpr
          subst hp
          simp [hps]

theorem goSplitChar_pair {sep : Char} {s a b : GoStr} :
    goSplitChar sep s = [a, b] ↔ s = a ++ sep :: b ∧ sep ∉ a ∧ sep ∉ b := by
  induction s generalizing a with
  | nil =>
    simp only [goSplitChar]
    constructor
    · intro h; cases h
    · rintro ⟨h, -⟩; cases a <;> simp_all
  | cons c rest ih =>
    simp only [goSplitChar]
    cases h : goSplitChar sep rest with
    | nil => exact absurd h (goSplitChar_ne_nil sep rest)
    | cons part parts =>
      by_cases hc : c = sep
      · subst hc
        simp only [if_pos rfl]
        constructor
        · intro heq
          obtain ⟨h1, h2⟩ := List.cons_eq_cons.mp heq
          have hpr : goSplitChar c rest = [b] := by
            rw [h, h2]
          obtain ⟨hb, hm⟩ := goSplitChar_singleton.mp hpr
          subst hb
          exact ⟨by rw [← h1, List.nil_append], by rw [← h1]; simp, hm⟩
        · rintro ⟨hs, ha, hb⟩
          cases a with
          | nil =>
            simp only [List.nil_append] at hs
            obtain ⟨-, h2⟩ := List.cons_eq_cons.mp hs
            have hpr : goSplitChar c rest = [b] :=
              goSplitChar_singleton.mpr ⟨h2.symm, h2 ▸ hb⟩
            rw [h] at hpr
            obtain ⟨h3, h4⟩ := List.cons_eq_cons.mp hpr
            simp [h3, h4]
          | cons a0 atl =>
            obtain ⟨h1, -⟩ := List.cons_eq_cons.mp hs
            exact absurd (List.mem_cons_self a0 atl) (h1 ▸ ha)
      · simp only [if_neg hc]
        constructor
        · intro heq
          obtain ⟨h1, h2⟩ := List.cons_eq_cons.mp heq
          have hpr : goSplitChar sep rest = [part, b] := by rw [h, h2]
          obtain ⟨hr, hpa, hpb⟩ := ih.mp hpr
          refine ⟨by rw [← h1, hr, List.cons_append], ?_, hpb⟩
          rw [← h1]
          simp only [List.mem_cons, not_or]
          exact ⟨fun hcs => hc hcs.symm, hpa⟩
        · rintro ⟨hs, ha, hb⟩
          cases a with
          | nil =>
            simp only [List.nil_append] at hs
            obtain ⟨h1, -⟩ := List.cons_eq_cons.mp hs
            exact absurd h1 hc
          | cons a0 atl =>
            obtain ⟨h1, h2⟩ := List.cons_eq_cons.mp hs
            simp only [List.mem_cons, not_or] at ha
            have hpr : goSplitChar sep rest = [atl, b] := ih.mpr ⟨h2, ha.2, hb⟩
            rw [h] at hpr
            obtain ⟨h3, h4⟩ := List.cons_eq_cons.mp hpr
            subst h1 h3
            simp [h4]

theorem allDigitsB_iff {d : List Char} : allDigitsB d = true ↔ AllDigits d := by
  simp [allDigitsB, AllDigits, List.isEmpty_iff, List.all_eq_true, and_assoc]

theorem goAtoi_plus (rest : List Char) :
    goAtoi ('+' :: rest) =
      if allDigitsB rest && digitsToNat rest ≤ 2 ^ 63 - 1 then some ((digitsToNat rest : Int))
      else none := rfl

theorem goAtoi_minus (rest : List Char) :
    goAtoi ('-' :: rest) =
      if allDigitsB rest && digitsToNat rest ≤ 2 ^ 63 then some (-(digitsToNat rest : Int))
      else none := rfl

theorem goAtoi_eq_some_iff {s : GoStr} {v : Int} :
    goAtoi s = some v ↔ SignedIntRepr s v := by
  cases s with
  | nil =>
    simp only [goAtoi, SignedIntRepr]
    constructor
    · intro h; cases h
    · rintro (⟨d, hd, hs, -, -⟩ | ⟨d, hd, hs, -, -⟩)
      · rcases hs with hs | hs <;> [skip; cases hs]
        exact absurd hs.symm hd.1
      · cases hs
  | cons c rest =>
    by_cases hp : c = '+'
    · subst hp
      simp only [goAtoi, reduceIte, SignedIntRepr]
      constructor
      · intro h
        split at h
        · rename_i hcond
          simp only [Bool.and_eq_true, decide_eq_true_eq] at hcond
          injection h with h
          exact Or.inl ⟨rest, allDigitsB_iff.mp hcond.1, Or.inr rfl, hcond.2, h.symm⟩
        · cases h
      · rintro (⟨d, hd, hs, hr, hv⟩ | ⟨d, hd, hs, hr, hv⟩)
        · rcases hs with hs | hs
          · exfalso
            have := hd.2 '+' (hs ▸ List.mem_cons_self _ _)
            revert this; decide
          · obtain ⟨-, h2⟩ := List.cons_eq_cons.mp hs
            subst h2 hv
            rw [allDigitsB_iff.mpr hd, decide_eq_true hr]
            rfl
        · cases hs
    · by_cases hm : c = '-'
      · subst hm
        rw [goAtoi_minus]
        simp only [SignedIntRepr]
        constructor
        · intro h
          split at h
          · rename_i hcond
            simp only [Bool.and_eq_true, decide_eq_true_eq] at hcond
            injection h with h
            exact Or.inr ⟨rest, allDigitsB_iff.mp hcond.1, rfl, hcond.2, h.symm⟩
          · cases h
        · rintro (⟨d, hd, hs, hr, hv⟩ | ⟨d, hd, hs, hr, hv⟩)
          · rcases hs with hs | hs
            · exfalso
              have := hd.2 '-' (hs ▸ List.mem_cons_self _ _)
              revert this; decide
            · cases hs
          · obtain ⟨-, h2⟩ := List.cons_eq_cons.mp hs
            subst h2 hv
            rw [allDigitsB_iff.mpr hd, decide_eq_true hr]
            rfl
      · simp only [goAtoi, if_neg hp, if_neg hm, SignedIntRepr]
        constructor
        · intro h
          split at h
          · rename_i hcond
            simp only [Bool.and_eq_true, decide_eq_true_eq] at hcond
            injection h with h
            exact Or.inl ⟨c :: rest, allDigitsB_iff.mp hcond.1, Or.inl rfl, hcond.2, h.symm⟩
          · cases h
        · rintro (⟨d, hd, hs, hr, hv⟩ | ⟨d, hd, hs, hr, hv⟩)
          · rcases hs with hs | hs
            · subst hv
              rw [hs, allDigitsB_iff.mpr (hs ▸ hd), decide_eq_true (hs ▸ hr)]
              rfl
            · exact absurd (List.cons_eq_cons.mp hs).1 hp
          · exact absurd (List.cons_eq_cons.mp hs).1 hm

theorem hasPre_iff {p s : GoStr} : hasPre p s = true ↔ ∃ t, s = p ++ t := by
  rw [hasPre, List.isPrefixOf_iff_prefix]
  constructor
  · rintro ⟨t, ht⟩; exact ⟨t, ht.symm⟩
  · rintro ⟨t, ht⟩; exact ⟨t, ht.symm⟩


/-!
## Claim C1 — `Interpreter.FromFilePath`

The claim says parsing succeeds exactly for base names
`python<digits>.<digits>` with *unsigned* digit strings.  The code parses
the two components with `strconv.Atoi`, which also accepts a single
leading `+` or `-` and rejects values outside the `int64` range, so the
claim fails in both directions (`python+3.9` is accepted,
`python99999999999999999999.9` is rejected).  The amended
characterization replaces "unsigned digit strings" by "strings accepted
by `strconv.Atoi`" (optional sign, `int64` range).
-/

/-- C1 (amended): `FromFilePath` succeeds exactly when the base name is
`python` followed by two dot-separated components each accepted by
`strconv.Atoi` (optional single sign, non-empty digits, `int64` range),
and the stored `Major`/`Minor` are the parsed values (signs honoured),
with the path resolved to absolute form. -/
theorem claim_C1 (cwd path : GoStr) (i : Interp.Interpreter) :
    Interp.FromFilePath cwd path = some i ↔
      ∃ s1 s2, goBase path = "python".toList ++ s1 ++ '.' :: s2 ∧ '.' ∉ s1 ∧ '.' ∉ s2 ∧
        SignedIntRepr s1 i.Major ∧ SignedIntRepr s2 i.Minor ∧ i.Path = goAbs cwd path := by
  obtain ⟨ipath, imaj, imin⟩ := i
  unfold Interp.FromFilePath
  by_cases hpre : hasPre "python".toList (goBase path) = true
  · rw [if_pos hpre]
    obtain ⟨t, ht⟩ := hasPre_iff.mp hpre
    rw [ht, List.drop_left]
    have hres : ∀ s1 s2 : GoStr,
        ("python".toList ++ t = "python".toList ++ s1 ++ '.' :: s2) ↔ t = s1 ++ '.' :: s2 := by
      intro s1 s2
      rw [List.append_assoc]
      exact ⟨fun h => List.append_cancel_left h, fun h => by rw [h]⟩
    constructor
    · intro h
      split at h
      · rename_i major minor hsplit
        match hA : goAtoi major, hB : goAtoi minor with
        | some mj, some mn =>
          rw [hA, hB] at h
          injection h with h
          obtain ⟨hp, hmj, hmn⟩ := Interp.Interpreter.mk.injEq .. ▸ h
          obtain ⟨hteq, hd1, hd2⟩ := goSplitChar_pair.mp hsplit
          refine ⟨major, minor, ?_, hd1, hd2, ?_, ?_, ?_⟩
          · exact (hres major minor).mpr hteq
          · exact goAtoi_eq_some_iff.mp (hmj ▸ hA)
          · exact goAtoi_eq_some_iff.mp (hmn ▸ hB)
          · exact hp.symm ▸ rfl
        | some mj, none => rw [hA, hB] at h; cases h
        | none, some mn => rw [hA, hB] at h; cases h
        | none, none => rw [hA, hB] at h; cases h
      · rename_i hnot
        cases h
    · rintro ⟨s1, s2, heq, hd1, hd2, hr1, hr2, hpath⟩
      rw [hres] at heq
      have hsplit : goSplitChar '.' t = [s1, s2] := goSplitChar_pair.mpr ⟨heq, hd1, hd2⟩
      rw [hsplit]
      dsimp only
      rw [goAtoi_eq_some_iff.mpr hr1, goAtoi_eq_some_iff.mpr hr2]
      simp only [Option.some.injEq, Interp.Interpreter.mk.injEq]
      exact ⟨hpath.symm, trivial, trivial⟩
  · rw [if_neg hpre]
    constructor
    · intro h; cases h
    · rintro ⟨s1, s2, heq, -, -, -, -, -⟩
      exact absurd (hasPre_iff.mpr ⟨s1 ++ '.' :: s2, by rw [heq, List.append_assoc]⟩) hpre

/-- C1 counterexample: the claim as stated fails in both directions.
`python+3.9` has a sign character, so the claim requires rejection, but
`FromFilePath` accepts it (major 3, minor 9); and
`python99999999999999999999.9` matches the claim's
`python<digits>.<digits>` grammar, but `FromFilePath` rejects it because
the major component overflows Go's `int`. -/
theorem claim_C1_counterexample :
    (Interp.FromFilePath "/".toList "python+3.9".toList =
        some ⟨"/python+3.9".toList, 3, 9⟩ ∧
      specPyName "python+3.9".toList = false) ∧
    (Interp.FromFilePath "/".toList "python99999999999999999999.9".toList = none ∧
      specPyName "python99999999999999999999.9".toList = true) := by
  refine ⟨⟨?_, ?_⟩, ⟨?_, ?_⟩⟩ <;> decide

/-!
## Claim C5 — the directory scan filters to python 3

The claim says a scanned directory contributes one candidate per entry
whose name parses, "with no further filtering", so that `python4.0`
yields a candidate.  The code additionally requires
`interpreter.SatisfiesMajor(3)`, so `python4.0` (and `python2.7`) are
dropped.
-/

theorem foldl_collect (f : GoStr → Option Interp.Interpreter) (contents : List GoStr)
    (acc : List Interp.Interpreter) :
    contents.foldl
        (fun acc name =>
          match f name with
          | some interp => if Interp.SatisfiesMajor interp 3 then acc ++ [interp] else acc
          | none => acc)
        acc =
      acc ++ contents.filterMap
        (fun name => (f name).bind fun interp =>
          if Interp.SatisfiesMajor interp 3 then some interp else none) := by
  induction contents generalizing acc with
  | nil => simp
  | cons name rest ih =>
    simp only [List.foldl_cons, List.filterMap_cons]
    cases hf : f name with
    | none => simp [hf, ih]
    | some interp =>
      by_cases h3 : Interp.SatisfiesMajor interp 3
      · simp [hf, h3, ih]
      · simp [hf, h3, ih]

theorem getPythonInterpreters_ok (fs : GoStr → Option (List GoStr)) (cwd dir : GoStr)
    (contents : List GoStr) (h : fs dir = some contents) :
    Interp.getPythonInterpreters fs cwd dir =
      .ok (contents.filterMap
        (fun name => (Interp.FromFilePath cwd (goJoin [dir, name])).bind fun interp =>
          if Interp.SatisfiesMajor interp 3 then some interp else none)) := by
  unfold Interp.getPythonInterpreters
  rw [h]
  dsimp only
  rw [foldl_collect (fun name => Interp.FromFilePath cwd (goJoin [dir, name])) contents []]
  rw [List.nil_append]

/-- C5 (amended): a readable directory contributes exactly the entries
whose joined path parses as an interpreter *and* whose major version is
3, in directory-listing order; everything else (including `python4.0`
and `python2.7`) is silently dropped. -/
theorem claim_C5 (fs : GoStr → Option (List GoStr)) (cwd dir : GoStr)
    (contents : List GoStr) (h : fs dir = some contents) :
    Interp.getPythonInterpreters fs cwd dir =
      .ok (contents.filterMap
        (fun name => (Interp.FromFilePath cwd (goJoin [dir, name])).bind fun interp =>
          if Interp.SatisfiesMajor interp 3 then some interp else none)) :=
  getPythonInterpreters_ok fs cwd dir contents h

/-- C5 witness: a directory listing `python3.9` and `python4.0` scans to
exactly the python3 candidate. -/
theorem claim_C5_witness :
    Interp.getPythonInterpreters
        (fun d => if d = "/bin".toList then some ["python3.9".toList, "python4.0".toList] else none)
        "/".toList "/bin".toList =
      .ok (["python3.9".toList, "python4.0".toList].filterMap
        (fun name => (Interp.FromFilePath "/".toList (goJoin ["/bin".toList, name])).bind
          fun interp => if Interp.SatisfiesMajor interp 3 then some interp else none)) :=
  claim_C5 _ "/".toList "/bin".toList _ (by decide)

/-- C5 counterexample: a directory whose only entry is `python4.0`
yields no candidate at all, although the entry's base name parses as a
version-tagged interpreter name — refuting "no further filtering". -/
theorem claim_C5_counterexample :
    Interp.getPythonInterpreters (fun d => if d = "/bin".toList then some ["python4.0".toList] else none)
        "/".toList "/bin".toList = .ok [] ∧
      Interp.FromFilePath "/".toList (goJoin ["/bin".toList, "python4.0".toList]) =
        some ⟨"/bin/python4.0".toList, 4, 0⟩ :=
  ⟨rfl, rfl⟩

/-!
## Claim C6 — `GetAll` errors exactly on unreadable directories
-/

/-- C6: the multi-directory scan fails if and only if some listed
directory cannot be read (in which case no candidates are returned — the
error constructor carries none); entries that fail version parsing never
cause an error. -/
theorem claim_C6 (fs : GoStr → Option (List GoStr)) (cwd : GoStr) (paths : List GoStr) :
    (∃ e, Interp.GetAll fs cwd paths = .error e) ↔ ∃ p ∈ paths, fs p = none := by
  induction paths with
  | nil => simp [Interp.GetAll]
  | cons p rest ih =>
    simp only [Interp.GetAll, List.mem_cons]
    cases hfs : fs p with
    | none =>
      simp only [Interp.getPythonInterpreters, hfs]
      exact ⟨fun _ => ⟨p, Or.inl rfl, hfs⟩, fun _ => ⟨p, rfl⟩⟩
    | some contents =>
      rw [getPythonInterpreters_ok fs cwd p contents hfs]
      constructor
      · rintro ⟨e, he⟩
        rcases hrest : Interp.GetAll fs cwd rest with e' | ok
        · obtain ⟨q, hq, hfq⟩ := ih.mp ⟨e', hrest⟩
          exact ⟨q, Or.inr hq, hfq⟩
        · rw [hrest] at he
          cases he
      · rintro ⟨q, hq | hq, hfq⟩
        · rw [hq] at hfq
          rw [hfs] at hfq
          cases hfq
        · obtain ⟨e, he⟩ := ih.mpr ⟨q, hq, hfq⟩
          rw [he]
          exact ⟨e, rfl⟩

/-!
## Claim C8 — search-path splitting, empty entries and deduplication
-/

theorem deDupeAux_congr {s1 s2 : List GoStr} (h : ∀ x, x ∈ s1 ↔ x ∈ s2) :
    ∀ l, deDupeAux s1 l = deDupeAux s2 l := by
  intro l
  induction l generalizing s1 s2 with
  | nil => rfl
  | cons p rest ih =>
    simp only [deDupeAux]
    by_cases hp : p ∈ s1
    · rw [if_pos hp, if_pos ((h p).mp hp)]
      exact ih h
    · rw [if_neg hp, if_neg (fun hc => hp ((h p).mpr hc))]
      refine congrArg _ (ih fun x => ?_)
      simp only [List.mem_cons]
      exact or_congr Iff.rfl (h x)

theorem deDupeAux_nil (seen : List GoStr) : deDupeAux seen [] = [] := rfl

theorem deDupeAux_cons (seen : List GoStr) (p : GoStr) (rest : List GoStr) :
    deDupeAux seen (p :: rest) =
      if p ∈ seen then deDupeAux seen rest else p :: deDupeAux (p :: seen) rest := rfl

theorem deDupeAux_cons_seen (a : GoStr) (seen : List GoStr) :
    ∀ l, deDupeAux (a :: seen) l = deDupeAux seen (l.filter (· ≠ a)) := by
  intro l
  induction l generalizing seen with
  | nil => rfl
  | cons p rest ih =>
    rw [deDupeAux_cons]
    by_cases hpa : p = a
    · subst hpa
      rw [if_pos (List.mem_cons_self p seen)]
      have hfilter : (p :: rest).filter (fun x => decide (x ≠ p)) =
          rest.filter (fun x => decide (x ≠ p)) := by
        simp [List.filter_cons]
      rw [hfilter, ih seen]
    · have hfilter : (p :: rest).filter (fun x => decide (x ≠ a)) =
          p :: rest.filter (fun x => decide (x ≠ a)) := by
        simp [List.filter_cons, hpa]
      rw [hfilter, deDupeAux_cons]
      by_cases hps : p ∈ seen
      · rw [if_pos (List.mem_cons_of_mem a hps), if_pos hps, ih seen]
      · have h1 : p ∉ a :: seen := by simp [hpa, hps]
        rw [if_neg h1, if_neg hps]
        refine congrArg _ ?_
        rw [@deDupeAux_congr (p :: a :: seen) (a :: p :: seen)
          (fun x => by simp [or_comm, or_left_comm]) rest, ih (p :: seen)]

/-- C8: (i) the concrete scenario: splitting
`"/usr/bin::/usr/local/bin::/usr/somewhere:"` yields exactly
`["/usr/bin", ".", "/usr/local/bin", "/usr/somewhere"]` — every empty
segment becomes `"."` before deduplication, and the second `"."` is
dropped; (ii) deduplication keeps first occurrences in order: dropping a
list's head's later duplicates commutes with `deDupe`. -/
theorem claim_C8 :
    PyPkg.GetPath "/usr/bin::/usr/local/bin::/usr/somewhere:".toList =
        ["/usr/bin".toList, ".".toList, "/usr/local/bin".toList, "/usr/somewhere".toList] ∧
      ∀ (x : GoStr) (l : List GoStr), deDupe (x :: l) = x :: deDupe (l.filter (· ≠ x)) := by
  constructor
  · decide
  · intro x l
    show deDupeAux [] (x :: l) = x :: deDupeAux [] (l.filter (· ≠ x))
    rw [deDupeAux_cons, if_neg (List.not_mem_nil x)]
    exact congrArg _ (deDupeAux_cons_seen x [] l)

/-!
## Claim C10 — `/var/run`-prefixed entries are dropped from the search path
-/

theorem deDupeAux_subset {x : GoStr} {seen : List GoStr} :
    ∀ {l : List GoStr}, x ∈ deDupeAux seen l → x ∈ l := by
  intro l
  induction l generalizing seen with
  | nil => intro h; cases h
  | cons p rest ih =>
    rw [deDupeAux_cons]
    by_cases hp : p ∈ seen
    · rw [if_pos hp]
      intro h
      exact List.mem_cons_of_mem p (ih h)
    · rw [if_neg hp]
      intro h
      rcases List.mem_cons.mp h with h | h
      · exact h ▸ List.mem_cons_self p rest
      · exact List.mem_cons_of_mem p (ih h)

theorem getPathEntries_mem {s : GoStr} {d : GoStr} (h : d ∈ Cli.getPathEntries s) :
    hasPre "/var/run".toList d = false := by
  have hpre : ∀ dirs : List GoStr, ∀ x ∈ dirs.foldr
      (fun dir acc =>
        let dir := if dir = [] then ['.'] else dir
        if hasPre "/var/run".toList dir then acc else dir :: acc)
      [], hasPre "/var/run".toList x = false := by
    intro dirs
    induction dirs with
    | nil => intro x hx; cases hx
    | cons dir rest ih =>
      intro x hx
      simp only [List.foldr_cons] at hx
      by_cases hvar : hasPre "/var/run".toList (if dir = [] then ['.'] else dir) = true
      · rw [if_pos hvar] at hx
        exact ih x hx
      · rw [if_neg hvar] at hx
        rcases List.mem_cons.mp hx with hx | hx
        · subst hx
          exact Bool.not_eq_true _ ▸ hvar
        · exact ih x hx
  exact hpre (goSplitList s) d (deDupeAux_subset h)

theorem GetAll_congr {fs fs' : GoStr → Option (List GoStr)} {cwd : GoStr}
    {paths : List GoStr} (h : ∀ p ∈ paths, fs p = fs' p) :
    Interp.GetAll fs cwd paths = Interp.GetAll fs' cwd paths := by
  induction paths with
  | nil => rfl
  | cons p rest ih =>
    simp only [Interp.GetAll]
    have hp : Interp.getPythonInterpreters fs cwd p = Interp.getPythonInterpreters fs' cwd p := by
      unfold Interp.getPythonInterpreters
      rw [h p (List.mem_cons_self p rest)]
    rw [hp, ih fun q hq => h q (List.mem_cons_of_mem p hq)]

/-- C10: every entry produced by `getPathEntries` from the search-path
string lacks the `/var/run` prefix (such entries are dropped before
deduplication), and consequently the whole-path scan never consults the
filesystem under any `/var/run`-prefixed directory: two filesystems that
agree outside `/var/run` give identical scan results. -/
theorem claim_C10 (s : GoStr) :
    (∀ d ∈ Cli.getPathEntries s, hasPre "/var/run".toList d = false) ∧
      ∀ (fs fs' : GoStr → Option (List GoStr)) (cwd : GoStr),
        (∀ d, hasPre "/var/run".toList d = false → fs d = fs' d) →
        Interp.GetAll fs cwd (Cli.getPathEntries s) =
          Interp.GetAll fs' cwd (Cli.getPathEntries s) := by
  refine ⟨fun d hd => getPathEntries_mem hd, fun fs fs' cwd hagree => ?_⟩
  exact GetAll_congr fun p hp => hagree p (getPathEntries_mem hp)

/-- C10 witness: on the search path `/usr/bin:/var/run/x`, the sole
surviving entry is `/usr/bin`, and changing how the filesystem answers
under `/var/run` does not change the scan. -/
theorem claim_C10_witness :
    (∀ d ∈ Cli.getPathEntries "/usr/bin:/var/run/x".toList,
      hasPre "/var/run".toList d = false) ∧
    Interp.GetAll (fun _ => some []) "/".toList
        (Cli.getPathEntries "/usr/bin:/var/run/x".toList) =
      Interp.GetAll (fun d => if hasPre "/var/run".toList d then none else some [])
        "/".toList (Cli.getPathEntries "/usr/bin:/var/run/x".toList) :=
  ⟨(claim_C10 _).1, (claim_C10 _).2 _ _ _ (fun d h => by rw [if_neg (by rw [show ("/var/run".toList : GoStr) = ['/', 'v', 'a', 'r', '/', 'r', 'u', 'n'] from rfl] at h; simp [h])])⟩

/-!
## Claim C2 — the activated-virtual-environment step

The claim says a non-empty `VIRTUAL_ENV` resolves to the string
`VIRTUAL_ENV + "/bin/python"`.  The code computes
`filepath.Join(VIRTUAL_ENV, "bin", "python")`, which additionally
*cleans* the path, so for a non-normalized value such as `/venv/` the
two differ.  The substance of the claim — immediate resolution, the
arguments forwarded, no search-path scan, no existence check, no later
step — holds: the result is the launch of the joined path, for *every*
filesystem and existence oracle.
-/

theorem goJoin_vbp (v : GoStr) (hv : v ≠ []) :
    goJoin [v, "bin".toList, "python".toList] = goClean (v ++ "/bin/python".toList) := by
  unfold goJoin
  rw [if_neg hv]
  show goClean (v ++ '/' :: goJoinSlash ["bin".toList, "python".toList]) = _
  rfl

/-- C2 (amended): whenever `VIRTUAL_ENV` is non-empty, `Launch` is
exactly the launch of `filepath.Clean(VIRTUAL_ENV + "/bin/python")`
with the arguments forwarded — independent of the working directory,
the filesystem, the existence oracle and `PY_PYTHON`, so no directory
is scanned, no existence check happens, and no later step of the
control flow is evaluated. -/
theorem claim_C2 (env : Cli.GoEnv) (args : List GoStr) (h : env.virtualEnv ≠ []) :
    Cli.Launch env args =
      Cli.launchF env (goClean (env.virtualEnv ++ "/bin/python".toList)) args := by
  unfold Cli.Launch
  rw [if_pos h, goJoin_vbp env.virtualEnv h]

/-- C2 witness: with `VIRTUAL_ENV=/venv/` the hypothesis holds and the
theorem applies, giving the launch of the cleaned path. -/
theorem claim_C2_witness :
    envVenvSlash.virtualEnv ≠ [] ∧
      Cli.Launch envVenvSlash ["x.py".toList] =
        Cli.launchF envVenvSlash
          (goClean (envVenvSlash.virtualEnv ++ "/bin/python".toList)) ["x.py".toList] :=
  ⟨by decide, claim_C2 envVenvSlash ["x.py".toList] (by decide)⟩

/-- C2 counterexample: with `VIRTUAL_ENV=/venv/` (non-empty, so the
claim applies), the resolved path is the cleaned `/venv/bin/python`,
not the literal concatenation `VIRTUAL_ENV + "/bin/python"` =
`/venv//bin/python` the claim states. -/
theorem claim_C2_counterexample :
    Cli.Launch envVenvSlash ["x.py".toList] =
        .replaced "/venv/bin/python".toList ["python".toList, "x.py".toList] ∧
      "/venv/bin/python".toList ≠ envVenvSlash.virtualEnv ++ "/bin/python".toList := by
  constructor
  · rfl
  · decide

/-!
## Claim C7 — the `PY_PYTHON` step

The claim says the step fails with a configuration error exactly when
the value is not `digits.digits`.  `parsePyPython` uses `strconv.Atoi`
on the two components, which also accepts signed components (so
`+3.9` resolves instead of failing) and rejects out-of-`int64`-range
digit strings; the amended characterization uses the `Atoi` grammar.
-/

theorem parsePyPython_ok_iff {s : GoStr} {mj mn : Int} :
    Cli.parsePyPython s = .ok (mj, mn) ↔ PyPythonRepr s mj mn := by
  unfold Cli.parsePyPython PyPythonRepr
  constructor
  · intro h
    split at h
    · rename_i major minor hsplit
      match hA : goAtoi major, hB : goAtoi minor with
      | some a, some b =>
        rw [hA, hB] at h
        dsimp only at h
        injection h with h
        obtain ⟨ha, hb⟩ := Prod.mk.injEq .. ▸ h
        obtain ⟨hseq, hd1, hd2⟩ := goSplitChar_pair.mp hsplit
        exact ⟨major, minor, hseq, hd1, hd2,
          goAtoi_eq_some_iff.mp (ha ▸ hA), goAtoi_eq_some_iff.mp (hb ▸ hB)⟩
      | some a, none => rw [hA, hB] at h; cases h
      | none, some b => rw [hA, hB] at h; cases h
      | none, none => rw [hA, hB] at h; cases h
    · cases h
  · rintro ⟨s1, s2, hseq, hd1, hd2, hr1, hr2⟩
    have hsplit : goSplitChar '.' s = [s1, s2] := goSplitChar_pair.mpr ⟨hseq, hd1, hd2⟩
    rw [hsplit]
    dsimp only
    rw [goAtoi_eq_some_iff.mpr hr1, goAtoi_eq_some_iff.mpr hr2]

theorem parsePyPython_total (s : GoStr) :
    (∃ mj mn, Cli.parsePyPython s = .ok (mj, mn)) ∨
      (∃ e, (e = Cli.GoErr.pyPythonNotXY ∨ e = Cli.GoErr.pyPythonMajorNotInt ∨
          e = Cli.GoErr.pyPythonMinorNotInt) ∧
        Cli.parsePyPython s = .error e) := by
  unfold Cli.parsePyPython
  split
  · rename_i major minor hsplit
    match hA : goAtoi major, hB : goAtoi minor with
    | some a, some b => exact Or.inl ⟨a, b, rfl⟩
    | some a, none => exact Or.inr ⟨_, Or.inr (Or.inr rfl), rfl⟩
    | none, some b => exact Or.inr ⟨_, Or.inr (Or.inl rfl), rfl⟩
    | none, none => exact Or.inr ⟨_, Or.inr (Or.inl rfl), rfl⟩
  · exact Or.inr ⟨_, Or.inl rfl, rfl⟩

theorem LaunchExact_err_shape (env : Cli.GoEnv) (mj mn : Int) (args : List GoStr) (e : Cli.GoErr) :
    Cli.LaunchExact env mj mn args = .returned (some e) →
      (∃ d, e = .fetchFailed d) ∨ e = .noExactInterpreter mj mn ∨ ∃ p, e = .launchFailed p := by
  unfold Cli.LaunchExact
  split
  · rename_i err heq
    intro h
    injection h with h
    injection h with h
    exact Or.inl (by
      revert heq
      unfold Cli.getAllPythonInterpreters
      split
      · rename_i d hd
        intro heq
        injection heq with heq
        exact ⟨d, h ▸ heq ▸ rfl⟩
      · intro heq; cases heq)
  · rename_i interpreters heq
    split
    · intro h
      injection h with h
      injection h with h
      exact Or.inr (Or.inl h.symm)
    · unfold Cli.launchF
      split
      · intro h; cases h
      · intro h
        injection h with h
        injection h with h
        exact Or.inr (Or.inr ⟨_, h.symm⟩)

theorem Launch_step5 (env : Cli.GoEnv) (args : List GoStr)
    (h1 : env.virtualEnv = [])
    (h2 : Cli.getVenvPython env env.cwd = [])
    (h3 : args.length ≠ 1 ∨ env.fileExists (args.headD []) = false ∨
      Cli.handlePotentialShebang env args = .returned none)
    (h5 : env.pyPython ≠ []) :
    Cli.Launch env args =
      match Cli.parsePyPython env.pyPython with
      | .error e => .returned (some e)
      | .ok (major, minor) => Cli.LaunchExact env major minor args := by
  unfold Cli.Launch
  rw [if_neg (by rw [h1]; exact fun hc => hc rfl)]
  rw [if_neg (by rw [h2]; exact fun hc => hc rfl)]
  have hstep4 :
      (if args.length = 1 ∧ env.fileExists (args.headD []) then
        match Cli.handlePotentialShebang env args with
        | .returned none => none
        | r => some r
      else none : Option Cli.FlowResult) = none := by
    rcases h3 with h | h | h
    · rw [if_neg (by intro hc; exact h hc.1)]
    · rw [if_neg (by intro hc; rw [h] at hc; cases hc.2)]
    · by_cases hc : args.length = 1 ∧ env.fileExists (args.headD []) = true
      · rw [if_pos hc, h]
      · rw [if_neg hc]
  rw [hstep4]
  dsimp only
  rw [if_pos h5]

/-- C7 (amended): when steps 1–4 fall through and `PY_PYTHON` is
non-empty, `Launch` fails with one of the three `malformed PY_PYTHON`
configuration errors *iff* the value is not of the form
`<Atoi-accepted>.<Atoi-accepted>` (a single dot, each side an optionally
signed digit string within the `int64` range); a malformed value never
falls through to the search-path fallback, and a well-formed value
resolves via the exact-version filter plus ranking
(`LaunchExact`). -/
theorem claim_C7 (env : Cli.GoEnv) (args : List GoStr)
    (h1 : env.virtualEnv = [])
    (h2 : Cli.getVenvPython env env.cwd = [])
    (h3 : args.length ≠ 1 ∨ env.fileExists (args.headD []) = false ∨
      Cli.handlePotentialShebang env args = .returned none)
    (h5 : env.pyPython ≠ []) :
    ((∃ e, (e = Cli.GoErr.pyPythonNotXY ∨ e = Cli.GoErr.pyPythonMajorNotInt ∨
          e = Cli.GoErr.pyPythonMinorNotInt) ∧
        Cli.Launch env args = .returned (some e)) ↔
      ¬ ∃ mj mn, PyPythonRepr env.pyPython mj mn) ∧
    ∀ mj mn, PyPythonRepr env.pyPython mj mn →
      Cli.Launch env args = Cli.LaunchExact env mj mn args := by
  have hL := Launch_step5 env args h1 h2 h3 h5
  constructor
  · constructor
    · rintro ⟨e, he, hlaunch⟩ ⟨mj, mn, hrepr⟩
      rw [parsePyPython_ok_iff.mpr hrepr] at hL
      rw [hL] at hlaunch
      rcases LaunchExact_err_shape env mj mn args e hlaunch with ⟨d, hd⟩ | hd | ⟨p, hp⟩ <;>
        rcases he with he | he | he <;> simp_all
    · intro hno
      rcases parsePyPython_total env.pyPython with ⟨mj, mn, hok⟩ | ⟨e, he, herr⟩
      · exact absurd ⟨mj, mn, parsePyPython_ok_iff.mp hok⟩ hno
      · rw [herr] at hL
        exact ⟨e, he, hL⟩
  · intro mj mn hrepr
    rw [parsePyPython_ok_iff.mpr hrepr] at hL
    exact hL

/-- C7 witness: with `PY_PYTHON=+3.9` (and no other signal) the
hypotheses hold, the value is accepted (`Atoi` takes the sign), and
`Launch` resolves via the exact filter for (3, 9). -/
theorem claim_C7_witness :
    (envPyPlus.virtualEnv = [] ∧ Cli.getVenvPython envPyPlus envPyPlus.cwd = [] ∧
      envPyPlus.pyPython ≠ []) ∧
    Cli.Launch envPyPlus [] = Cli.LaunchExact envPyPlus 3 9 [] :=
  ⟨⟨rfl, rfl, by decide⟩,
    (claim_C7 envPyPlus [] rfl rfl (Or.inl (by decide)) (by decide)).2 3 9
      ⟨"+3".toList, "9".toList, by decide, by decide, by decide,
        Or.inl ⟨"3".toList, by decide, Or.inr rfl, by decide, by decide⟩,
        Or.inl ⟨"9".toList, by decide, Or.inl rfl, by decide, by decide⟩⟩⟩

/-- C7 counterexample: `PY_PYTHON=+3.9` is not of the claim's
`digits.digits` form, yet `Launch` does not fail with a configuration
error — it resolves and launches `/usr/bin/python3.9`. -/
theorem claim_C7_counterexample :
    Cli.Launch envPyPlus [] =
        .replaced "/usr/bin/python3.9".toList ["python3.9".toList] ∧
      specDigitsDotDigits "+3.9".toList = false := by
  constructor
  · rfl
  · decide

/-!
## Claim C9 — the defensive "exhausted control flow" branch is unreachable

The final error of `Launch` is produced only when `LaunchLatest`
returns `nil`, which requires `syscall.Exec` to have succeeded *and*
returned — impossible, since a successful exec replaces the process
(`launch` otherwise returns the exec error).  In the embedding
`launchF` therefore never produces `.returned none`, hence neither does
`LaunchLatest`, and the defensive branch is dead for every environment
and argument list.
-/

theorem launchF_ne_none (env : Cli.GoEnv) (p : GoStr) (args : List GoStr) :
    Cli.launchF env p args ≠ .returned none := by
  unfold Cli.launchF
  split <;> intro h <;> cases h

theorem launchF_ne_exhausted (env : Cli.GoEnv) (p : GoStr) (args : List GoStr) :
    Cli.launchF env p args ≠ .returned (some .exhausted) := by
  unfold Cli.launchF
  split
  · intro h; cases h
  · intro h
    injection h with h
    injection h with h
    cases h

theorem getAllPy_err_shape (env : Cli.GoEnv) (e : Cli.GoErr)
    (h : Cli.getAllPythonInterpreters env = .error e) : ∃ d, e = .fetchFailed d := by
  revert h
  unfold Cli.getAllPythonInterpreters
  split
  · rename_i d hd
    intro h
    injection h with h
    exact ⟨d, h.symm⟩
  · intro h; cases h

theorem LaunchLatest_ne (env : Cli.GoEnv) (args : List GoStr) :
    Cli.LaunchLatest env args ≠ .returned none ∧
      Cli.LaunchLatest env args ≠ .returned (some .exhausted) := by
  unfold Cli.LaunchLatest
  split
  · rename_i e heq
    obtain ⟨d, hd⟩ := getAllPy_err_shape env e heq
    subst hd
    constructor
    · intro h; injection h with h; cases h
    · intro h; injection h with h; injection h with h; cases h
  · split
    · constructor
      · intro h; injection h with h; cases h
      · intro h; injection h with h; injection h with h; cases h
    · exact ⟨launchF_ne_none _ _ _, launchF_ne_exhausted _ _ _⟩

theorem LaunchMajor_ne_exhausted (env : Cli.GoEnv) (mj : Int) (args : List GoStr) :
    Cli.LaunchMajor env mj args ≠ .returned (some .exhausted) := by
  unfold Cli.LaunchMajor
  split
  · rename_i e heq
    obtain ⟨d, hd⟩ := getAllPy_err_shape env e heq
    subst hd
    intro h
    injection h with h
    injection h with h
    cases h
  · split
    · intro h
      injection h with h
      injection h with h
      cases h
    · exact launchF_ne_exhausted _ _ _

theorem LaunchExact_ne_exhausted (env : Cli.GoEnv) (mj mn : Int) (args : List GoStr) :
    Cli.LaunchExact env mj mn args ≠ .returned (some .exhausted) := by
  intro h
  rcases LaunchExact_err_shape env mj mn args _ h with ⟨d, hd⟩ | hd | ⟨p, hp⟩
  · cases hd
  · cases hd
  · cases hp

theorem handlePotentialShebang_ne_exhausted (env : Cli.GoEnv) (args : List GoStr) :
    Cli.handlePotentialShebang env args ≠ .returned (some .exhausted) := by
  unfold Cli.handlePotentialShebang
  split
  · intro h
    injection h with h
    injection h with h
    cases h
  · rename_i line hline
    split
    · split
      · intro h
        injection h with h
        injection h with h
        cases h
      · exact LaunchMajor_ne_exhausted _ _ _
    · split
      · split
        · rename_i e heq
          intro h
          injection h with h
          injection h with h
          subst h
          rcases parsePyPython_total (Cli.parseShebang line) with ⟨mj, mn, hok⟩ | ⟨e', he', herr⟩
          · rw [hok] at heq; cases heq
          · rw [herr] at heq
            injection heq with heq
            rcases he' with h' | h' | h' <;> simp_all
        · exact LaunchExact_ne_exhausted _ _ _ _
      · intro h
        injection h with h
        cases h

/-- C9: the generic exhausted-control-flow error at the end of `Launch`
is unreachable: for every environment and argument list, `Launch` never
returns the "no python interpreters found after executing control flow"
error (the final branch would require `LaunchLatest` to return `nil`,
which cannot happen because a successful `syscall.Exec` replaces the
process and a failed one yields a launch error). -/
theorem claim_C9 (env : Cli.GoEnv) (args : List GoStr) :
    Cli.Launch env args ≠ .returned (some .exhausted) := by
  unfold Cli.Launch
  split
  · exact launchF_ne_exhausted _ _ _
  · split
    · exact launchF_ne_exhausted _ _ _
    · split
      · -- step 4 produced `some r`
        rename_i r heq
        by_cases hc : args.length = 1 ∧ env.fileExists (args.headD []) = true
        · rw [if_pos hc] at heq
          cases hH : Cli.handlePotentialShebang env args with
          | replaced p argv =>
            rw [hH] at heq
            dsimp only at heq
            injection heq with heq
            subst heq
            intro h
            cases h
          | returned oe =>
            cases oe with
            | none =>
              rw [hH] at heq
              dsimp only at heq
              cases heq
            | some e =>
              rw [hH] at heq
              dsimp only at heq
              injection heq with heq
              subst heq
              intro h
              injection h with h
              injection h with h
              subst h
              exact handlePotentialShebang_ne_exhausted env args hH
        · rw [if_neg hc] at heq
          cases heq
      · -- step 4 fell through
        split
        · -- PY_PYTHON set
          split
          · rename_i e heq
            intro h
            injection h with h
            injection h with h
            subst h
            rcases parsePyPython_total env.pyPython with ⟨mj, mn, hok⟩ | ⟨e', he', herr⟩
            · rw [hok] at heq; cases heq
            · rw [herr] at heq
              injection heq with heq
              rcases he' with h' | h' | h' <;> simp_all
          · exact LaunchExact_ne_exhausted _ _ _ _
        · -- step 6
          cases hLL : Cli.LaunchLatest env args with
          | replaced p argv =>
            dsimp only
            intro h
            cases h
          | returned oe =>
            cases oe with
            | none => exact absurd hLL (LaunchLatest_ne env args).1
            | some e =>
              dsimp only
              intro h
              injection h with h
              injection h with h
              subst h
              exact (LaunchLatest_ne env args).2 hLL

/-!
## Claim C3 — ranking is *not* a stable sort

`interpreter.Sort` delegates to `sort.Sort`, whose documentation says
"The sort is not guaranteed to be stable" and whose implementation (the
pre-1.19 introsort embedded here as `sortGo`) indeed reorders
equal-version candidates: for segments of at most 12 elements it first
runs a Shell-sort pass with gap 6, which can jump a later candidate over
an equal-version earlier one, and the subsequent insertion sort keeps
that inverted order.
-/

/-- C3 (amended): ranking is not stable — there is a candidate list with
two distinct interpreters of identical (major, minor) whose relative
order `Sort` inverts. -/
theorem claim_C3 :
    ∃ (l : List Interp.Interpreter) (x y : Interp.Interpreter),
      x.Major = y.Major ∧ x.Minor = y.Minor ∧ x ≠ y ∧
      l.indexOf x < l.indexOf y ∧
      (Interp.sortGo l).indexOf y < (Interp.sortGo l).indexOf x :=
  ⟨stabIn, stabA, stabB, by decide, by decide, by decide, by decide, by decide⟩

/-- C3 counterexample: in `stabIn` the interpreter `A` (3.9) precedes
`B` (3.9), but after `Sort` the output begins `B, A, …` — two
candidates with identical (major, minor) do not retain their relative
pre-sort order, refuting stability as claimed. -/
theorem claim_C3_counterexample :
    stabA.Major = stabB.Major ∧ stabA.Minor = stabB.Minor ∧ stabA ≠ stabB ∧
      stabIn.indexOf stabA < stabIn.indexOf stabB ∧
      Interp.sortGo stabIn =
        [stabB, stabA, ⟨"p1".toList, 3, 8⟩, ⟨"p2".toList, 3, 7⟩, ⟨"p4".toList, 3, 6⟩,
          ⟨"p0".toList, 3, 5⟩, ⟨"p5".toList, 3, 4⟩] := by
  refine ⟨by decide, by decide, by decide, by decide, ?_⟩
  rfl

/-!
## Claim C4 — the ranking order property

`Sort` must leave any list ordered by major descending, then minor
descending.  The proof establishes correctness of the embedded Go
`sort.Sort`: insertion sort (after the semantics-irrelevant Shell pass)
sorts short segments, heapsort sorts segments when the depth budget is
exhausted, and `doPivot` partitions correctly, so `quickSortGo` sorts
every segment it is given.
-/

namespace Interp

theorem vlt_iff {x y : Interpreter} :
    vlt x y = true ↔ (x.Major > y.Major ∨ (x.Major = y.Major ∧ x.Minor > y.Minor)) := by
  unfold vlt
  by_cases h1 : x.Major > y.Major
  · simp [h1]
  · rw [if_neg h1]
    by_cases h2 : x.Major = y.Major
    · simp [h1, h2]
    · simp [h1, h2]

theorem vlt_false_iff {x y : Interpreter} :
    vlt x y = false ↔ (x.Major < y.Major ∨ (x.Major = y.Major ∧ x.Minor ≤ y.Minor)) := by
  rw [← Bool.not_eq_true, vlt_iff]
  omega

theorem vlt_false_trans {x y z : Interpreter} (h1 : vlt y x = false) (h2 : vlt z y = false) :
    vlt z x = false := by
  rw [vlt_false_iff] at *
  rcases h1 with h1 | ⟨h1a, h1b⟩ <;> rcases h2 with h2 | ⟨h2a, h2b⟩ <;>
    [exact Or.inl (by omega); exact Or.inl (by omega); exact Or.inl (by omega);
      exact Or.inr ⟨by omega, by omega⟩]

theorem vlt_asymm {x y : Interpreter} (h : vlt x y = true) : vlt y x = false := by
  rw [vlt_iff] at h
  rw [vlt_false_iff]
  rcases h with h | ⟨h1, h2⟩
  · exact Or.inl h
  · exact Or.inr ⟨h1.symm, by omega⟩

theorem vlt_connex {x y : Interpreter} : vlt x y = false ∨ vlt y x = false := by
  cases h : vlt x y with
  | false => exact Or.inl rfl
  | true => exact Or.inr (vlt_asymm h)

theorem lswap_length (l : List Interpreter) (i j : Nat) : (lswap l i j).length = l.length := by
  unfold lswap
  split <;> simp

theorem lswap_getD {l : List Interpreter} {i j : Nat} (hi : i < l.length) (hj : j < l.length)
    (k : Nat) :
    (lswap l i j).getD k default =
      if k = i then l.getD j default
      else if k = j then l.getD i default
      else l.getD k default := by
  unfold lswap
  rw [List.get?_eq_getElem?, List.get?_eq_getElem?, List.getElem?_eq_getElem hi,
    List.getElem?_eq_getElem hj]
  dsimp only
  rw [List.getD_eq_getElem?_getD]
  by_cases hkj : k = j
  · subst hkj
    rw [List.getElem?_set_eq_of_lt _ (by simpa using hj)]
    by_cases hki : k = i
    · rw [if_pos hki, List.getD_eq_getElem?_getD, List.getElem?_eq_getElem hj]
      subst hki
      rfl
    · rw [if_neg hki, if_pos rfl, List.getD_eq_getElem?_getD, List.getElem?_eq_getElem hi]
  · rw [List.getElem?_set_ne (fun hc => hkj hc.symm)]
    by_cases hki : k = i
    · subst hki
      rw [List.getElem?_set_eq_of_lt _ hi, if_pos rfl, List.getD_eq_getElem?_getD,
        List.getElem?_eq_getElem hj]
    · rw [List.getElem?_set_ne (fun hc => hki hc.symm), if_neg hki, if_neg hkj,
        List.getD_eq_getElem?_getD]

theorem lswap_getD_ne {l : List Interpreter} {i j k : Nat} (hki : k ≠ i) (hkj : k ≠ j) :
    (lswap l i j).getD k default = l.getD k default := by
  unfold lswap
  split
  · rw [List.getD_eq_getElem?_getD, List.getElem?_set_ne (fun hc => hkj hc.symm),
      List.getElem?_set_ne (fun hc => hki hc.symm), List.getD_eq_getElem?_getD]
  · rfl

theorem lswap_segAll {l : List Interpreter} {a b i j : Nat} {P : Interpreter → Prop}
    (hai : a ≤ i) (hib : i < b) (haj : a ≤ j) (hjb : j < b) (hbl : b ≤ l.length)
    (h : SegAll l a b P) : SegAll (lswap l i j) a b P := by
  intro k hak hkb
  rw [lswap_getD (lt_of_lt_of_le hib hbl) (lt_of_lt_of_le hjb hbl) k]
  split_ifs with h1 h2
  · exact h j haj hjb
  · exact h i hai hib
  · exact h k hak hkb

theorem insInner_length (a : Nat) : ∀ (l : List Interpreter) (j : Nat),
    (insInner a l j).length = l.length := by
  intro l j
  induction j generalizing l with
  | zero => rfl
  | succ j ih =>
    unfold insInner
    split
    · rw [ih, lswap_length]
    · rfl

theorem insInner_frame (a : Nat) : ∀ (l : List Interpreter) (j k : Nat), (k < a ∨ j < k) →
    (insInner a l j).getD k default = l.getD k default := by
  intro l j
  induction j generalizing l with
  | zero => intro k _; rfl
  | succ j ih =>
    intro k hk
    unfold insInner
    split
    · rw [ih _ k (by omega), lswap_getD_ne (by omega) (by omega)]
    · rfl

theorem insInner_segAll {a : Nat} {P : Interpreter → Prop} :
    ∀ (l : List Interpreter) (j : Nat) (lo b : Nat), lo ≤ a → j < b → b ≤ l.length →
    SegAll l lo b P → SegAll (insInner a l j) lo b P := by
  intro l j
  induction j generalizing l with
  | zero => intro lo b _ _ _ h; exact h
  | succ j ih =>
    intro lo b hla hjb hbl h
    unfold insInner
    split
    · rename_i hcond
      exact ih _ lo b hla (by omega) (by rw [lswap_length]; exact hbl)
        (lswap_segAll (by omega) hjb (by omega) (by omega) hbl h)
    · exact h

theorem insOuter_length (a b : Nat) : ∀ (fuel : Nat) (l : List Interpreter) (i : Nat),
    (insOuter a b fuel l i).length = l.length := by
  intro fuel
  induction fuel with
  | zero => intro l i; rfl
  | succ f ih =>
    intro l i
    unfold insOuter
    split
    · rw [ih, insInner_length]
    · rfl

theorem insOuter_frame (a b : Nat) : ∀ (fuel : Nat) (l : List Interpreter) (i : Nat), a ≤ i →
    ∀ k, (k < a ∨ b ≤ k) → (insOuter a b fuel l i).getD k default = l.getD k default := by
  intro fuel
  induction fuel with
  | zero => intro l i _ k _; rfl
  | succ f ih =>
    intro l i hai k hk
    unfold insOuter
    split
    · rename_i hib
      rw [ih _ (i + 1) (by omega) k hk, insInner_frame a l i k (by omega)]
    · rfl

theorem insOuter_segAll {a b : Nat} {P : Interpreter → Prop} :
    ∀ (fuel : Nat) (l : List Interpreter) (i : Nat), a ≤ i → b ≤ l.length →
    SegAll l a b P → SegAll (insOuter a b fuel l i) a b P := by
  intro fuel
  induction fuel with
  | zero => intro l i _ _ h; exact h
  | succ f ih =>
    intro l i hai hbl h
    unfold insOuter
    split
    · rename_i hib
      exact ih _ (i + 1) (by omega) (by rw [insInner_length]; exact hbl)
        (insInner_segAll l i a b le_rfl hib hbl h)
    · exact h

theorem shellLoop_length (b : Nat) : ∀ (fuel : Nat) (l : List Interpreter) (i : Nat),
    (shellLoop b fuel l i).length = l.length := by
  intro fuel
  induction fuel with
  | zero => intro l i; rfl
  | succ f ih =>
    intro l i
    unfold shellLoop
    split
    · rw [ih]
      split
      · rw [lswap_length]
      · rfl
    · rfl

theorem shellLoop_frame (b : Nat) : ∀ (fuel : Nat) (l : List Interpreter) (i a : Nat),
    a + 6 ≤ i → ∀ k, (k < a ∨ b ≤ k) →
    (shellLoop b fuel l i).getD k default = l.getD k default := by
  intro fuel
  induction fuel with
  | zero => intro l i a _ k _; rfl
  | succ f ih =>
    intro l i a hai k hk
    unfold shellLoop
    split
    · rename_i hib
      rw [ih _ (i + 1) a (by omega) k hk]
      split
      · rw [lswap_getD_ne (by omega) (by omega)]
      · rfl
    · rfl

theorem shellLoop_segAll {b : Nat} {P : Interpreter → Prop} :
    ∀ (fuel : Nat) (l : List Interpreter) (i a : Nat), a + 6 ≤ i → b ≤ l.length →
    SegAll l a b P → SegAll (shellLoop b fuel l i) a b P := by
  intro fuel
  induction fuel with
  | zero => intro l i a _ _ h; exact h
  | succ f ih =>
    intro l i a hai hbl h
    unfold shellLoop
    split
    · rename_i hib
      refine ih _ (i + 1) a (by omega) ?_ ?_
      · split
        · rw [lswap_length]; exact hbl
        · exact hbl
      · split
        · exact lswap_segAll (by omega) hib (by omega) (by omega) hbl h
        · exact h
    · exact h

theorem shellPassGo_length (l : List Interpreter) (a b : Nat) :
    (shellPassGo l a b).length = l.length := shellLoop_length b (b - a) l (a + 6)

theorem shellPassGo_frame (l : List Interpreter) (a b : Nat) (k : Nat) (hk : k < a ∨ b ≤ k) :
    (shellPassGo l a b).getD k default = l.getD k default :=
  shellLoop_frame b (b - a) l (a + 6) a le_rfl k hk

theorem shellPassGo_segAll {l : List Interpreter} {a b : Nat} {P : Interpreter → Prop}
    (hbl : b ≤ l.length) (h : SegAll l a b P) : SegAll (shellPassGo l a b) a b P :=
  shellLoop_segAll (b - a) l (a + 6) a le_rfl hbl h

theorem insertionSortGo_length (l : List Interpreter) (a b : Nat) :
    (insertionSortGo l a b).length = l.length := insOuter_length a b (b - a) l (a + 1)

theorem insertionSortGo_frame (l : List Interpreter) (a b : Nat) (k : Nat)
    (hk : k < a ∨ b ≤ k) : (insertionSortGo l a b).getD k default = l.getD k default :=
  insOuter_frame a b (b - a) l (a + 1) (by omega) k hk

theorem insertionSortGo_segAll {l : List Interpreter} {a b : Nat} {P : Interpreter → Prop}
    (hbl : b ≤ l.length) (h : SegAll l a b P) : SegAll (insertionSortGo l a b) a b P :=
  insOuter_segAll (b - a) l (a + 1) (by omega) hbl h

theorem siftDownLoop_length (first hi : Nat) : ∀ (fuel : Nat) (l : List Interpreter) (root : Nat),
    (siftDownLoop first hi fuel l root).length = l.length := by
  intro fuel
  induction fuel with
  | zero => intro l root; rfl
  | succ f ih =>
    intro l root
    unfold siftDownLoop
    split
    · rfl
    · split
      · split
        · rfl
        · rw [ih, lswap_length]
      · split
        · rfl
        · rw [ih, lswap_length]

theorem siftDownLoop_frame (first hi : Nat) :
    ∀ (fuel : Nat) (l : List Interpreter) (root : Nat), root < hi →
    ∀ k, (k < first ∨ first + hi ≤ k) →
    (siftDownLoop first hi fuel l root).getD k default = l.getD k default := by
  intro fuel
  induction fuel with
  | zero => intro l root _ k _; rfl
  | succ f ih =>
    intro l root hroot k hk
    unfold siftDownLoop
    split
    · rfl
    · rename_i hchild
      split
      · rename_i hc2
        split
        · rfl
        · rw [ih _ (2 * root + 2) (by omega) k hk,
            lswap_getD_ne (by omega) (by omega)]
      · split
        · rfl
        · rw [ih _ (2 * root + 1) (by omega) k hk,
            lswap_getD_ne (by omega) (by omega)]

theorem siftDownLoop_segAll {first hi : Nat} {P : Interpreter → Prop} :
    ∀ (fuel : Nat) (l : List Interpreter) (root : Nat), root < hi → first + hi ≤ l.length →
    SegAll l first (first + hi) P → SegAll (siftDownLoop first hi fuel l root) first (first + hi) P := by
  intro fuel
  induction fuel with
  | zero => intro l root _ _ h; exact h
  | succ f ih =>
    intro l root hroot hbl h
    unfold siftDownLoop
    split
    · exact h
    · rename_i hchild
      split
      · rename_i hc2
        split
        · exact h
        · exact ih _ (2 * root + 2) (by omega) (by rw [lswap_length]; exact hbl)
            (lswap_segAll (by omega) (by omega) (by omega) (by omega) hbl h)
      · split
        · exact h
        · exact ih _ (2 * root + 1) (by omega) (by rw [lswap_length]; exact hbl)
            (lswap_segAll (by omega) (by omega) (by omega) (by omega) hbl h)

theorem siftDownGo_length (l : List Interpreter) (lo hi first : Nat) :
    (siftDownGo l lo hi first).length = l.length := siftDownLoop_length first hi hi l lo

theorem siftDownGo_frame (l : List Interpreter) (lo hi first : Nat) (hroot : lo < hi)
    (k : Nat) (hk : k < first ∨ first + hi ≤ k) :
    (siftDownGo l lo hi first).getD k default = l.getD k default :=
  siftDownLoop_frame first hi hi l lo hroot k hk

theorem siftDownLoop_oob (first hi fuel : Nat) (l : List Interpreter) (root : Nat)
    (h : hi ≤ 2 * root + 1) : siftDownLoop first hi fuel l root = l := by
  cases fuel with
  | zero => rfl
  | succ f =>
    unfold siftDownLoop
    rw [if_pos (by omega)]

theorem siftDownGo_frame' (l : List Interpreter) (lo hi first : Nat)
    (k : Nat) (hk : k < first ∨ first + hi ≤ k) :
    (siftDownGo l lo hi first).getD k default = l.getD k default := by
  by_cases hroot : lo < hi
  · exact siftDownLoop_frame first hi hi l lo hroot k hk
  · rw [show siftDownGo l lo hi first = siftDownLoop first hi hi l lo from rfl,
      siftDownLoop_oob first hi hi l lo (by omega)]

theorem siftDownGo_segAll {l : List Interpreter} {lo hi first : Nat} {P : Interpreter → Prop}
    (hbl : first + hi ≤ l.length) (h : SegAll l first (first + hi) P) :
    SegAll (siftDownGo l lo hi first) first (first + hi) P := by
  by_cases hroot : lo < hi
  · exact siftDownLoop_segAll hi l lo hroot hbl h
  · rw [show siftDownGo l lo hi first = siftDownLoop first hi hi l lo from rfl,
      siftDownLoop_oob first hi hi l lo (by omega)]
    exact h

theorem heapBuildLoop_length (hi first : Nat) : ∀ (k : Nat) (l : List Interpreter),
    (heapBuildLoop hi first k l).length = l.length := by
  intro k
  induction k with
  | zero => intro l; rfl
  | succ k ih =>
    intro l
    unfold heapBuildLoop
    rw [ih, siftDownGo_length]

theorem heapBuildLoop_frame (hi first : Nat) : ∀ (kk : Nat) (l : List Interpreter),
    ∀ k, (k < first ∨ first + hi ≤ k) →
    (heapBuildLoop hi first kk l).getD k default = l.getD k default := by
  intro kk
  induction kk with
  | zero => intro l k _; rfl
  | succ kk ih =>
    intro l k hk
    unfold heapBuildLoop
    rw [ih _ k hk, siftDownGo_frame' _ _ _ _ k hk]

theorem heapBuildLoop_segAll {hi first : Nat} {P : Interpreter → Prop} :
    ∀ (kk : Nat) (l : List Interpreter), first + hi ≤ l.length →
    SegAll l first (first + hi) P → SegAll (heapBuildLoop hi first kk l) first (first + hi) P := by
  intro kk
  induction kk with
  | zero => intro l _ h; exact h
  | succ kk ih =>
    intro l hbl h
    unfold heapBuildLoop
    exact ih _ (by rw [siftDownGo_length]; exact hbl) (siftDownGo_segAll hbl h)

theorem heapPopLoop_length (first : Nat) : ∀ (k : Nat) (l : List Interpreter),
    (heapPopLoop first k l).length = l.length := by
  intro k
  induction k with
  | zero => intro l; rfl
  | succ k ih =>
    intro l
    unfold heapPopLoop
    rw [ih, siftDownGo_length, lswap_length]

theorem heapPopLoop_frame (first : Nat) : ∀ (kk : Nat) (l : List Interpreter) (hi : Nat),
    kk ≤ hi → ∀ k, (k < first ∨ first + hi ≤ k) →
    (heapPopLoop first kk l).getD k default = l.getD k default := by
  intro kk
  induction kk with
  | zero => intro l hi _ k _; rfl
  | succ kk ih =>
    intro l hi hkhi k hk
    unfold heapPopLoop
    rw [ih _ hi (by omega) k hk]
    rw [show siftDownGo (lswap l first (first + kk)) 0 kk first =
      siftDownLoop first kk kk (lswap l first (first + kk)) 0 from rfl]
    by_cases h0 : 0 < kk
    · rw [siftDownLoop_frame first kk kk _ 0 h0 k (by omega),
        lswap_getD_ne (by omega) (by omega)]
    · have hkk : kk = 0 := by omega
      subst hkk
      rw [show siftDownLoop first 0 0 (lswap l first (first + 0)) 0 =
        lswap l first (first + 0) from rfl]
      rw [lswap_getD_ne (by omega) (by omega)]

theorem heapPopLoop_segAll {first : Nat} {P : Interpreter → Prop} :
    ∀ (kk : Nat) (l : List Interpreter) (hi : Nat), kk ≤ hi → first + hi ≤ l.length →
    SegAll l first (first + hi) P → SegAll (heapPopLoop first kk l) first (first + hi) P := by
  intro kk
  induction kk with
  | zero => intro l hi _ _ h; exact h
  | succ kk ih =>
    intro l hi hkhi hbl h
    unfold heapPopLoop
    refine ih _ hi (by omega) ?_ ?_
    · rw [siftDownGo_length, lswap_length]; exact hbl
    · have h1 : SegAll (lswap l first (first + kk)) first (first + hi) P :=
        lswap_segAll le_rfl (by omega) (by omega) (by omega) hbl h
      intro k hak hkb
      by_cases hkin : k < first + kk
      · have := @siftDownGo_segAll (lswap l first (first + kk)) 0 kk first P
          (by rw [lswap_length]; omega)
          (fun q hq1 hq2 => h1 q hq1 (by omega))
        exact this k hak hkin
      · rw [siftDownGo_frame' _ _ _ _ k (by omega)]
        exact h1 k hak hkb

theorem heapSortGo_length (l : List Interpreter) (a b : Nat) :
    (heapSortGo l a b).length = l.length := by
  unfold heapSortGo
  rw [heapPopLoop_length, heapBuildLoop_length]

theorem heapSortGo_frame (l : List Interpreter) (a b : Nat) (k : Nat)
    (hk : k < a ∨ b ≤ k) : (heapSortGo l a b).getD k default = l.getD k default := by
  unfold heapSortGo
  rw [heapPopLoop_frame a (b - a) _ (b - a) le_rfl k (by omega),
    heapBuildLoop_frame (b - a) a _ _ k (by omega)]

theorem heapSortGo_segAll {l : List Interpreter} {a b : Nat} {P : Interpreter → Prop}
    (hab : a ≤ b) (hbl : b ≤ l.length) (h : SegAll l a b P) :
    SegAll (heapSortGo l a b) a b P := by
  unfold heapSortGo
  have hb : a + (b - a) = b := by omega
  have h0 : SegAll l a (a + (b - a)) P := by rw [hb]; exact h
  have h1 := @heapBuildLoop_segAll (b - a) a P ((b - a - 1) / 2 + 1) l
    (by omega) h0
  have h2 := @heapPopLoop_segAll a P (b - a) _ (b - a) le_rfl
    (by rw [heapBuildLoop_length]; omega) h1
  rw [hb] at h2
  exact h2

theorem medianOfThree_length (l : List Interpreter) (m1 m0 m2 : Nat) :
    (medianOfThree l m1 m0 m2).length = l.length := by
  unfold medianOfThree
  split
  · split
    · split <;> simp [lswap_length]
    · simp [lswap_length]
  · split
    · split <;> simp [lswap_length]
    · rfl

theorem medianOfThree_frame (l : List Interpreter) (m1 m0 m2 : Nat) (k : Nat)
    (h1 : k ≠ m1) (h0 : k ≠ m0) (h2 : k ≠ m2) :
    (medianOfThree l m1 m0 m2).getD k default = l.getD k default := by
  unfold medianOfThree
  split
  · split
    · split
      · rw [lswap_getD_ne h1 h0, lswap_getD_ne h2 h1, lswap_getD_ne h1 h0]
      · rw [lswap_getD_ne h2 h1, lswap_getD_ne h1 h0]
    · rw [lswap_getD_ne h1 h0]
  · split
    · split
      · rw [lswap_getD_ne h1 h0, lswap_getD_ne h2 h1]
      · rw [lswap_getD_ne h2 h1]
    · rfl

theorem medianOfThree_segAll {l : List Interpreter} {m1 m0 m2 : Nat} {A B : Nat}
    {P : Interpreter → Prop} (hm1 : A ≤ m1 ∧ m1 < B) (hm0 : A ≤ m0 ∧ m0 < B)
    (hm2 : A ≤ m2 ∧ m2 < B) (hbl : B ≤ l.length) (h : SegAll l A B P) :
    SegAll (medianOfThree l m1 m0 m2) A B P := by
  unfold medianOfThree
  have hsw : ∀ (l' : List Interpreter) (i j : Nat), A ≤ i → i < B → A ≤ j → j < B →
      B ≤ l'.length → SegAll l' A B P → SegAll (lswap l' i j) A B P :=
    fun l' i j h1 h2 h3 h4 h5 h6 => lswap_segAll h1 h2 h3 h4 h5 h6
  split
  · split
    · split
      · exact hsw _ _ _ hm1.1 hm1.2 hm0.1 hm0.2
          (by simp [lswap_length, hbl])
          (hsw _ _ _ hm2.1 hm2.2 hm1.1 hm1.2 (by simp [lswap_length, hbl])
            (hsw _ _ _ hm1.1 hm1.2 hm0.1 hm0.2 hbl h))
      · exact hsw _ _ _ hm2.1 hm2.2 hm1.1 hm1.2 (by simp [lswap_length, hbl])
          (hsw _ _ _ hm1.1 hm1.2 hm0.1 hm0.2 hbl h)
    · exact hsw _ _ _ hm1.1 hm1.2 hm0.1 hm0.2 hbl h
  · split
    · split
      · exact hsw _ _ _ hm1.1 hm1.2 hm0.1 hm0.2 (by simp [lswap_length, hbl])
          (hsw _ _ _ hm2.1 hm2.2 hm1.1 hm1.2 hbl h)
      · exact hsw _ _ _ hm2.1 hm2.2 hm1.1 hm1.2 hbl h
    · exact h

theorem medianOfThree_post {l : List Interpreter} {m1 m0 m2 : Nat}
    (h10 : m1 ≠ m0) (h12 : m1 ≠ m2) (h02 : m0 ≠ m2)
    (hm1 : m1 < l.length) (hm0 : m0 < l.length) (hm2 : m2 < l.length) :
    vlt ((medianOfThree l m1 m0 m2).getD m2 default)
      ((medianOfThree l m1 m0 m2).getD m1 default) = false := by
  unfold medianOfThree
  have hlen : ∀ i j, (lswap l i j).length = l.length := fun i j => lswap_length l i j
  split
  · rename_i hA
    -- l1 = lswap l m1 m0, and vlt (l1 m1) (l1 m0) = false by asymmetry
    have e1 : (lswap l m1 m0).getD m1 default = l.getD m0 default := by
      rw [lswap_getD hm1 hm0, if_pos rfl]
    have e0 : (lswap l m1 m0).getD m0 default = l.getD m1 default := by
      rw [lswap_getD hm1 hm0, if_neg (fun hc => h10 hc.symm), if_pos rfl]
    have e2 : (lswap l m1 m0).getD m2 default = l.getD m2 default := by
      rw [lswap_getD_ne (fun hc => h12 hc.symm) (fun hc => h02 hc.symm)]
    have hpost1 : vlt ((lswap l m1 m0).getD m1 default) ((lswap l m1 m0).getD m0 default) = false := by
      rw [e1, e0]
      exact vlt_asymm hA
    split
    · rename_i hB
      -- l2 = lswap l1 m2 m1
      have f2 : (lswap (lswap l m1 m0) m2 m1).getD m2 default = (lswap l m1 m0).getD m1 default := by
        rw [lswap_getD (by rw [lswap_length]; exact hm2) (by rw [lswap_length]; exact hm1),
          if_pos rfl]
      have f1 : (lswap (lswap l m1 m0) m2 m1).getD m1 default = (lswap l m1 m0).getD m2 default := by
        rw [lswap_getD (by rw [lswap_length]; exact hm2) (by rw [lswap_length]; exact hm1),
          if_neg (fun hc => h12 hc), if_pos rfl]
      have f0 : (lswap (lswap l m1 m0) m2 m1).getD m0 default = (lswap l m1 m0).getD m0 default := by
        rw [lswap_getD_ne (fun hc => h02 hc) (fun hc => h10 hc.symm)]
      split
      · rename_i hC
        -- l3 = lswap l2 m1 m0
        have g2 : (lswap (lswap (lswap l m1 m0) m2 m1) m1 m0).getD m2 default =
            (lswap (lswap l m1 m0) m2 m1).getD m2 default := by
          rw [lswap_getD_ne (fun hc => h12 hc.symm) (fun hc => h02 hc.symm)]
        have g1 : (lswap (lswap (lswap l m1 m0) m2 m1) m1 m0).getD m1 default =
            (lswap (lswap l m1 m0) m2 m1).getD m0 default := by
          rw [lswap_getD (by rw [lswap_length, lswap_length]; exact hm1)
            (by rw [lswap_length, lswap_length]; exact hm0), if_pos rfl]
        rw [g2, g1, f2, f0]
        exact hpost1
      · rename_i hC
        rw [f2, f1]
        exact vlt_asymm hB
    · rename_i hB
      exact Bool.not_eq_true _ ▸ hB
  · rename_i hA
    have hpost1 : vlt (l.getD m1 default) (l.getD m0 default) = false :=
      Bool.not_eq_true _ ▸ hA
    split
    · rename_i hB
      have f2 : (lswap l m2 m1).getD m2 default = l.getD m1 default := by
        rw [lswap_getD hm2 hm1, if_pos rfl]
      have f1 : (lswap l m2 m1).getD m1 default = l.getD m2 default := by
        rw [lswap_getD hm2 hm1, if_neg (fun hc => h12 hc), if_pos rfl]
      have f0 : (lswap l m2 m1).getD m0 default = l.getD m0 default := by
        rw [lswap_getD_ne (fun hc => h02 hc) (fun hc => h10 hc.symm)]
      split
      · rename_i hC
        have g2 : (lswap (lswap l m2 m1) m1 m0).getD m2 default =
            (lswap l m2 m1).getD m2 default := by
          rw [lswap_getD_ne (fun hc => h12 hc.symm) (fun hc => h02 hc.symm)]
        have g1 : (lswap (lswap l m2 m1) m1 m0).getD m1 default =
            (lswap l m2 m1).getD m0 default := by
          rw [lswap_getD (by rw [lswap_length]; exact hm1) (by rw [lswap_length]; exact hm0),
            if_pos rfl]
        rw [g2, g1, f2, f0]
        exact hpost1
      · rename_i hC
        rw [f2, f1]
        exact vlt_asymm hB
    · rename_i hB
      exact Bool.not_eq_true _ ▸ hB

theorem dpALoop_spec (l : List Interpreter) (c pivot : Nat) :
    ∀ (fuel a0 : Nat), c - a0 ≤ fuel → a0 ≤ c →
    a0 ≤ dpALoop l c pivot fuel a0 ∧ dpALoop l c pivot fuel a0 ≤ c ∧
    (∀ k, a0 ≤ k → k < dpALoop l c pivot fuel a0 → lessAt l k pivot = true) ∧
    (dpALoop l c pivot fuel a0 < c → lessAt l (dpALoop l c pivot fuel a0) pivot = false) := by
  intro fuel
  induction fuel with
  | zero =>
    intro a0 hf ha
    rw [show dpALoop l c pivot 0 a0 = a0 from rfl]
    exact ⟨le_rfl, ha, fun k h1 h2 => by omega, fun h => by omega⟩
  | succ f ih =>
    intro a0 hf ha
    unfold dpALoop
    split
    · rename_i hcond
      obtain ⟨ih1, ih2, ih3, ih4⟩ := ih (a0 + 1) (by omega) (by omega)
      refine ⟨by omega, ih2, ?_, ih4⟩
      intro k hk1 hk2
      rcases Nat.eq_or_lt_of_le hk1 with hk | hk
      · exact hk ▸ hcond.2
      · exact ih3 k hk hk2
    · rename_i hcond
      refine ⟨le_rfl, ha, fun k h1 h2 => by omega, fun h => ?_⟩
      rcases Decidable.not_and_iff_or_not.mp hcond with hc | hc
      · omega
      · exact Bool.not_eq_true _ ▸ hc

theorem dpBLoop_spec (l : List Interpreter) (c pivot : Nat) :
    ∀ (fuel b0 : Nat), c - b0 ≤ fuel →
    b0 ≤ dpBLoop l c pivot fuel b0 ∧ dpBLoop l c pivot fuel b0 ≤ max b0 c ∧
    (∀ k, b0 ≤ k → k < dpBLoop l c pivot fuel b0 → lessAt l pivot k = false) ∧
    (dpBLoop l c pivot fuel b0 < c → lessAt l pivot (dpBLoop l c pivot fuel b0) = true) := by
  intro fuel
  induction fuel with
  | zero =>
    intro b0 hf
    rw [show dpBLoop l c pivot 0 b0 = b0 from rfl]
    exact ⟨le_rfl, le_max_left _ _, fun k h1 h2 => by omega, fun h => by omega⟩
  | succ f ih =>
    intro b0 hf
    unfold dpBLoop
    split
    · rename_i hcond
      obtain ⟨ih1, ih2, ih3, ih4⟩ := ih (b0 + 1) (by omega)
      refine ⟨by omega, by omega, ?_, ih4⟩
      intro k hk1 hk2
      rcases Nat.eq_or_lt_of_le hk1 with hk | hk
      · subst hk
        rcases hcond with ⟨-, h2⟩
        simpa using h2
      · exact ih3 k hk hk2
    · rename_i hcond
      refine ⟨le_rfl, le_max_left _ _, fun k h1 h2 => by omega, fun h => ?_⟩
      rcases Decidable.not_and_iff_or_not.mp hcond with hc | hc
      · omega
      · simpa using hc

theorem dpCLoop_spec (l : List Interpreter) (b pivot : Nat) :
    ∀ (fuel c0 : Nat), c0 - b ≤ fuel →
    dpCLoop l b pivot fuel c0 ≤ c0 ∧ min b c0 ≤ dpCLoop l b pivot fuel c0 ∧
    (∀ k, dpCLoop l b pivot fuel c0 ≤ k → k < c0 → lessAt l pivot k = true) ∧
    (b < dpCLoop l b pivot fuel c0 → lessAt l pivot (dpCLoop l b pivot fuel c0 - 1) = false) := by
  intro fuel
  induction fuel with
  | zero =>
    intro c0 hf
    rw [show dpCLoop l b pivot 0 c0 = c0 from rfl]
    exact ⟨le_rfl, min_le_right _ _, fun k h1 h2 => by omega, fun h => by omega⟩
  | succ f ih =>
    intro c0 hf
    unfold dpCLoop
    split
    · rename_i hcond
      obtain ⟨ih1, ih2, ih3, ih4⟩ := ih (c0 - 1) (by omega)
      refine ⟨by omega, by omega, ?_, ih4⟩
      intro k hk1 hk2
      by_cases hk : k < c0 - 1
      · exact ih3 k hk1 hk
      · have : k = c0 - 1 := by omega
        subst this
        exact hcond.2
    · rename_i hcond
      refine ⟨le_rfl, min_le_right _ _, fun k h1 h2 => by omega, fun h => ?_⟩
      rcases Decidable.not_and_iff_or_not.mp hcond with hc | hc
      · omega
      · simpa using hc

theorem dpPBLoop_spec (l : List Interpreter) (a pivot : Nat) :
    ∀ (fuel b0 : Nat), b0 - a ≤ fuel →
    dpPBLoop l a pivot fuel b0 ≤ b0 ∧ (a ≤ b0 → a ≤ dpPBLoop l a pivot fuel b0) ∧
    (∀ k, dpPBLoop l a pivot fuel b0 ≤ k → k < b0 → lessAt l (k) pivot = false) ∧
    (a < dpPBLoop l a pivot fuel b0 →
      lessAt l (dpPBLoop l a pivot fuel b0 - 1) pivot = true) := by
  intro fuel
  induction fuel with
  | zero =>
    intro b0 hf
    rw [show dpPBLoop l a pivot 0 b0 = b0 from rfl]
    exact ⟨le_rfl, fun h => by omega, fun k h1 h2 => by omega, fun h => by omega⟩
  | succ f ih =>
    intro b0 hf
    unfold dpPBLoop
    split
    · rename_i hcond
      obtain ⟨ih1, ih2, ih3, ih4⟩ := ih (b0 - 1) (by omega)
      refine ⟨by omega, fun h => ih2 (by omega), ?_, ih4⟩
      intro k hk1 hk2
      by_cases hk : k < b0 - 1
      · exact ih3 k hk1 hk
      · have : k = b0 - 1 := by omega
        subst this
        simpa using hcond.2
    · rename_i hcond
      refine ⟨le_rfl, fun h => by omega, fun k h1 h2 => by omega, fun h => ?_⟩
      rcases Decidable.not_and_iff_or_not.mp hcond with hc | hc
      · omega
      · simpa using hc

theorem dpPALoop_spec (l : List Interpreter) (b pivot : Nat) :
    ∀ (fuel a0 : Nat), b - a0 ≤ fuel →
    a0 ≤ dpPALoop l b pivot fuel a0 ∧ dpPALoop l b pivot fuel a0 ≤ max a0 b ∧
    (∀ k, a0 ≤ k → k < dpPALoop l b pivot fuel a0 → lessAt l k pivot = true) ∧
    (dpPALoop l b pivot fuel a0 < b → lessAt l (dpPALoop l b pivot fuel a0) pivot = false) := by
  intro fuel
  induction fuel with
  | zero =>
    intro a0 hf
    rw [show dpPALoop l b pivot 0 a0 = a0 from rfl]
    exact ⟨le_rfl, le_max_left _ _, fun k h1 h2 => by omega, fun h => by omega⟩
  | succ f ih =>
    intro a0 hf
    unfold dpPALoop
    split
    · rename_i hcond
      obtain ⟨ih1, ih2, ih3, ih4⟩ := ih (a0 + 1) (by omega)
      refine ⟨by omega, by omega, ?_, ih4⟩
      intro k hk1 hk2
      rcases Nat.eq_or_lt_of_le hk1 with hk | hk
      · exact hk ▸ hcond.2
      · exact ih3 k hk hk2
    · rename_i hcond
      refine ⟨le_rfl, le_max_left _ _, fun k h1 h2 => by omega, fun h => ?_⟩
      rcases Decidable.not_and_iff_or_not.mp hcond with hc | hc
      · omega
      · exact Bool.not_eq_true _ ▸ hc

theorem dpMain_spec (pivot : Nat) (p : Interpreter) (k0 c0 : Nat) :
    ∀ (fuel : Nat) (l : List Interpreter) (b c : Nat),
    c - b ≤ fuel → pivot < b → k0 ≤ b → c ≤ c0 → b ≤ c + 1 → c0 ≤ l.length →
    l.getD pivot default = p →
    (∀ k, k0 ≤ k → k < b → vlt p (l.getD k default) = false) →
    (∀ k, c ≤ k → k < c0 → vlt p (l.getD k default) = true) →
    (dpMain pivot fuel l b c).1.length = l.length ∧
    (∀ k, (k < b ∨ c ≤ k) →
      (dpMain pivot fuel l b c).1.getD k default = l.getD k default) ∧
    b ≤ (dpMain pivot fuel l b c).2.1 ∧
    (dpMain pivot fuel l b c).2.2 ≤ c ∧
    (dpMain pivot fuel l b c).2.2 ≤ (dpMain pivot fuel l b c).2.1 ∧
    (dpMain pivot fuel l b c).2.1 ≤ (dpMain pivot fuel l b c).2.2 + 1 ∧
    min b c ≤ (dpMain pivot fuel l b c).2.2 ∧
    (∀ k, k0 ≤ k → k < (dpMain pivot fuel l b c).2.1 →
      vlt p ((dpMain pivot fuel l b c).1.getD k default) = false) ∧
    (∀ k, (dpMain pivot fuel l b c).2.2 ≤ k → k < c0 →
      vlt p ((dpMain pivot fuel l b c).1.getD k default) = true) := by
  intro fuel
  induction fuel with
  | zero =>
    intro l b c hf hpb hk0 hcc0 hbc hc0l hp hle hgt
    rw [show dpMain pivot 0 l b c = (l, b, c) from rfl]
    dsimp only
    exact ⟨rfl, fun k _ => rfl, le_rfl, le_rfl, by omega, by omega, by omega, hle, hgt⟩
  | succ f ih =>
    intro l b c hf hpb hk0 hcc0 hbc hc0l hp hle hgt
    unfold dpMain
    have hpk : ∀ k, lessAt l pivot k = vlt p (l.getD k default) := by
      intro k
      unfold lessAt
      rw [hp]
    obtain ⟨hb1, hb2, hb3, hb4⟩ := dpBLoop_spec l c pivot (c - b) b le_rfl
    set b' := dpBLoop l c pivot (c - b) b with hb'
    obtain ⟨hc1, hc2, hc3, hc4⟩ := dpCLoop_spec l b' pivot (c - b') c le_rfl
    set c' := dpCLoop l b' pivot (c - b') c with hc'
    by_cases hbr : b' ≥ c'
    · rw [if_pos hbr]
      dsimp only
      have hble : ∀ k, k0 ≤ k → k < b' → vlt p (l.getD k default) = false := by
        intro k h1 h2
        by_cases hkb : k < b
        · exact hle k h1 hkb
        · rw [← hpk k]
          exact hb3 k (by omega) h2
      have hcgt : ∀ k, c' ≤ k → k < c0 → vlt p (l.getD k default) = true := by
        intro k h1 h2
        by_cases hkc : c ≤ k
        · exact hgt k hkc h2
        · rw [← hpk k]
          exact hc3 k h1 (by omega)
      have hb'c1 : b' ≤ c' + 1 := by
        rcases le_or_lt b' c with h | h
        · omega
        · omega
      exact ⟨rfl, fun k _ => rfl, hb1, hc1, hbr, hb'c1, by omega, hble, hcgt⟩
    · rw [if_neg hbr]
      rw [← hc']
      push_neg at hbr
      have hb'c : b' < c := by omega
      have hb'c'1 : b' + 1 < c' := by
        rcases Nat.lt_or_ge (b' + 1) c' with h | h
        · exact h
        · exfalso
          have h1 : lessAt l pivot b' = true := hb4 hb'c
          have h2 : lessAt l pivot (c' - 1) = false := hc4 hbr
          have h3 : c' - 1 = b' := by omega
          rw [h3, h1] at h2
          exact Bool.true_eq_false.mp h2
      have hb'len : b' < l.length := by omega
      have hc'len : c' - 1 < l.length := by omega
      have hswp : (lswap l b' (c' - 1)).getD pivot default = p := by
        rw [lswap_getD_ne (by omega) (by omega)]
        exact hp
      have hlsw : (lswap l b' (c' - 1)).length = l.length := lswap_length l b' (c' - 1)
      have hle' : ∀ k, k0 ≤ k → k < b' + 1 → vlt p ((lswap l b' (c' - 1)).getD k default) = false := by
        intro k h1 h2
        by_cases hkb : k = b'
        · subst hkb
          rw [lswap_getD hb'len hc'len, if_pos rfl]
          rw [← hpk (c' - 1)]
          exact hc4 (by omega)
        · rw [lswap_getD_ne hkb (by omega)]
          by_cases hkb2 : k < b
          · exact hle k h1 hkb2
          · rw [← hpk k]
            exact hb3 k (by omega) (by omega)
      have hgt' : ∀ k, c' - 1 ≤ k → k < c0 → vlt p ((lswap l b' (c' - 1)).getD k default) = true := by
        intro k h1 h2
        by_cases hkc : k = c' - 1
        · subst hkc
          rw [lswap_getD hb'len hc'len, if_neg (by omega), if_pos rfl]
          rw [← hpk b']
          exact hb4 (by omega)
        · rw [lswap_getD_ne (by omega) hkc]
          by_cases hkc2 : c ≤ k
          · exact hgt k hkc2 h2
          · rw [← hpk k]
            exact hc3 k (by omega) (by omega)
      obtain ⟨ih1, ih2, ih3, ih4, ih5, ih6, ih7, ih8, ih9⟩ :=
        ih (lswap l b' (c' - 1)) (b' + 1) (c' - 1) (by omega) (by omega) (by omega)
          (by omega) (by omega) (by omega) hswp hle' hgt'
      refine ⟨by rw [ih1, hlsw], ?_, by omega, by omega, ih5, ih6, by omega, ih8, ih9⟩
      intro k hk
      rw [ih2 k (by omega), lswap_getD_ne (by omega) (by omega)]

theorem vlt_irrefl (x : Interpreter) : vlt x x = false := by
  rw [vlt_false_iff]
  omega

theorem dpMain_segAll {pivot : Nat} {P : Interpreter → Prop} :
    ∀ (fuel : Nat) (l : List Interpreter) (b c A B : Nat), A ≤ b → c ≤ B → B ≤ l.length →
    SegAll l A B P → SegAll (dpMain pivot fuel l b c).1 A B P := by
  intro fuel
  induction fuel with
  | zero => intro l b c A B _ _ _ h; exact h
  | succ f ih =>
    intro l b c A B hab hcb hbl h
    unfold dpMain
    obtain ⟨hb1, hb2, _, _⟩ := dpBLoop_spec l c pivot (c - b) b le_rfl
    set b' := dpBLoop l c pivot (c - b) b with hbd
    obtain ⟨hc1, hc2, _, _⟩ := dpCLoop_spec l b' pivot (c - b') c le_rfl
    set c' := dpCLoop l b' pivot (c - b') c with hcd
    by_cases hbr : b' ≥ c'
    · rw [if_pos hbr]
      exact h
    · rw [if_neg hbr, ← hcd]
      push_neg at hbr
      exact ih _ _ _ A B (by omega) (by omega) (by rw [lswap_length]; exact hbl)
        (lswap_segAll (by omega) (by omega) (by omega) (by omega) hbl h)

theorem dpPBLoop_step (l : List Interpreter) (a pivot : Nat) (fuel b : Nat)
    (hab : a < b) (hlb : lessAt l (b - 1) pivot = false) (hf : b - a ≤ fuel) :
    dpPBLoop l a pivot fuel b ≤ b - 1 := by
  cases fuel with
  | zero => omega
  | succ f =>
    unfold dpPBLoop
    rw [if_pos ⟨hab, by simp [hlb]⟩]
    exact (dpPBLoop_spec l a pivot f (b - 1) (by omega)).1

theorem dpProtect_spec (pivot : Nat) (p : Interpreter) (k0 : Nat) :
    ∀ (fuel : Nat) (l : List Interpreter) (a b : Nat),
    b - a ≤ fuel → pivot < a → k0 ≤ a → b ≤ l.length →
    l.getD pivot default = p →
    (∀ k, k0 ≤ k → k < b → vlt p (l.getD k default) = false) →
    (dpProtect pivot fuel l a b).1.length = l.length ∧
    (∀ k, (k < a ∨ b ≤ k) → (dpProtect pivot fuel l a b).1.getD k default = l.getD k default) ∧
    min a b ≤ (dpProtect pivot fuel l a b).2 ∧
    (dpProtect pivot fuel l a b).2 ≤ b ∧
    (∀ k, k0 ≤ k → k < b → vlt p ((dpProtect pivot fuel l a b).1.getD k default) = false) ∧
    (∀ k, (dpProtect pivot fuel l a b).2 ≤ k → k < b →
      vlt ((dpProtect pivot fuel l a b).1.getD k default) p = false) ∧
    (a < b → lessAt l (b - 1) pivot = false → (dpProtect pivot fuel l a b).2 ≤ b - 1) := by
  intro fuel
  induction fuel with
  | zero =>
    intro l a b hf hpa hk0 hbl hp hle
    rw [show dpProtect pivot 0 l a b = (l, b) from rfl]
    dsimp only
    exact ⟨rfl, fun k _ => rfl, min_le_right _ _, le_rfl, hle, fun k h1 h2 => by omega,
      fun h1 h2 => by omega⟩
  | succ f ih =>
    intro l a b hf hpa hk0 hbl hp hle
    unfold dpProtect
    obtain ⟨hb1, hb2, hb3, hb4⟩ := dpPBLoop_spec l a pivot (b - a) b le_rfl
    set b' := dpPBLoop l a pivot (b - a) b with hbd
    obtain ⟨ha1, ha2, ha3, ha4⟩ := dpPALoop_spec l b' pivot (b' - a) a le_rfl
    set a' := dpPALoop l b' pivot (b' - a) a with had
    by_cases har : a' ≥ b'
    · rw [if_pos har]
      dsimp only
      refine ⟨rfl, fun k _ => rfl, ?_, hb1, hle, ?_, ?_⟩
      · rcases le_or_lt a b with h | h
        · have := hb2 h
          omega
        · have hbb : b' = b := by
            rw [hbd, show b - a = 0 from by omega]
            rfl
          omega
      · intro k h1 h2
        have := hb3 k h1 h2
        unfold lessAt at this
        rw [hp] at this
        exact this
      · intro hab hlb
        exact dpPBLoop_step l a pivot (b - a) b hab hlb le_rfl
    · rw [if_neg har, ← had]
      push_neg at har
      have hll : a' < l.length := by omega
      have hbl1 : b' - 1 < l.length := by omega
      have hp2 : (lswap l a' (b' - 1)).getD pivot default = p := by
        rw [lswap_getD_ne (by omega) (by omega)]
        exact hp
      have hle2 : ∀ k, k0 ≤ k → k < b →
          vlt p ((lswap l a' (b' - 1)).getD k default) = false := by
        intro k h1 h2
        rw [lswap_getD hll hbl1]
        split_ifs with e1 e2
        · exact hle (b' - 1) (by omega) (by omega)
        · exact hle a' (by omega) (by omega)
        · exact hle k h1 h2
      obtain ⟨ih1, ih2, ih3, ih4, ih5, ih6, ih7⟩ := ih (lswap l a' (b' - 1)) (a' + 1) (b' - 1)
        (by omega) (by omega) (by omega) (by rw [lswap_length]; omega) hp2
        (fun k h1 h2 => hle2 k h1 (by omega))
      refine ⟨by rw [ih1, lswap_length], ?_, by omega, by omega, ?_, ?_, fun hab hlb => by omega⟩
      · intro k hk
        rw [ih2 k (by omega), lswap_getD_ne (by omega) (by omega)]
      · intro k h1 h2
        by_cases hkb : k < b' - 1
        · exact ih5 k h1 hkb
        · rw [ih2 k (by omega)]
          exact hle2 k h1 h2
      · intro k h1 h2
        by_cases hkb : k < b' - 1
        · exact ih6 k h1 hkb
        · rw [ih2 k (by omega)]
          by_cases hkb1 : k = b' - 1
          · subst hkb1
            have hv : (lswap l a' (b' - 1)).getD (b' - 1) default = l.getD a' default := by
              rw [lswap_getD hll hbl1]
              by_cases he : b' - 1 = a'
              · rw [if_pos he, he]
              · rw [if_neg he, if_pos rfl]
            rw [hv]
            have := ha4 har
            unfold lessAt at this
            rw [hp] at this
            exact this
          · rw [lswap_getD_ne (by omega) (by omega)]
            have := hb3 k (by omega) h2
            unfold lessAt at this
            rw [hp] at this
            exact this

theorem dpProtect_segAll {pivot : Nat} {P : Interpreter → Prop} :
    ∀ (fuel : Nat) (l : List Interpreter) (a b A B : Nat), A ≤ a → b ≤ B → B ≤ l.length →
    SegAll l A B P → SegAll (dpProtect pivot fuel l a b).1 A B P := by
  intro fuel
  induction fuel with
  | zero => intro l a b A B _ _ _ h; exact h
  | succ f ih =>
    intro l a b A B hab hbB hBl h
    unfold dpProtect
    obtain ⟨hb1, hb2, _, _⟩ := dpPBLoop_spec l a pivot (b - a) b le_rfl
    set b' := dpPBLoop l a pivot (b - a) b with hbd
    obtain ⟨ha1, ha2, _, _⟩ := dpPALoop_spec l b' pivot (b' - a) a le_rfl
    set a' := dpPALoop l b' pivot (b' - a) a with had
    by_cases har : a' ≥ b'
    · rw [if_pos har]
      exact h
    · rw [if_neg har, ← had]
      push_neg at har
      exact ih _ _ _ A B (by omega) (by omega) (by rw [lswap_length]; exact hBl)
        (lswap_segAll (by omega) (by omega) (by omega) (by omega) hBl h)


theorem insInner_sorts (a i : Nat) : ∀ (l : List Interpreter) (j : Nat), a ≤ j → j ≤ i →
    i < l.length →
    SortedSeg l a j →
    (∀ x y, j < x → x < y → y ≤ i → vlt (l.getD y default) (l.getD x default) = false) →
    (∀ x y, a ≤ x → x < j → j < y → y ≤ i → vlt (l.getD y default) (l.getD x default) = false) →
    (∀ y, j < y → y ≤ i → vlt (l.getD y default) (l.getD j default) = false) →
    SortedSeg (insInner a l j) a (i + 1) := by
  intro l j
  induction j generalizing l with
  | zero =>
    intro haj hji hlen hA hB hC hD
    rw [show insInner a l 0 = l from rfl]
    intro x y hax hxy hyb
    have ha0 : a = 0 := by omega
    by_cases hx0 : x = 0
    · subst hx0
      exact hD y hxy (by omega)
    · exact hB x y (by omega) hxy (by omega)
  | succ j ih =>
    intro haj hji hlen hA hB hC hD
    unfold insInner
    split
    · rename_i hcond
      have hj1 : j + 1 < l.length := by omega
      have hj0 : j < l.length := by omega
      have hlt : vlt (l.getD (j + 1) default) (l.getD j default) = true := hcond.2
      have hget : ∀ k, (lswap l (j + 1) j).getD k default =
          if k = j + 1 then l.getD j default
          else if k = j then l.getD (j + 1) default
          else l.getD k default := fun k => lswap_getD hj1 hj0 k
      apply ih (lswap l (j + 1) j) (by omega) (by omega) (by rw [lswap_length]; exact hlen)
      · intro x y hax hxy hyj
        rw [hget x, hget y, if_neg (by omega), if_neg (by omega), if_neg (by omega),
          if_neg (by omega)]
        exact hA x y hax hxy (by omega)
      · intro x y hjx hxy hyi
        by_cases hxj : x = j + 1
        · subst hxj
          rw [hget (j + 1), if_pos rfl, hget y, if_neg (by omega), if_neg (by omega)]
          exact hC j y (by omega) (by omega) (by omega) hyi
        · rw [hget x, if_neg hxj, if_neg (by omega), hget y, if_neg (by omega),
            if_neg (by omega)]
          exact hB x y (by omega) hxy hyi
      · intro x y hax hxj hjy hyi
        rw [hget x, if_neg (by omega), if_neg (by omega)]
        by_cases hyj : y = j + 1
        · subst hyj
          rw [hget (j + 1), if_pos rfl]
          exact hA x j hax (by omega) (by omega)
        · rw [hget y, if_neg hyj, if_neg (by omega)]
          exact hC x y hax (by omega) (by omega) hyi
      · intro y hjy hyi
        rw [hget j, if_neg (by omega), if_pos rfl]
        by_cases hyj : y = j + 1
        · subst hyj
          rw [hget (j + 1), if_pos rfl]
          exact vlt_asymm hlt
        · rw [hget y, if_neg hyj, if_neg (by omega)]
          exact hD y (by omega) hyi
    · rename_i hcond
      rcases Decidable.not_and_iff_or_not.mp hcond with hca | hcl
      · have haj1 : a = j + 1 := by omega
        intro x y hax hxy hyb
        by_cases hxj : x = j + 1
        · subst hxj
          exact hD y hxy (by omega)
        · exact hB x y (by omega) hxy (by omega)
      · have hlf : vlt (l.getD (j + 1) default) (l.getD j default) = false := by
          have : lessAt l (j + 1) j = false := by simpa using hcl
          exact this
        intro x y hax hxy hyb
        by_cases hyj : y ≤ j
        · exact hA x y hax hxy (by omega)
        · by_cases hyj1 : y = j + 1
          · subst hyj1
            by_cases hxj : x = j
            · subst hxj
              exact hlf
            · exact vlt_false_trans (hA x j hax (by omega) (by omega)) hlf
          · by_cases hxj1 : x < j + 1
            · exact hC x y hax hxj1 (by omega) (by omega)
            · by_cases hxj2 : x = j + 1
              · subst hxj2
                exact hD y (by omega) (by omega)
              · exact hB x y (by omega) hxy (by omega)

theorem insOuter_sorts (a b : Nat) : ∀ (fuel : Nat) (l : List Interpreter) (i : Nat),
    b - i ≤ fuel → a < i → b ≤ l.length → SortedSeg l a i →
    SortedSeg (insOuter a b fuel l i) a b := by
  intro fuel
  induction fuel with
  | zero =>
    intro l i hf hai hbl hs
    rw [show insOuter a b 0 l i = l from rfl]
    intro x y hax hxy hyb
    exact hs x y hax hxy (by omega)
  | succ f ih =>
    intro l i hf hai hbl hs
    unfold insOuter
    split
    · rename_i hib
      apply ih _ (i + 1) (by omega) (by omega) (by rw [insInner_length]; exact hbl)
      exact insInner_sorts a i l i (by omega) le_rfl (by omega) hs
        (fun x y h1 h2 h3 => by omega) (fun x y h1 h2 h3 h4 => by omega)
        (fun y h1 h2 => by omega)
    · rename_i hib
      intro x y hax hxy hyb
      exact hs x y hax hxy (by omega)

theorem insertionSortGo_sorts (l : List Interpreter) (a b : Nat) (hbl : b ≤ l.length) :
    SortedSeg (insertionSortGo l a b) a b := by
  unfold insertionSortGo
  by_cases hab : a + 1 < b
  · exact insOuter_sorts a b (b - a) l (a + 1) (by omega) (by omega) hbl
      (fun x y h1 h2 h3 => by omega)
  · intro x y hax hxy hyb
    omega


theorem siftDownLoop_heap (first hi r0 : Nat) :
    ∀ (fuel : Nat) (l : List Interpreter) (root : Nat),
    r0 ≤ root → root < hi → hi - root ≤ fuel → first + hi ≤ l.length →
    (∀ r c, r0 ≤ r → c < hi → (c = 2 * r + 1 ∨ c = 2 * r + 2) → r ≠ root →
      vlt (l.getD (first + r) default) (l.getD (first + c) default) = false) →
    (root ≠ r0 → ∀ c, c < hi → (c = 2 * root + 1 ∨ c = 2 * root + 2) →
      vlt (l.getD (first + (root - 1) / 2) default) (l.getD (first + c) default) = false) →
    HeapFrom (siftDownLoop first hi fuel l root) first hi r0 := by
  intro fuel
  induction fuel with
  | zero =>
    intro l root hr0 hrhi hf hlen hexc hgp
    omega
  | succ f ih =>
    intro l root hr0 hrhi hf hlen hexc hgp
    unfold siftDownLoop
    split
    · rename_i hnoc
      intro r c hr hc hcc
      by_cases hrr : r = root
      · subst hrr
        rcases hcc with h | h <;> omega
      · exact hexc r c hr hc hcc hrr
    · rename_i hhasc
      push_neg at hhasc
      split
      · rename_i hsel
        have hc2hi : 2 * root + 2 < hi := by omega
        have h12 : vlt (l.getD (first + (2 * root + 1)) default)
            (l.getD (first + (2 * root + 2)) default) = true := by
          have h := hsel.2
          unfold lessAt at h
          rw [show first + (2 * root + 1) + 1 = first + (2 * root + 2) from by omega] at h
          exact h
        split
        · rename_i hstop
          have hr2 : vlt (l.getD (first + root) default)
              (l.getD (first + (2 * root + 2)) default) = false := by
            have h : lessAt l (first + root) (first + (2 * root + 2)) = false := by
              simpa using hstop
            unfold lessAt at h
            exact h
          intro r c hr hc hcc
          by_cases hrr : r = root
          · rcases hcc with h | h
            · rw [h, hrr]
              exact vlt_false_trans (vlt_asymm h12) hr2
            · rw [h, hrr]
              exact hr2
          · exact hexc r c hr hc hcc hrr
        · rename_i hgo
          have hsw : vlt (l.getD (first + root) default)
              (l.getD (first + (2 * root + 2)) default) = true := by
            have h : lessAt l (first + root) (first + (2 * root + 2)) = true :=
              Decidable.not_not.mp hgo
            unfold lessAt at h
            exact h
          have hget : ∀ k, (lswap l (first + root) (first + (2 * root + 2))).getD
              (first + k) default =
              if k = root then l.getD (first + (2 * root + 2)) default
              else if k = 2 * root + 2 then l.getD (first + root) default
              else l.getD (first + k) default := by
            intro k
            rw [lswap_getD (by omega) (by omega)]
            by_cases h1 : k = root
            · rw [if_pos (by omega), if_pos h1]
            · rw [if_neg (by omega), if_neg h1]
              by_cases h2 : k = 2 * root + 2
              · rw [if_pos (by omega), if_pos h2]
              · rw [if_neg (by omega), if_neg h2]
          apply ih _ (2 * root + 2) (by omega) hc2hi (by omega)
            (by rw [lswap_length]; exact hlen)
          · intro r c hr hc hcc hrne
            by_cases hrr : r = root
            · rcases hcc with h | h
              · rw [h, hrr, hget root, if_pos rfl, hget (2 * root + 1),
                  if_neg (by omega), if_neg (by omega)]
                exact vlt_asymm h12
              · rw [h, hrr, hget root, if_pos rfl, hget (2 * root + 2),
                  if_neg (by omega), if_pos rfl]
                exact vlt_asymm hsw
            · rw [hget r, if_neg hrr, if_neg hrne]
              by_cases hcr : c = root
              · rw [hcr, hget root, if_pos rfl]
                have hroot0 : root ≠ r0 := by
                  rcases hcc with h | h <;> omega
                have h := hgp hroot0 (2 * root + 2) hc2hi (Or.inr rfl)
                have he : first + (root - 1) / 2 = first + r := by
                  rcases hcc with h' | h' <;> omega
                rw [he] at h
                exact h
              · have hc2 : c ≠ 2 * root + 2 := by
                  rcases hcc with h | h <;> omega
                rw [hget c, if_neg hcr, if_neg hc2]
                exact hexc r c hr hc hcc hrr
          · intro _ c hc hcc
            have he : (2 * root + 2 - 1) / 2 = root := by omega
            rw [he, hget root, if_pos rfl]
            have hcne : c ≠ root := by rcases hcc with h | h <;> omega
            have hcne2 : c ≠ 2 * root + 2 := by rcases hcc with h | h <;> omega
            rw [hget c, if_neg hcne, if_neg hcne2]
            exact hexc (2 * root + 2) c (by omega) hc hcc (by omega)
      · rename_i hnsel
        split
        · rename_i hstop
          have hr1 : vlt (l.getD (first + root) default)
              (l.getD (first + (2 * root + 1)) default) = false := by
            have h : lessAt l (first + root) (first + (2 * root + 1)) = false := by
              simpa using hstop
            unfold lessAt at h
            exact h
          intro r c hr hc hcc
          by_cases hrr : r = root
          · rcases hcc with h | h
            · rw [h, hrr]
              exact hr1
            · rw [h, hrr]
              have h12 : vlt (l.getD (first + (2 * root + 1)) default)
                  (l.getD (first + (2 * root + 2)) default) = false := by
                rcases Decidable.not_and_iff_or_not.mp hnsel with h' | h'
                · omega
                · have h2 : lessAt l (first + (2 * root + 1))
                      (first + (2 * root + 1) + 1) = false := by simpa using h'
                  unfold lessAt at h2
                  rw [show first + (2 * root + 1) + 1 = first + (2 * root + 2)
                    from by omega] at h2
                  exact h2
              exact vlt_false_trans h12 hr1
          · exact hexc r c hr hc hcc hrr
        · rename_i hgo
          have hsw : vlt (l.getD (first + root) default)
              (l.getD (first + (2 * root + 1)) default) = true := by
            have h : lessAt l (first + root) (first + (2 * root + 1)) = true :=
              Decidable.not_not.mp hgo
            unfold lessAt at h
            exact h
          have hget : ∀ k, (lswap l (first + root) (first + (2 * root + 1))).getD
              (first + k) default =
              if k = root then l.getD (first + (2 * root + 1)) default
              else if k = 2 * root + 1 then l.getD (first + root) default
              else l.getD (first + k) default := by
            intro k
            rw [lswap_getD (by omega) (by omega)]
            by_cases h1 : k = root
            · rw [if_pos (by omega), if_pos h1]
            · rw [if_neg (by omega), if_neg h1]
              by_cases h2 : k = 2 * root + 1
              · rw [if_pos (by omega), if_pos h2]
              · rw [if_neg (by omega), if_neg h2]
          apply ih _ (2 * root + 1) (by omega) hhasc (by omega)
            (by rw [lswap_length]; exact hlen)
          · intro r c hr hc hcc hrne
            by_cases hrr : r = root
            · rcases hcc with h | h
              · rw [h, hrr, hget root, if_pos rfl, hget (2 * root + 1),
                  if_neg (by omega), if_pos rfl]
                exact vlt_asymm hsw
              · rw [h, hrr, hget root, if_pos rfl, hget (2 * root + 2),
                  if_neg (by omega), if_neg (by omega)]
                rcases Decidable.not_and_iff_or_not.mp hnsel with h' | h'
                · omega
                · have h2 : lessAt l (first + (2 * root + 1))
                      (first + (2 * root + 1) + 1) = false := by simpa using h'
                  unfold lessAt at h2
                  rw [show first + (2 * root + 1) + 1 = first + (2 * root + 2)
                    from by omega] at h2
                  exact h2
            · rw [hget r, if_neg hrr, if_neg hrne]
              by_cases hcr : c = root
              · rw [hcr, hget root, if_pos rfl]
                have hroot0 : root ≠ r0 := by
                  rcases hcc with h | h <;> omega
                have h := hgp hroot0 (2 * root + 1) hhasc (Or.inl rfl)
                have he : first + (root - 1) / 2 = first + r := by
                  rcases hcc with h' | h' <;> omega
                rw [he] at h
                exact h
              · have hc1 : c ≠ 2 * root + 1 := by
                  rcases hcc with h | h <;> omega
                rw [hget c, if_neg hcr, if_neg hc1]
                exact hexc r c hr hc hcc hrr
          · intro _ c hc hcc
            have he : (2 * root + 1 - 1) / 2 = root := by omega
            rw [he, hget root, if_pos rfl]
            have hcne : c ≠ root := by rcases hcc with h | h <;> omega
            have hcne1 : c ≠ 2 * root + 1 := by rcases hcc with h | h <;> omega
            rw [hget c, if_neg hcne, if_neg hcne1]
            exact hexc (2 * root + 1) c (by omega) hc hcc (by omega)

theorem siftDownGo_heap (l : List Interpreter) (root hi first r0 : Nat)
    (hr0 : r0 ≤ root) (hroot : root < hi) (hlen : first + hi ≤ l.length)
    (hexc : ∀ r c, r0 ≤ r → c < hi → (c = 2 * r + 1 ∨ c = 2 * r + 2) → r ≠ root →
      vlt (l.getD (first + r) default) (l.getD (first + c) default) = false)
    (hgp : root ≠ r0 → ∀ c, c < hi → (c = 2 * root + 1 ∨ c = 2 * root + 2) →
      vlt (l.getD (first + (root - 1) / 2) default) (l.getD (first + c) default) = false) :
    HeapFrom (siftDownGo l root hi first) first hi r0 :=
  siftDownLoop_heap first hi r0 hi l root hr0 hroot (by omega) hlen hexc hgp

theorem heap_top_max (l : List Interpreter) (first hn : Nat) (h : HeapFrom l first hn 0) :
    ∀ q, q < hn → vlt (l.getD first default) (l.getD (first + q) default) = false := by
  intro q
  induction q using Nat.strong_induction_on with
  | _ q ih =>
    intro hq
    by_cases h0 : q = 0
    · subst h0
      rw [Nat.add_zero]
      exact vlt_irrefl _
    · have hpar := h ((q - 1) / 2) q (Nat.zero_le _) hq (by omega)
      exact vlt_false_trans hpar (ih ((q - 1) / 2) (by omega) (by omega))

theorem heapBuildLoop_heap (hn first : Nat) : ∀ (k : Nat) (l : List Interpreter),
    k ≤ (hn - 1) / 2 + 1 → 1 ≤ hn → first + hn ≤ l.length →
    HeapFrom l first hn k → HeapFrom (heapBuildLoop hn first k l) first hn 0 := by
  intro k
  induction k with
  | zero => intro l _ _ _ h; exact h
  | succ k ih =>
    intro l hk hhn hlen h
    unfold heapBuildLoop
    apply ih _ (by omega) hhn (by rw [siftDownGo_length]; exact hlen)
    exact siftDownGo_heap l k hn first k le_rfl (by omega) hlen
      (fun r c hr hc hcc hrne => h r c (by omega) hc hcc)
      (fun hne => absurd rfl hne)

theorem heapPopLoop_sorts (first hn0 : Nat) : ∀ (i : Nat) (l : List Interpreter),
    i ≤ hn0 → first + hn0 ≤ l.length →
    HeapFrom l first i 0 →
    SortedSeg l (first + i) (first + hn0) →
    (∀ q s, q < i → i ≤ s → s < hn0 →
      vlt (l.getD (first + s) default) (l.getD (first + q) default) = false) →
    SortedSeg (heapPopLoop first i l) first (first + hn0) := by
  intro i
  induction i with
  | zero =>
    intro l hle hlen hheap hsorted hrel
    rw [show heapPopLoop first 0 l = l from rfl]
    intro x y hax hxy hyb
    exact hsorted x y (by omega) hxy hyb
  | succ i ih =>
    intro l hle hlen hheap hsorted hrel
    unfold heapPopLoop
    have hfl : first < l.length := by omega
    have hfil : first + i < l.length := by omega
    have hget1 : ∀ k, (lswap l first (first + i)).getD k default =
        if k = first then l.getD (first + i) default
        else if k = first + i then l.getD first default
        else l.getD k default := fun k => lswap_getD hfl hfil k
    set L2 := siftDownGo (lswap l first (first + i)) 0 i first with hL2
    have hL2len : L2.length = l.length := by
      rw [hL2, siftDownGo_length, lswap_length]
    have hL2frame : ∀ k, first + i ≤ k →
        L2.getD k default = (lswap l first (first + i)).getD k default := by
      intro k hk
      rw [hL2, siftDownGo_frame' _ _ _ _ k (Or.inr hk)]
    apply ih L2 (by omega) (by rw [hL2len]; exact hlen)
    · by_cases hi0 : i = 0
      · subst hi0
        intro r c hr hc hcc
        omega
      · rw [hL2]
        apply siftDownGo_heap (lswap l first (first + i)) 0 i first 0 le_rfl (by omega)
          (by rw [lswap_length]; omega)
        · intro r c hr hc hcc hrne
          have hrlt : r < i := by rcases hcc with h | h <;> omega
          have hcne0 : c ≠ 0 := by rcases hcc with h | h <;> omega
          rw [hget1 (first + r), if_neg (by omega), if_neg (by omega),
            hget1 (first + c), if_neg (by omega), if_neg (by omega)]
          exact hheap r c hr (by omega) hcc
        · intro hne
          exact absurd rfl hne
    · intro x y hax hxy hyb
      have hvx : L2.getD x default =
          if x = first + i then l.getD first default else l.getD x default := by
        rw [hL2frame x hax, hget1 x]
        split_ifs with h1 h2 h3
        · rw [show first + i = first from by omega]
        · omega
        · rfl
        · rfl
      have hvy : L2.getD y default =
          if y = first + i then l.getD first default else l.getD y default := by
        rw [hL2frame y (by omega), hget1 y]
        split_ifs with h1 h2 h3
        · rw [show first + i = first from by omega]
        · omega
        · rfl
        · rfl
      rw [hvx, hvy]
      by_cases hxi : x = first + i
      · rw [if_pos hxi, if_neg (by omega)]
        have h := hrel 0 (y - first) (by omega) (by omega) (by omega)
        rw [show first + (y - first) = y from by omega, Nat.add_zero] at h
        exact h
      · rw [if_neg hxi, if_neg (by omega)]
        exact hsorted x y (by omega) hxy hyb
    · intro q s hq hs hshn
      by_cases hsi : s = i
      · have hvs : L2.getD (first + s) default = l.getD first default := by
          rw [hL2frame (first + s) (by omega), hget1 (first + s)]
          by_cases h1 : first + s = first
          · rw [if_pos h1, show first + i = first from by omega]
          · rw [if_neg h1, if_pos (by omega)]
        rw [hvs]
        have htop := heap_top_max l first (i + 1) hheap
        have hP : SegAll (lswap l first (first + i)) first (first + i)
            (fun x => vlt (l.getD first default) x = false) := by
          intro k hk1 hk2
          rw [hget1 k]
          split_ifs with h1 h2
          · exact htop i (by omega)
          · exact vlt_irrefl _
          · have h := htop (k - first) (by omega)
            rw [show first + (k - first) = k from by omega] at h
            exact h
        have hP2 : SegAll L2 first (first + i)
            (fun x => vlt (l.getD first default) x = false) := by
          rw [hL2]
          exact siftDownGo_segAll (by rw [lswap_length]; omega) hP
        exact hP2 (first + q) (by omega) (by omega)
      · have hvs : L2.getD (first + s) default = l.getD (first + s) default := by
          rw [hL2frame (first + s) (by omega), hget1 (first + s)]
          rw [if_neg (by omega), if_neg (by omega)]
        rw [hvs]
        have hP : SegAll (lswap l first (first + i)) first (first + i)
            (fun x => vlt (l.getD (first + s) default) x = false) := by
          intro k hk1 hk2
          rw [hget1 k]
          split_ifs with h1 h2
          · exact hrel i s (by omega) (by omega) hshn
          · have h := hrel 0 s (by omega) (by omega) hshn
            rw [Nat.add_zero] at h
            exact h
          · have h := hrel (k - first) s (by omega) (by omega) hshn
            rw [show first + (k - first) = k from by omega] at h
            exact h
        have hP2 : SegAll L2 first (first + i)
            (fun x => vlt (l.getD (first + s) default) x = false) := by
          rw [hL2]
          exact siftDownGo_segAll (by rw [lswap_length]; omega) hP
        exact hP2 (first + q) (by omega) (by omega)

theorem heapSortGo_sorts (l : List Interpreter) (a b : Nat) (hbl : b ≤ l.length) :
    SortedSeg (heapSortGo l a b) a b := by
  by_cases hab : a < b
  · have hbuild := heapBuildLoop_heap (b - a) a ((b - a - 1) / 2 + 1) l le_rfl (by omega)
      (by omega) (fun r c hr hc hcc => by rcases hcc with h | h <;> omega)
    have hpop := heapPopLoop_sorts a (b - a) (b - a)
      (heapBuildLoop (b - a) a ((b - a - 1) / 2 + 1) l)
      le_rfl (by rw [heapBuildLoop_length]; omega) hbuild
      (fun x y h1 h2 h3 => by omega) (fun q s h1 h2 h3 => by omega)
    unfold heapSortGo
    intro x y h1 h2 h3
    exact hpop x y h1 h2 (by omega)
  · intro x y h1 h2 h3
    omega


theorem doPivotGo_eq (l : List Interpreter) (lo hi : Nat) :
    doPivotGo l lo hi =
      dpFine lo (dpALoop (dpSel l lo hi) (hi - 1) lo (hi - 1 - (lo + 1)) (lo + 1))
        (dpDup lo hi ((lo + hi) / 2)
          (dpMain lo
            (hi - 1 - dpALoop (dpSel l lo hi) (hi - 1) lo (hi - 1 - (lo + 1)) (lo + 1))
            (dpSel l lo hi)
            (dpALoop (dpSel l lo hi) (hi - 1) lo (hi - 1 - (lo + 1)) (lo + 1))
            (hi - 1))) := rfl


theorem dpSel_spec (l : List Interpreter) (lo hi : Nat) (h12 : hi - lo > 12)
    (hhi : hi ≤ l.length) :
    (dpSel l lo hi).length = l.length ∧
    (∀ k, k < lo ∨ hi ≤ k → (dpSel l lo hi).getD k default = l.getD k default) ∧
    (∀ P : Interpreter → Prop, SegAll l lo hi P → SegAll (dpSel l lo hi) lo hi P) ∧
    vlt ((dpSel l lo hi).getD (hi - 1) default) ((dpSel l lo hi).getD lo default) = false := by
  unfold dpSel
  dsimp only
  by_cases h40 : hi - lo > 40
  · simp only [if_pos h40]
    set M1 := medianOfThree l lo (lo + (hi - lo) / 8) (lo + 2 * ((hi - lo) / 8)) with hM1
    set M2 := medianOfThree M1 ((lo + hi) / 2) ((lo + hi) / 2 - (hi - lo) / 8)
      ((lo + hi) / 2 + (hi - lo) / 8) with hM2
    set M3 := medianOfThree M2 (hi - 1) (hi - 1 - (hi - lo) / 8)
      (hi - 1 - 2 * ((hi - lo) / 8)) with hM3
    have h1len : M1.length = l.length := medianOfThree_length _ _ _ _
    have h2len : M2.length = l.length := by rw [hM2, medianOfThree_length, h1len]
    have h3len : M3.length = l.length := by rw [hM3, medianOfThree_length, h2len]
    refine ⟨by rw [medianOfThree_length, h3len], ?_, ?_, ?_⟩
    · intro k hk
      rw [medianOfThree_frame _ _ _ _ k (by omega) (by omega) (by omega),
        hM3, medianOfThree_frame _ _ _ _ k (by omega) (by omega) (by omega),
        hM2, medianOfThree_frame _ _ _ _ k (by omega) (by omega) (by omega),
        hM1, medianOfThree_frame _ _ _ _ k (by omega) (by omega) (by omega)]
    · intro P hP
      have p1 : SegAll M1 lo hi P :=
        medianOfThree_segAll ⟨le_rfl, by omega⟩ ⟨by omega, by omega⟩ ⟨by omega, by omega⟩
          hhi hP
      have p2 : SegAll M2 lo hi P := by
        rw [hM2]
        exact medianOfThree_segAll ⟨by omega, by omega⟩ ⟨by omega, by omega⟩
          ⟨by omega, by omega⟩ (by rw [h1len]; exact hhi) p1
      have p3 : SegAll M3 lo hi P := by
        rw [hM3]
        exact medianOfThree_segAll ⟨by omega, by omega⟩ ⟨by omega, by omega⟩
          ⟨by omega, by omega⟩ (by rw [h2len]; exact hhi) p2
      exact medianOfThree_segAll ⟨by omega, by omega⟩ ⟨by omega, by omega⟩
        ⟨by omega, by omega⟩ (by rw [h3len]; exact hhi) p3
    · exact medianOfThree_post (by omega) (by omega) (by omega)
        (by rw [h3len]; omega) (by rw [h3len]; omega) (by rw [h3len]; omega)
  · simp only [if_neg h40]
    refine ⟨medianOfThree_length _ _ _ _, ?_, ?_, ?_⟩
    · intro k hk
      rw [medianOfThree_frame _ _ _ _ k (by omega) (by omega) (by omega)]
    · intro P hP
      exact medianOfThree_segAll ⟨le_rfl, by omega⟩ ⟨by omega, by omega⟩ ⟨by omega, by omega⟩
        hhi hP
    · exact medianOfThree_post (by omega) (by omega) (by omega)
        (by omega) (by omega) (by omega)


theorem dupTail_spec (lo hi m : Nat) (p : Interpreter) (l : List Interpreter) (b c' : Nat)
    (hm : m = (lo + hi) / 2) (hn : hi - lo > 20)
    (hb4 : hi - (hi - lo) / 4 ≤ b) (hbc : b ≤ c' + 1) (hbhi : b ≤ hi)
    (hchi : c' ≤ hi) (hlen : hi ≤ l.length)
    (hp : l.getD lo default = p)
    (hA : ∀ k, lo + 1 ≤ k → k < b → vlt p (l.getD k default) = false)
    (hE : ∀ k, b ≤ k → k < c' →
      vlt p (l.getD k default) = false ∧ vlt (l.getD k default) p = false)
    (hCw : ∀ k, c' ≤ k → k < hi → vlt (l.getD k default) p = false) :
    (if ¬ lessAt l m lo = true then
        lswap l m ((if ¬ lessAt l (b - 1) lo = true then b - 1 else b) - 1)
      else l).length = l.length ∧
    (∀ k, k < lo ∨ hi ≤ k →
      (if ¬ lessAt l m lo = true then
          lswap l m ((if ¬ lessAt l (b - 1) lo = true then b - 1 else b) - 1)
        else l).getD k default = l.getD k default) ∧
    (∀ P : Interpreter → Prop, SegAll l lo hi P →
      SegAll (if ¬ lessAt l m lo = true then
          lswap l m ((if ¬ lessAt l (b - 1) lo = true then b - 1 else b) - 1)
        else l) lo hi P) ∧
    lo + 1 ≤ (if ¬ lessAt l m lo = true then
        (if ¬ lessAt l (b - 1) lo = true then b - 1 else b) - 1
      else (if ¬ lessAt l (b - 1) lo = true then b - 1 else b)) ∧
    (if ¬ lessAt l m lo = true then
        (if ¬ lessAt l (b - 1) lo = true then b - 1 else b) - 1
      else (if ¬ lessAt l (b - 1) lo = true then b - 1 else b)) ≤ b ∧
    (if ¬ lessAt l m lo = true then
        lswap l m ((if ¬ lessAt l (b - 1) lo = true then b - 1 else b) - 1)
      else l).getD lo default = p ∧
    (∀ k, lo + 1 ≤ k →
      k < (if ¬ lessAt l m lo = true then
          (if ¬ lessAt l (b - 1) lo = true then b - 1 else b) - 1
        else (if ¬ lessAt l (b - 1) lo = true then b - 1 else b)) →
      vlt p ((if ¬ lessAt l m lo = true then
          lswap l m ((if ¬ lessAt l (b - 1) lo = true then b - 1 else b) - 1)
        else l).getD k default) = false) ∧
    (∀ k, (if ¬ lessAt l m lo = true then
          (if ¬ lessAt l (b - 1) lo = true then b - 1 else b) - 1
        else (if ¬ lessAt l (b - 1) lo = true then b - 1 else b)) ≤ k →
      k < c' →
      vlt p ((if ¬ lessAt l m lo = true then
          lswap l m ((if ¬ lessAt l (b - 1) lo = true then b - 1 else b) - 1)
        else l).getD k default) = false ∧
      vlt ((if ¬ lessAt l m lo = true then
          lswap l m ((if ¬ lessAt l (b - 1) lo = true then b - 1 else b) - 1)
        else l).getD k default) p = false) ∧
    (∀ k, c' ≤ k → k < hi →
      vlt ((if ¬ lessAt l m lo = true then
          lswap l m ((if ¬ lessAt l (b - 1) lo = true then b - 1 else b) - 1)
        else l).getD k default) p = false) := by
  have hm1 : lo + 1 ≤ m := by omega
  have hmb : m + 3 ≤ b := by omega
  have hml : m < l.length := by omega
  by_cases hs2 : ¬ lessAt l (b - 1) lo = true
  · simp only [if_pos hs2]
    have hs2f : vlt (l.getD (b - 1) default) p = false := by
      have h : lessAt l (b - 1) lo = false := by
        cases hv : lessAt l (b - 1) lo
        · rfl
        · exact absurd hv hs2
      unfold lessAt at h
      rw [hp] at h
      exact h
    by_cases hs3 : ¬ lessAt l m lo = true
    · simp only [if_pos hs3]
      have hs3f : vlt (l.getD m default) p = false := by
        have h : lessAt l m lo = false := by
          cases hv : lessAt l m lo
          · rfl
          · exact absurd hv hs3
        unfold lessAt at h
        rw [hp] at h
        exact h
      have hbl : b - 1 - 1 < l.length := by omega
      have g3 : ∀ k, (lswap l m (b - 1 - 1)).getD k default =
          if k = m then l.getD (b - 1 - 1) default
          else if k = b - 1 - 1 then l.getD m default
          else l.getD k default := fun k => lswap_getD hml hbl k
      refine ⟨lswap_length _ _ _, ?_, ?_, by omega, by omega, ?_, ?_, ?_, ?_⟩
      · intro k hk
        exact lswap_getD_ne (by omega) (by omega)
      · intro P hP
        exact lswap_segAll (by omega) (by omega) (by omega) (by omega) hlen hP
      · rw [g3 lo, if_neg (by omega), if_neg (by omega)]
        exact hp
      · intro k h1 h2
        rw [g3 k]
        split_ifs with e1 e2
        · exact hA (b - 1 - 1) (by omega) (by omega)
        · omega
        · exact hA k h1 (by omega)
      · intro k h1 h2
        rw [g3 k]
        split_ifs with e1 e2
        · omega
        · exact ⟨hA m hm1 (by omega), hs3f⟩
        · by_cases hk1 : k = b - 1
          · subst hk1
            exact ⟨hA (b - 1) (by omega) (by omega), hs2f⟩
          · exact hE k (by omega) h2
      · intro k h1 h2
        rw [g3 k]
        split_ifs with e1 e2
        · omega
        · exact hs3f
        · exact hCw k h1 h2
    · simp only [if_neg hs3]
      refine ⟨trivial, fun k _ => trivial, fun P hP => hP, by omega, by omega, hp, ?_, ?_, hCw⟩
      · intro k h1 h2
        exact hA k h1 (by omega)
      · intro k h1 h2
        by_cases hk1 : k = b - 1
        · subst hk1
          exact ⟨hA (b - 1) (by omega) (by omega), hs2f⟩
        · exact hE k (by omega) h2
  · simp only [if_neg hs2]
    by_cases hs3 : ¬ lessAt l m lo = true
    · simp only [if_pos hs3]
      have hs3f : vlt (l.getD m default) p = false := by
        have h : lessAt l m lo = false := by
          cases hv : lessAt l m lo
          · rfl
          · exact absurd hv hs3
        unfold lessAt at h
        rw [hp] at h
        exact h
      have hbl : b - 1 < l.length := by omega
      have g3 : ∀ k, (lswap l m (b - 1)).getD k default =
          if k = m then l.getD (b - 1) default
          else if k = b - 1 then l.getD m default
          else l.getD k default := fun k => lswap_getD hml hbl k
      refine ⟨lswap_length _ _ _, ?_, ?_, by omega, by omega, ?_, ?_, ?_, ?_⟩
      · intro k hk
        exact lswap_getD_ne (by omega) (by omega)
      · intro P hP
        exact lswap_segAll (by omega) (by omega) (by omega) (by omega) hlen hP
      · rw [g3 lo, if_neg (by omega), if_neg (by omega)]
        exact hp
      · intro k h1 h2
        rw [g3 k]
        split_ifs with e1 e2
        · exact hA (b - 1) (by omega) (by omega)
        · omega
        · exact hA k h1 (by omega)
      · intro k h1 h2
        rw [g3 k]
        split_ifs with e1 e2
        · omega
        · exact ⟨hA m hm1 (by omega), hs3f⟩
        · exact hE k (by omega) h2
      · intro k h1 h2
        rw [g3 k]
        split_ifs with e1 e2
        · omega
        · exact hs3f
        · exact hCw k h1 h2
    · simp only [if_neg hs3]
      exact ⟨trivial, fun k _ => trivial, fun P hP => hP, by omega, le_rfl, hp,
        fun k h1 h2 => hA k h1 h2, fun k h1 h2 => hE k h1 h2, hCw⟩


theorem dpDup_spec (lo hi m : Nat) (p : Interpreter) (t : List Interpreter × Nat × Nat)
    (hm : m = (lo + hi) / 2) (h12 : hi - lo > 12)
    (hlen : hi ≤ t.1.length)
    (hb1 : lo + 1 ≤ t.2.1) (hc1 : t.2.2 ≤ hi - 1)
    (hcb : t.2.2 ≤ t.2.1) (hbc1 : t.2.1 ≤ t.2.2 + 1)
    (hp : t.1.getD lo default = p)
    (hA : ∀ k, lo + 1 ≤ k → k < t.2.1 → vlt p (t.1.getD k default) = false)
    (hC : ∀ k, t.2.2 ≤ k → k < hi - 1 → vlt p (t.1.getD k default) = true)
    (hHi : vlt (t.1.getD (hi - 1) default) p = false) :
    (dpDup lo hi m t).1.length = t.1.length ∧
    (∀ k, k < lo ∨ hi ≤ k → (dpDup lo hi m t).1.getD k default = t.1.getD k default) ∧
    (∀ P : Interpreter → Prop, SegAll t.1 lo hi P → SegAll (dpDup lo hi m t).1 lo hi P) ∧
    lo + 1 ≤ (dpDup lo hi m t).2.1 ∧ (dpDup lo hi m t).2.1 ≤ t.2.1 ∧
    t.2.2 ≤ (dpDup lo hi m t).2.2.1 ∧ (dpDup lo hi m t).2.2.1 ≤ hi ∧
    (dpDup lo hi m t).1.getD lo default = p ∧
    (∀ k, lo + 1 ≤ k → k < (dpDup lo hi m t).2.1 →
      vlt p ((dpDup lo hi m t).1.getD k default) = false) ∧
    (∀ k, (dpDup lo hi m t).2.1 ≤ k → k < (dpDup lo hi m t).2.2.1 →
      vlt p ((dpDup lo hi m t).1.getD k default) = false ∧
      vlt ((dpDup lo hi m t).1.getD k default) p = false) ∧
    (∀ k, (dpDup lo hi m t).2.2.1 ≤ k → k < hi →
      vlt ((dpDup lo hi m t).1.getD k default) p = false) := by
  obtain ⟨l, b, c⟩ := t
  dsimp only at *
  unfold dpDup
  dsimp only
  simp only [decide_eq_true_eq]
  by_cases hdup : ¬ hi - c < 5 ∧ hi - c < (hi - lo) / 4
  · simp only [if_pos hdup]
    obtain ⟨hn5, hc4⟩ := hdup
    have hn21 : hi - lo > 20 := by omega
    have hclo : lo + 16 ≤ c := by omega
    by_cases hs1 : ¬ lessAt l lo (hi - 1) = true
    · simp only [if_pos hs1]
      have hs1f : vlt p (l.getD (hi - 1) default) = false := by
        have h : lessAt l lo (hi - 1) = false := by
          cases hv : lessAt l lo (hi - 1)
          · rfl
          · exact absurd hv hs1
        unfold lessAt at h
        rw [hp] at h
        exact h
      have hcl : c < l.length := by omega
      have hhl : hi - 1 < l.length := by omega
      have g1 : ∀ k, (lswap l c (hi - 1)).getD k default =
          if k = c then l.getD (hi - 1) default
          else if k = hi - 1 then l.getD c default
          else l.getD k default := fun k => lswap_getD hcl hhl k
      have K4 : (lswap l c (hi - 1)).getD lo default = p := by
        rw [g1 lo, if_neg (by omega), if_neg (by omega)]
        exact hp
      have K5 : ∀ k, lo + 1 ≤ k → k < b →
          vlt p ((lswap l c (hi - 1)).getD k default) = false := by
        intro k h1 h2
        rw [g1 k]
        split_ifs with e1 e2
        · exact hs1f
        · omega
        · exact hA k h1 h2
      have K6 : ∀ k, b ≤ k → k < c + 1 →
          vlt p ((lswap l c (hi - 1)).getD k default) = false ∧
          vlt ((lswap l c (hi - 1)).getD k default) p = false := by
        intro k h1 h2
        have hkc : k = c := by omega
        subst hkc
        rw [g1 k, if_pos rfl]
        exact ⟨hs1f, hHi⟩
      have K7 : ∀ k, c + 1 ≤ k → k < hi →
          vlt ((lswap l c (hi - 1)).getD k default) p = false := by
        intro k h1 h2
        rw [g1 k]
        split_ifs with e1 e2
        · omega
        · exact vlt_asymm (hC c le_rfl (by omega))
        · exact vlt_asymm (hC k (by omega) (by omega))
      obtain ⟨D1, D2, D3, D4, D5, D6, D7, D8, D9⟩ :=
        dupTail_spec lo hi m p (lswap l c (hi - 1)) b (c + 1) hm hn21 (by omega) (by omega)
          (by omega) (by omega) (by rw [lswap_length]; exact hlen) K4 K5 K6 K7
      refine ⟨by rw [D1, lswap_length],
        fun k hk => (D2 k hk).trans (lswap_getD_ne (by omega) (by omega)),
        fun P hP => D3 P (lswap_segAll (by omega) (by omega) (by omega) (by omega) hlen hP),
        D4, D5, by omega, by omega, D6, D7, D8, D9⟩
    · simp only [if_neg hs1]
      have hs1t : vlt p (l.getD (hi - 1) default) = true := by
        have h : lessAt l lo (hi - 1) = true := Decidable.not_not.mp hs1
        unfold lessAt at h
        rw [hp] at h
        exact h
      have K6 : ∀ k, b ≤ k → k < c →
          vlt p (l.getD k default) = false ∧ vlt (l.getD k default) p = false :=
        fun k h1 h2 => absurd h2 (by omega)
      have K7 : ∀ k, c ≤ k → k < hi → vlt (l.getD k default) p = false := by
        intro k h1 h2
        by_cases hk : k = hi - 1
        · subst hk
          exact vlt_asymm hs1t
        · exact vlt_asymm (hC k h1 (by omega))
      obtain ⟨D1, D2, D3, D4, D5, D6, D7, D8, D9⟩ :=
        dupTail_spec lo hi m p l b c hm hn21 (by omega) (by omega) (by omega) (by omega)
          hlen hp hA K6 K7
      exact ⟨D1, D2, D3, D4, D5, le_rfl, by omega, D6, D7, D8, D9⟩
  · simp only [if_neg hdup]
    refine ⟨trivial, fun k _ => trivial, fun P hP => hP, hb1, le_rfl, le_rfl, by omega, hp,
      fun k h1 h2 => hA k h1 h2, fun k h1 h2 => absurd h2 (by omega), ?_⟩
    intro k h1 h2
    by_cases hk : k = hi - 1
    · subst hk
      exact hHi
    · exact vlt_asymm (hC k h1 (by omega))


theorem fineLast_spec (lo hi : Nat) (p : Interpreter) (l : List Interpreter) (b c : Nat)
    (hlen : hi ≤ l.length) (hb1 : lo + 1 ≤ b) (hbh : b ≤ hi) (hbc : b ≤ c + 1)
    (hc2 : c ≤ hi) (hc2lo : lo + 1 ≤ c)
    (hp : l.getD lo default = p)
    (hA : ∀ k, lo + 1 ≤ k → k < b → vlt p (l.getD k default) = false)
    (hE : ∀ k, b ≤ k → k < c →
      vlt p (l.getD k default) = false ∧ vlt (l.getD k default) p = false)
    (hCw : ∀ k, c ≤ k → k < hi → vlt (l.getD k default) p = false) :
    (if lo ≠ b - 1 then lswap l lo (b - 1) else l).length = l.length ∧
    (∀ k, k < lo ∨ hi ≤ k →
      (if lo ≠ b - 1 then lswap l lo (b - 1) else l).getD k default = l.getD k default) ∧
    (∀ P : Interpreter → Prop, SegAll l lo hi P →
      SegAll (if lo ≠ b - 1 then lswap l lo (b - 1) else l) lo hi P) ∧
    lo ≤ b - 1 ∧ b - 1 ≤ c ∧ c ≤ hi ∧ b - 1 < hi ∧ lo < c ∧
    (∀ k, lo ≤ k → k < b - 1 →
      vlt p ((if lo ≠ b - 1 then lswap l lo (b - 1) else l).getD k default) = false) ∧
    (∀ k, b - 1 ≤ k → k < c →
      vlt p ((if lo ≠ b - 1 then lswap l lo (b - 1) else l).getD k default) = false ∧
      vlt ((if lo ≠ b - 1 then lswap l lo (b - 1) else l).getD k default) p = false) ∧
    (∀ k, c ≤ k → k < hi →
      vlt ((if lo ≠ b - 1 then lswap l lo (b - 1) else l).getD k default) p = false) := by
  have hpp : vlt p p = false := vlt_irrefl p
  by_cases hsw : lo ≠ b - 1
  · simp only [if_pos hsw]
    have hl1 : lo < l.length := by omega
    have hbl : b - 1 < l.length := by omega
    have g : ∀ k, (lswap l lo (b - 1)).getD k default =
        if k = lo then l.getD (b - 1) default
        else if k = b - 1 then l.getD lo default
        else l.getD k default := fun k => lswap_getD hl1 hbl k
    refine ⟨lswap_length _ _ _, ?_, ?_, by omega, by omega, hc2, by omega, by omega,
      ?_, ?_, ?_⟩
    · intro k hk
      exact lswap_getD_ne (by omega) (by omega)
    · intro P hP
      exact lswap_segAll le_rfl (by omega) (by omega) (by omega) hlen hP
    · intro k h1 h2
      rw [g k]
      split_ifs with e1 e2
      · exact hA (b - 1) (by omega) (by omega)
      · omega
      · exact hA k (by omega) (by omega)
    · intro k h1 h2
      rw [g k]
      split_ifs with e1 e2
      · omega
      · rw [hp]
        exact ⟨hpp, hpp⟩
      · exact hE k (by omega) h2
    · intro k h1 h2
      rw [g k]
      split_ifs with e1 e2
      · omega
      · rw [hp]
        exact hpp
      · exact hCw k h1 h2
  · simp only [if_neg hsw]
    have hlob : lo = b - 1 := Decidable.not_not.mp hsw
    refine ⟨trivial, fun k _ => trivial, fun P hP => hP, by omega, by omega, hc2, by omega,
      by omega, fun k h1 h2 => absurd h2 (by omega), ?_, hCw⟩
    intro k h1 h2
    by_cases hk : k = b - 1
    · subst hk
      rw [← hlob, hp]
      exact ⟨hpp, hpp⟩
    · exact hE k (by omega) h2

theorem dpFine_spec (lo hi a0 : Nat) (p : Interpreter) (t2 : List Interpreter × Nat × Nat × Bool)
    (hlen : hi ≤ t2.1.length)
    (ha0 : lo + 1 ≤ a0)
    (hb1 : lo + 1 ≤ t2.2.1) (hbh : t2.2.1 ≤ hi)
    (hbc : t2.2.1 ≤ t2.2.2.1 + 1)
    (hc2 : t2.2.2.1 ≤ hi) (hc2lo : lo + 1 ≤ t2.2.2.1)
    (hp : t2.1.getD lo default = p)
    (hA : ∀ k, lo + 1 ≤ k → k < t2.2.1 → vlt p (t2.1.getD k default) = false)
    (hE : ∀ k, t2.2.1 ≤ k → k < t2.2.2.1 →
      vlt p (t2.1.getD k default) = false ∧ vlt (t2.1.getD k default) p = false)
    (hCw : ∀ k, t2.2.2.1 ≤ k → k < hi → vlt (t2.1.getD k default) p = false) :
    (dpFine lo a0 t2).1.length = t2.1.length ∧
    (∀ k, k < lo ∨ hi ≤ k → (dpFine lo a0 t2).1.getD k default = t2.1.getD k default) ∧
    (∀ P : Interpreter → Prop, SegAll t2.1 lo hi P → SegAll (dpFine lo a0 t2).1 lo hi P) ∧
    lo ≤ (dpFine lo a0 t2).2.1 ∧ (dpFine lo a0 t2).2.1 ≤ (dpFine lo a0 t2).2.2 ∧
    (dpFine lo a0 t2).2.2 ≤ hi ∧ (dpFine lo a0 t2).2.1 < hi ∧ lo < (dpFine lo a0 t2).2.2 ∧
    (∀ k, lo ≤ k → k < (dpFine lo a0 t2).2.1 →
      vlt p ((dpFine lo a0 t2).1.getD k default) = false) ∧
    (∀ k, (dpFine lo a0 t2).2.1 ≤ k → k < (dpFine lo a0 t2).2.2 →
      vlt p ((dpFine lo a0 t2).1.getD k default) = false ∧
      vlt ((dpFine lo a0 t2).1.getD k default) p = false) ∧
    (∀ k, (dpFine lo a0 t2).2.2 ≤ k → k < hi →
      vlt ((dpFine lo a0 t2).1.getD k default) p = false) := by
  obtain ⟨l, b, c, prot⟩ := t2
  dsimp only at *
  unfold dpFine
  dsimp only
  cases prot with
  | false =>
    simp only [if_neg Bool.false_ne_true]
    exact fineLast_spec lo hi p l b c hlen hb1 hbh hbc hc2 hc2lo hp hA hE hCw
  | true =>
    simp only [eq_self_iff_true, if_true]
    obtain ⟨P1, P2, P3, P4, P5, P6, P7⟩ := dpProtect_spec lo p (lo + 1) (b - a0) l a0 b
      le_rfl (by omega) ha0 (by omega) hp hA
    set T3 := dpProtect lo (b - a0) l a0 b with hT3
    have hT2lo : lo + 1 ≤ T3.2 := by omega
    obtain ⟨F1, F2, F3, F4, F5, F6, F7, F8, F9, F10, F11⟩ :=
      fineLast_spec lo hi p T3.1 T3.2 c
        (by rw [P1]; exact hlen) hT2lo (by omega) (by omega) hc2 hc2lo
        (by rw [P2 lo (Or.inl (by omega))]; exact hp)
        (fun k h1 h2 => P5 k h1 (by omega))
        (by
          intro k h1 h2
          by_cases hkb : k < b
          · exact ⟨P5 k (by omega) hkb, P6 k h1 hkb⟩
          · rw [P2 k (Or.inr (by omega))]
            exact hE k (by omega) h2)
        (by
          intro k h1 h2
          by_cases hkb : b ≤ k
          · rw [P2 k (Or.inr hkb)]
            exact hCw k h1 h2
          · by_cases hka : k < a0
            · rw [P2 k (Or.inl hka)]
              exact hCw k h1 h2
            · have hcb1 : c = b - 1 := by omega
              have hlb : lessAt l (b - 1) lo = false := by
                have h := hCw c le_rfl (by omega)
                rw [hcb1] at h
                unfold lessAt
                rw [hp]
                exact h
              have hstep : T3.2 ≤ b - 1 := P7 (by omega) hlb
              exact P6 k (by omega) (by omega))
    refine ⟨by rw [F1, P1], ?_, ?_, F4, F5, F6, F7, F8, F9, F10, F11⟩
    · intro k hk
      refine (F2 k hk).trans (P2 k ?_)
      rcases hk with h | h
      · exact Or.inl (by omega)
      · exact Or.inr (by omega)
    · intro P hP
      exact F3 P (dpProtect_segAll (b - a0) l a0 b lo hi (by omega) (by omega) hlen hP)


theorem doPivotGo_spec (l : List Interpreter) (lo hi : Nat)
    (h12 : hi - lo > 12) (hhi : hi ≤ l.length) :
    (doPivotGo l lo hi).1.length = l.length ∧
    (∀ k, k < lo ∨ hi ≤ k → (doPivotGo l lo hi).1.getD k default = l.getD k default) ∧
    (∀ P : Interpreter → Prop, SegAll l lo hi P → SegAll (doPivotGo l lo hi).1 lo hi P) ∧
    lo ≤ (doPivotGo l lo hi).2.1 ∧ (doPivotGo l lo hi).2.1 ≤ (doPivotGo l lo hi).2.2 ∧
    (doPivotGo l lo hi).2.2 ≤ hi ∧ (doPivotGo l lo hi).2.1 < hi ∧
    lo < (doPivotGo l lo hi).2.2 ∧
    ∃ p, (∀ k, lo ≤ k → k < (doPivotGo l lo hi).2.1 →
        vlt p ((doPivotGo l lo hi).1.getD k default) = false) ∧
      (∀ k, (doPivotGo l lo hi).2.1 ≤ k → k < (doPivotGo l lo hi).2.2 →
        vlt p ((doPivotGo l lo hi).1.getD k default) = false ∧
        vlt ((doPivotGo l lo hi).1.getD k default) p = false) ∧
      (∀ k, (doPivotGo l lo hi).2.2 ≤ k → k < hi →
        vlt ((doPivotGo l lo hi).1.getD k default) p = false) := by
  rw [doPivotGo_eq l lo hi]
  obtain ⟨S1, S2, S3, S4⟩ := dpSel_spec l lo hi h12 hhi
  set L1 := dpSel l lo hi with hL1
  set p := L1.getD lo default with hpdef
  obtain ⟨A1, A2, A3, A4⟩ := dpALoop_spec L1 (hi - 1) lo (hi - 1 - (lo + 1)) (lo + 1)
    le_rfl (by omega)
  set a0 := dpALoop L1 (hi - 1) lo (hi - 1 - (lo + 1)) (lo + 1) with ha0d
  have hL1len : hi - 1 ≤ L1.length := by rw [S1]; omega
  obtain ⟨M1, M2, M3, M4, M5, M6, M7, M8, M9⟩ :=
    dpMain_spec lo p (lo + 1) (hi - 1) (hi - 1 - a0) L1 a0 (hi - 1)
      le_rfl (by omega) (by omega) le_rfl (by omega) hL1len hpdef.symm
      (by
        intro k h1 h2
        have h := A3 k h1 h2
        unfold lessAt at h
        exact vlt_asymm h)
      (fun k h1 h2 => absurd h2 (by omega))
  set T := dpMain lo (hi - 1 - a0) L1 a0 (hi - 1) with hTd
  have hTp : T.1.getD lo default = p := by
    rw [M2 lo (Or.inl (by omega))]
  have hThi : vlt (T.1.getD (hi - 1) default) p = false := by
    rw [M2 (hi - 1) (Or.inr (by omega))]
    exact S4
  have hTlen : hi ≤ T.1.length := by rw [M1, S1]; exact hhi
  obtain ⟨D1, D2, D3, D4, D5, D6, D7, D8, D9, D10, D11⟩ :=
    dpDup_spec lo hi ((lo + hi) / 2) p T rfl h12 hTlen (by omega) M4 M5 M6 hTp M8 M9 hThi
  set T2 := dpDup lo hi ((lo + hi) / 2) T with hT2d
  obtain ⟨G1, G2, G3, G4, G5, G6, G7, G8, G9, G10, G11⟩ :=
    dpFine_spec lo hi a0 p T2
      (by rw [D1]; exact hTlen) A1 D4 (by omega) (by omega) D7 (by omega)
      D8 D9 D10 D11
  refine ⟨?_, ?_, ?_, G4, G5, G6, G7, G8, p, G9, G10, G11⟩
  · rw [G1, D1, M1, S1]
  · intro k hk
    refine ((G2 k hk).trans (D2 k hk)).trans ((M2 k ?_).trans (S2 k hk))
    rcases hk with h | h
    · exact Or.inl (by omega)
    · exact Or.inr (by omega)
  · intro P hP
    exact G3 P (D3 P (@dpMain_segAll lo P (hi - 1 - a0) L1 a0 (hi - 1) lo hi
      (by omega) (by omega) (by rw [S1]; exact hhi) (S3 P hP)))


theorem sortedSeg_congr {L L' : List Interpreter} {a b : Nat}
    (h : ∀ k, a ≤ k → k < b → L'.getD k default = L.getD k default)
    (hs : SortedSeg L a b) : SortedSeg L' a b := by
  intro x y hax hxy hyb
  rw [h y (by omega) hyb, h x hax (by omega)]
  exact hs x y hax hxy hyb

theorem sorted_glue (L : List Interpreter) (a mlo mhi b : Nat) (p : Interpreter)
    (h1 : a ≤ mlo) (h2 : mlo ≤ mhi) (h3 : mhi ≤ b)
    (sA : SortedSeg L a mlo) (sC : SortedSeg L mhi b)
    (rA : ∀ k, a ≤ k → k < mlo → vlt p (L.getD k default) = false)
    (rM : ∀ k, mlo ≤ k → k < mhi →
      vlt p (L.getD k default) = false ∧ vlt (L.getD k default) p = false)
    (rC : ∀ k, mhi ≤ k → k < b → vlt (L.getD k default) p = false) :
    SortedSeg L a b := by
  intro x y hax hxy hyb
  by_cases hx1 : x < mlo
  · by_cases hy1 : y < mlo
    · exact sA x y hax hxy hy1
    · by_cases hy2 : y < mhi
      · exact vlt_false_trans (rA x hax hx1) (rM y (by omega) hy2).2
      · exact vlt_false_trans (rA x hax hx1) (rC y (by omega) hyb)
  · by_cases hx2 : x < mhi
    · by_cases hy2 : y < mhi
      · exact vlt_false_trans (rM x (by omega) hx2).1 (rM y (by omega) hy2).2
      · exact vlt_false_trans (rM x (by omega) hx2).1 (rC y (by omega) hyb)
    · exact sC x y (by omega) hxy hyb

theorem quickSortGo_struct : ∀ (fuel : Nat) (l : List Interpreter) (a b depth : Nat),
    b ≤ l.length →
    (quickSortGo fuel l a b depth).length = l.length ∧
    (∀ k, k < a ∨ b ≤ k → (quickSortGo fuel l a b depth).getD k default = l.getD k default) ∧
    (∀ P : Interpreter → Prop, SegAll l a b P →
      SegAll (quickSortGo fuel l a b depth) a b P) := by
  intro fuel
  induction fuel with
  | zero => intro l a b depth _; exact ⟨rfl, fun k _ => rfl, fun P hP => hP⟩
  | succ f ih =>
    intro l a b depth hbl
    unfold quickSortGo
    dsimp only
    by_cases h1 : b - a > 12
    · simp only [if_pos h1]
      by_cases hd : depth = 0
      · simp only [if_pos hd]
        exact ⟨heapSortGo_length l a b, fun k hk => heapSortGo_frame l a b k hk,
          fun P hP => heapSortGo_segAll (by omega) hbl hP⟩
      · simp only [if_neg hd]
        obtain ⟨W1, W2, W3, W4, W5, W6, W7, W8, _⟩ := doPivotGo_spec l a b h1 hbl
        set D := doPivotGo l a b with hD
        by_cases hcmp : D.2.1 - a < b - D.2.2
        · simp only [if_pos hcmp]
          obtain ⟨Q1a, Q1b, Q1c⟩ := ih D.1 a D.2.1 (depth - 1) (by rw [W1]; omega)
          set Q1 := quickSortGo f D.1 a D.2.1 (depth - 1) with hQ1
          obtain ⟨Q2a, Q2b, Q2c⟩ := ih Q1 D.2.2 b (depth - 1) (by rw [Q1a, W1]; omega)
          refine ⟨by rw [Q2a, Q1a, W1], ?_, ?_⟩
          · intro k hk
            rw [Q2b k (by rcases hk with h | h; exact Or.inl (by omega); exact Or.inr h),
              Q1b k (by rcases hk with h | h; exact Or.inl h; exact Or.inr (by omega)),
              W2 k hk]
          · intro P hP
            have hPD : SegAll D.1 a b P := W3 P hP
            have hP1 : SegAll Q1 a b P := by
              intro k hk1 hk2
              by_cases hkm : k < D.2.1
              · exact Q1c P (fun q hq1 hq2 => hPD q hq1 (by omega)) k hk1 hkm
              · rw [Q1b k (Or.inr (by omega))]
                exact hPD k hk1 hk2
            intro k hk1 hk2
            by_cases hkm : D.2.2 ≤ k
            · exact Q2c P (fun q hq1 hq2 => hP1 q (by omega) hq2) k hkm hk2
            · rw [Q2b k (Or.inl (by omega))]
              exact hP1 k hk1 hk2
        · simp only [if_neg hcmp]
          obtain ⟨Q1a, Q1b, Q1c⟩ := ih D.1 D.2.2 b (depth - 1) (by rw [W1]; omega)
          set Q1 := quickSortGo f D.1 D.2.2 b (depth - 1) with hQ1
          obtain ⟨Q2a, Q2b, Q2c⟩ := ih Q1 a D.2.1 (depth - 1) (by rw [Q1a, W1]; omega)
          refine ⟨by rw [Q2a, Q1a, W1], ?_, ?_⟩
          · intro k hk
            rw [Q2b k (by rcases hk with h | h; exact Or.inl h; exact Or.inr (by omega)),
              Q1b k (by rcases hk with h | h; exact Or.inl (by omega); exact Or.inr h),
              W2 k hk]
          · intro P hP
            have hPD : SegAll D.1 a b P := W3 P hP
            have hP1 : SegAll Q1 a b P := by
              intro k hk1 hk2
              by_cases hkm : D.2.2 ≤ k
              · exact Q1c P (fun q hq1 hq2 => hPD q (by omega) hq2) k hkm hk2
              · rw [Q1b k (Or.inl (by omega))]
                exact hPD k hk1 hk2
            intro k hk1 hk2
            by_cases hkm : k < D.2.1
            · exact Q2c P (fun q hq1 hq2 => hP1 q hq1 (by omega)) k hk1 hkm
            · rw [Q2b k (Or.inr (by omega))]
              exact hP1 k hk1 hk2
    · simp only [if_neg h1]
      by_cases h2 : b - a > 1
      · simp only [if_pos h2]
        refine ⟨by rw [insertionSortGo_length, shellPassGo_length], ?_, ?_⟩
        · intro k hk
          rw [insertionSortGo_frame _ _ _ k hk, shellPassGo_frame _ _ _ k hk]
        · intro P hP
          exact insertionSortGo_segAll (by rw [shellPassGo_length]; exact hbl)
            (shellPassGo_segAll hbl hP)
      · simp only [if_neg h2]
        exact ⟨trivial, fun k _ => trivial, fun P hP => hP⟩


theorem quickSortGo_sorts : ∀ (fuel : Nat) (l : List Interpreter) (a b depth : Nat),
    b - a ≤ fuel → b ≤ l.length → SortedSeg (quickSortGo fuel l a b depth) a b := by
  intro fuel
  induction fuel with
  | zero =>
    intro l a b depth hf hbl x y hax hxy hyb
    omega
  | succ f ih =>
    intro l a b depth hf hbl
    unfold quickSortGo
    dsimp only
    by_cases h1 : b - a > 12
    · simp only [if_pos h1]
      by_cases hd : depth = 0
      · simp only [if_pos hd]
        exact heapSortGo_sorts l a b hbl
      · simp only [if_neg hd]
        obtain ⟨W1, W2, W3, W4, W5, W6, W7, W8, p, R1, R2, R3⟩ := doPivotGo_spec l a b h1 hbl
        set D := doPivotGo l a b with hD
        by_cases hcmp : D.2.1 - a < b - D.2.2
        · simp only [if_pos hcmp]
          obtain ⟨Q1a, Q1b, Q1c⟩ := quickSortGo_struct f D.1 a D.2.1 (depth - 1)
            (by rw [W1]; omega)
          set Q1 := quickSortGo f D.1 a D.2.1 (depth - 1) with hQ1
          have hs1 : SortedSeg Q1 a D.2.1 :=
            ih D.1 a D.2.1 (depth - 1) (by omega) (by rw [W1]; omega)
          obtain ⟨Q2a, Q2b, Q2c⟩ := quickSortGo_struct f Q1 D.2.2 b (depth - 1)
            (by rw [Q1a, W1]; omega)
          have hs2 : SortedSeg (quickSortGo f Q1 D.2.2 b (depth - 1)) D.2.2 b :=
            ih Q1 D.2.2 b (depth - 1) (by omega) (by rw [Q1a, W1]; omega)
          apply sorted_glue _ a D.2.1 D.2.2 b p W4 W5 W6
          · exact sortedSeg_congr (fun k hk1 hk2 => Q2b k (Or.inl (by omega))) hs1
          · exact hs2
          · intro k hk1 hk2
            rw [Q2b k (Or.inl (by omega))]
            exact Q1c (fun x => vlt p x = false) (fun q hq1 hq2 => R1 q hq1 hq2) k hk1 hk2
          · intro k hk1 hk2
            rw [Q2b k (Or.inl (by omega)), Q1b k (Or.inr hk1)]
            exact R2 k hk1 hk2
          · intro k hk1 hk2
            have hQ1C : SegAll Q1 D.2.2 b (fun x => vlt x p = false) := by
              intro q hq1 hq2
              rw [Q1b q (Or.inr (by omega))]
              exact R3 q hq1 hq2
            exact Q2c _ hQ1C k hk1 hk2
        · simp only [if_neg hcmp]
          obtain ⟨Q1a, Q1b, Q1c⟩ := quickSortGo_struct f D.1 D.2.2 b (depth - 1)
            (by rw [W1]; omega)
          set Q1 := quickSortGo f D.1 D.2.2 b (depth - 1) with hQ1
          have hs1 : SortedSeg Q1 D.2.2 b :=
            ih D.1 D.2.2 b (depth - 1) (by omega) (by rw [W1]; omega)
          obtain ⟨Q2a, Q2b, Q2c⟩ := quickSortGo_struct f Q1 a D.2.1 (depth - 1)
            (by rw [Q1a, W1]; omega)
          have hs2 : SortedSeg (quickSortGo f Q1 a D.2.1 (depth - 1)) a D.2.1 :=
            ih Q1 a D.2.1 (depth - 1) (by omega) (by rw [Q1a, W1]; omega)
          apply sorted_glue _ a D.2.1 D.2.2 b p W4 W5 W6
          · exact hs2
          · exact sortedSeg_congr (fun k hk1 hk2 => Q2b k (Or.inr (by omega))) hs1
          · intro k hk1 hk2
            have hQ1A : SegAll Q1 a D.2.1 (fun x => vlt p x = false) := by
              intro q hq1 hq2
              rw [Q1b q (Or.inl (by omega))]
              exact R1 q hq1 hq2
            exact Q2c _ hQ1A k hk1 hk2
          · intro k hk1 hk2
            rw [Q2b k (Or.inr hk1), Q1b k (Or.inl (by omega))]
            exact R2 k hk1 hk2
          · intro k hk1 hk2
            rw [Q2b k (Or.inr (by omega))]
            exact Q1c (fun x => vlt x p = false) (fun q hq1 hq2 => R3 q hq1 hq2) k hk1 hk2
    · simp only [if_neg h1]
      by_cases h2 : b - a > 1
      · simp only [if_pos h2]
        exact insertionSortGo_sorts (shellPassGo l a b) a b
          (by rw [shellPassGo_length]; exact hbl)
      · simp only [if_neg h2]
        intro x y hax hxy hyb
        omega

theorem sortGo_sorted (l : List Interpreter) : SortedSeg (sortGo l) 0 l.length :=
  quickSortGo_sorts l.length l 0 l.length (maxDepth l.length) (by omega) le_rfl

theorem sortGo_length (l : List Interpreter) : (sortGo l).length = l.length :=
  (quickSortGo_struct l.length l 0 l.length (maxDepth l.length) le_rfl).1

end Interp

/-- C4: after `interpreter.Sort` (embedded as `sortGo`), any two elements
A before B of the result satisfy A.Major > B.Major, or A.Major = B.Major
and A.Minor ≥ B.Minor, the components being compared as integers. -/
theorem claim_C4 (l : List Interp.Interpreter) (i j : Nat) (hij : i < j)
    (hj : j < (Interp.sortGo l).length) :
    ((Interp.sortGo l).getD i default).Major > ((Interp.sortGo l).getD j default).Major ∨
    (((Interp.sortGo l).getD i default).Major = ((Interp.sortGo l).getD j default).Major ∧
      ((Interp.sortGo l).getD i default).Minor ≥ ((Interp.sortGo l).getD j default).Minor) := by
  have h := Interp.sortGo_sorted l i j (Nat.zero_le _) hij
    (by rw [← Interp.sortGo_length l]; exact hj)
  rw [Interp.vlt_false_iff] at h
  rcases h with h | ⟨h1, h2⟩
  · exact Or.inl h
  · exact Or.inr ⟨h1.symm, h2⟩

/-- Witness for C4 at the concrete list [(3, 9), (3, 10)]: the sorted
result ranks 3.10 at position 0 above 3.9 at position 1. -/
theorem claim_C4_witness :
    (0 : Nat) < 1 ∧
    1 < (Interp.sortGo [⟨[], 3, 9⟩, ⟨[], 3, 10⟩]).length ∧
    (((Interp.sortGo [⟨[], 3, 9⟩, ⟨[], 3, 10⟩]).getD 0 default).Major >
        ((Interp.sortGo [⟨[], 3, 9⟩, ⟨[], 3, 10⟩]).getD 1 default).Major ∨
      (((Interp.sortGo [⟨[], 3, 9⟩, ⟨[], 3, 10⟩]).getD 0 default).Major =
          ((Interp.sortGo [⟨[], 3, 9⟩, ⟨[], 3, 10⟩]).getD 1 default).Major ∧
        ((Interp.sortGo [⟨[], 3, 9⟩, ⟨[], 3, 10⟩]).getD 0 default).Minor ≥
          ((Interp.sortGo [⟨[], 3, 9⟩, ⟨[], 3, 10⟩]).getD 1 default).Minor)) :=
  ⟨Nat.one_pos, by decide, claim_C4 [⟨[], 3, 9⟩, ⟨[], 3, 10⟩] 0 1 Nat.one_pos (by decide)⟩
